import Mathlib

/-!
Verification of the Hammer Reversi engine (`src/main.c`).

Shallow embedding of the engine's core: the bitboard move generator
(`generate_child_moves`), the bottom-up evaluator (`recalculate_move_values`),
the pruning serial search (`search_for_moves_serial`), and the per-turn entry
point (`revai_ai`), together with theorems checking the natural-language
specification against this embedding.

Conventions:
* C `uint64_t` bitboards are `Nat` values below `2^64`; truncation on left
  shifts is made explicit through `u64`.
* C `int16_t` values are `Int` values; conversions that truncate into
  `int16_t` in C are made explicit through `i16`.
* A board cell `(x, y)` (column `x`, row `y`, both `0..7`) corresponds to bit
  `y * 8 + x`, exactly as the `index` variable of `generate_child_moves`.
-/

namespace Hammer

def BOARD_SIZE : Nat := 8

def MOVE_CUTOFF : Nat := 15000000

/-- Truncation to 64 bits: C `uint64_t` arithmetic. -/
def u64 (n : Nat) : Nat := n % 2 ^ 64

def INT16_MIN : Int := -32768

def INT16_MAX : Int := 32767

/-- C `~` (bitwise complement) on `uint64_t`: XOR with the all-ones word. -/
def not64 (n : Nat) : Nat := n ^^^ (2 ^ 64 - 1)

/-- Wrap an `Int` into the `int16_t` range, modelling C's conversion of a
wider value into `int16_t`. -/
def i16 (n : Int) : Int := (n + 32768) % 65536 - 32768

/-- `_popcnt64`: the number of set bits among the low 64 bits. -/
def popcnt64 (n : Nat) : Nat := go 64 n
where go : Nat → Nat → Nat
  | 0, _ => 0
  | f + 1, m => m % 2 + go f (m / 2)

/-- The static positional weight table `BOARD_VALUES` (row-major, 8×8). -/
def BOARD_VALUES : List Int :=
  [1,   -30,  1,   -1,   -1,    1,   -30,  1,
   -30, -30,  0,    0,    0,    0,   -30,  -30,
   1,   0,    0,    0,    0,    0,   0,    1,
   -1,  0,    0,    0,    0,    0,   0,   -1,
   -1,  0,    0,    0,    0,    0,   0,   -1,
   1,   0,    0,    0,    0,    0,   0,    1,
   -30, -30,  0,    0,    0,    0,   -30,  -30,
   1,   -30,  1,   -1,   -1,    1,   -30,  1]

/-- `BOARD_VALUES[y * BOARD_SIZE + x]`. -/
def boardValue (x y : Nat) : Int := BOARD_VALUES.getD (y * BOARD_SIZE + x) 0

/- The eight `eval_*` helpers all compute `changed + BOARD_VALUES[y*8+x]`
(they receive the child's bitboards but do not use them). -/

def eval_left (_p _o : Nat) (x y : Nat) (changed : Int) : Int :=
  changed + boardValue x y

def eval_right (_p _o : Nat) (x y : Nat) (changed : Int) : Int :=
  changed + boardValue x y

def eval_down (_p _o : Nat) (x y : Nat) (changed : Int) : Int :=
  changed + boardValue x y

def eval_up (_p _o : Nat) (x y : Nat) (changed : Int) : Int :=
  changed + boardValue x y

def eval_up_left (_p _o : Nat) (x y : Nat) (changed : Int) : Int :=
  changed + boardValue x y

def eval_up_right (_p _o : Nat) (x y : Nat) (changed : Int) : Int :=
  changed + boardValue x y

def eval_down_left (_p _o : Nat) (x y : Nat) (changed : Int) : Int :=
  changed + boardValue x y

def eval_down_right (_p _o : Nat) (x y : Nat) (changed : Int) : Int :=
  changed + boardValue x y

/-! ## The move generator (`generate_child_moves`)

Each of the eight hand-written direction blocks of `generate_child_moves` is a
guarded scan loop over the board indices going outward from the placement,
starting two cells out (one cell out for the `down` block, whose loop starts
at `testY = y - 1`; the extra first cell is an opponent tile by the `down`
adjacency mask, so the loop's first iteration always hits the `continue`
branch, exactly as in the C code).  The common loop shape is `scanRun`. -/

/-- One direction-scan loop body: given the board indices along the direction
(in scan order), skip opponent tiles, fail on an empty tile or on running out
of board, and return the position (within the list) of the terminating own
tile.  In C the "own tile" case is the `else` of the opponent test and the
empty test, hence the test order below. -/
def scanRun (opponent empty : Nat) : List Nat → Option Nat
  | [] => none
  | i :: rest =>
    if opponent.testBit i then (scanRun opponent empty rest).map (· + 1)
    else if empty.testBit i then none
    else some 0

/-- The full-row strip constant `0b11111111`. -/
def ROW_PATTERN : Nat := 0xFF

/-- The full-column strip constant
`0b0000000100000001000000010000000100000001000000010000000100000001`. -/
def COL_PATTERN : Nat := 0x0101010101010101

/-- The `/` anti-diagonal strip constant
`0b0000000100000010000001000000100000010000001000000100000010000000`. -/
def ANTI_DIAG_PATTERN : Nat := 0x0102040810204080

/-- The `\` main-diagonal strip constant
`0b1000000001000000001000000001000000001000000001000000001000000001`. -/
def MAIN_DIAG_PATTERN : Nat := 0x8040201008040201

/- The eight directional adjacency masks precomputed in
`generate_child_moves` (`empty` is `~(player | opponent)` there). -/

/-- `right = empty & (opponent << 1)`. -/
def maskRight (empty opp : Nat) : Nat := empty &&& u64 (opp <<< 1)

/-- `left = empty & (opponent >> 1)`. -/
def maskLeft (empty opp : Nat) : Nat := empty &&& (opp >>> 1)

/-- `up = empty & (opponent >> BOARD_SIZE)`. -/
def maskUp (empty opp : Nat) : Nat := empty &&& (opp >>> BOARD_SIZE)

/-- `down = empty & (opponent << BOARD_SIZE)`. -/
def maskDown (empty opp : Nat) : Nat := empty &&& u64 (opp <<< BOARD_SIZE)

/-- `upRight = empty & (opponent >> (BOARD_SIZE - 1))`. -/
def maskUpRight (empty opp : Nat) : Nat := empty &&& (opp >>> (BOARD_SIZE - 1))

/-- `downLeft = empty & (opponent << (BOARD_SIZE - 1))`. -/
def maskDownLeft (empty opp : Nat) : Nat := empty &&& u64 (opp <<< (BOARD_SIZE - 1))

/-- `upLeft = empty & (opponent >> (BOARD_SIZE + 1))`. -/
def maskUpLeft (empty opp : Nat) : Nat := empty &&& (opp >>> (BOARD_SIZE + 1))

/-- `downRight = empty & (opponent << (BOARD_SIZE + 1))`. -/
def maskDownRight (empty opp : Nat) : Nat := empty &&& u64 (opp <<< (BOARD_SIZE + 1))

/- Each direction block, as a function returning `some (flipMask, changed)` on
success (`flipMask` the bit strip OR-ed into the child's `player` and cleared
from its `opponent`; `changed` the argument passed to the `eval_*` helper) and
`none` when the block records no flip.  The scan always reads the pristine
`opponent`/`empty` locals, as in C. -/

/-- The `left` block: `x+2 < 8`, mask bit, scan `testX = x+2 .. 7`;
`toFlip = testX - x`; strip `(0xFF >> (8 - (toFlip+1))) << index`. -/
def dirLeft (opp empty : Nat) (x y : Nat) : Option (Nat × Nat) :=
  if x + 2 < BOARD_SIZE ∧ (maskLeft empty opp).testBit (y * 8 + x) then
    (scanRun opp empty ((List.range (6 - x)).map (fun j => y * 8 + (x + 2 + j)))).map
      (fun pos =>
        let toFlip := pos + 2
        ((ROW_PATTERN >>> (BOARD_SIZE - (toFlip + 1))) <<< (y * 8 + x), toFlip - 1))
  else none

/-- The `right` block: `x ≥ 2`, mask bit, scan `testX = x-2 .. 0`;
strip `(0xFF >> (8 - (x - testX))) << (index - (x - testX - 1))`. -/
def dirRight (opp empty : Nat) (x y : Nat) : Option (Nat × Nat) :=
  if 2 ≤ x ∧ (maskRight empty opp).testBit (y * 8 + x) then
    (scanRun opp empty ((List.range (x - 1)).map (fun j => y * 8 + (x - 2 - j)))).map
      (fun pos =>
        let k := pos + 2
        ((ROW_PATTERN >>> (BOARD_SIZE - k)) <<< (y * 8 + x - (k - 1)), k - 1))
  else none

/-- The `up` block: `y+2 < 8`, mask bit, scan `testY = y+2 .. 7`;
strip `(COL_PATTERN >> ((8 - (testY - y)) * 8)) << index`. -/
def dirUp (opp empty : Nat) (x y : Nat) : Option (Nat × Nat) :=
  if y + 2 < BOARD_SIZE ∧ (maskUp empty opp).testBit (y * 8 + x) then
    (scanRun opp empty ((List.range (6 - y)).map (fun j => (y + 2 + j) * 8 + x))).map
      (fun pos =>
        let k := pos + 2
        ((COL_PATTERN >>> ((BOARD_SIZE - k) * 8)) <<< (y * 8 + x), k - 1))
  else none

/-- The `down` block: `y ≥ 2`, mask bit, scan `testY = y-1 .. 0` (the extra
first cell, guaranteed to be an opponent tile by the mask, is skipped by the
loop's `continue` branch); strip
`(COL_PATTERN >> ((8 - (y - testY)) * 8)) << (index - (y - testY - 1) * 8)`. -/
def dirDown (opp empty : Nat) (x y : Nat) : Option (Nat × Nat) :=
  if 2 ≤ y ∧ (maskDown empty opp).testBit (y * 8 + x) then
    (scanRun opp empty ((List.range y).map (fun j => (y - 1 - j) * 8 + x))).map
      (fun pos =>
        let k := pos + 1
        ((COL_PATTERN >>> ((BOARD_SIZE - k) * 8)) <<< (y * 8 + x - (k - 1) * 8), k - 1))
  else none

/-- The `upRight` block: `y+2 < 8 ∧ x ≥ 2`, mask bit, scan
`testY = y+2.., testX = x-2..`; strip
`(ANTI_DIAG_PATTERN >> ((8 - (testY - y)) * 8)) << (y*8 + (x - (testY - y - 1)))`. -/
def dirUpRight (opp empty : Nat) (x y : Nat) : Option (Nat × Nat) :=
  if y + 2 < BOARD_SIZE ∧ 2 ≤ x ∧ (maskUpRight empty opp).testBit (y * 8 + x) then
    (scanRun opp empty
        ((List.range (min (6 - y) (x - 1))).map (fun j => (y + 2 + j) * 8 + (x - 2 - j)))).map
      (fun pos =>
        let k := pos + 2
        ((ANTI_DIAG_PATTERN >>> ((BOARD_SIZE - k) * 8)) <<< (y * 8 + (x - (k - 1))), k - 1))
  else none

/-- The `downLeft` block: `y ≥ 2 ∧ x+2 < 8`, mask bit, scan
`testY = y-2.., testX = x+2..`; strip
`(ANTI_DIAG_PATTERN << ((8 - (y - testY)) * 8)) >> ((8-y-1)*8 + 8 - testX)`. -/
def dirDownLeft (opp empty : Nat) (x y : Nat) : Option (Nat × Nat) :=
  if 2 ≤ y ∧ x + 2 < BOARD_SIZE ∧ (maskDownLeft empty opp).testBit (y * 8 + x) then
    (scanRun opp empty
        ((List.range (min (y - 1) (6 - x))).map (fun j => (y - 2 - j) * 8 + (x + 2 + j)))).map
      (fun pos =>
        let k := pos + 2
        (u64 (ANTI_DIAG_PATTERN <<< ((BOARD_SIZE - k) * 8)) >>>
           ((BOARD_SIZE - y - 1) * 8 + BOARD_SIZE - (x + k)), k - 1))
  else none

/-- The `upLeft` block: `y+2 < 8 ∧ x+2 < 8`, mask bit, scan
`testY = y+2.., testX = x+2..`; strip
`(MAIN_DIAG_PATTERN >> ((8 - (testY-y))*8 + (8 - (testY-y)))) << index`. -/
def dirUpLeft (opp empty : Nat) (x y : Nat) : Option (Nat × Nat) :=
  if y + 2 < BOARD_SIZE ∧ x + 2 < BOARD_SIZE ∧ (maskUpLeft empty opp).testBit (y * 8 + x) then
    (scanRun opp empty
        ((List.range (min (6 - y) (6 - x))).map (fun j => (y + 2 + j) * 8 + (x + 2 + j)))).map
      (fun pos =>
        let k := pos + 2
        ((MAIN_DIAG_PATTERN >>> ((BOARD_SIZE - k) * 8 + (BOARD_SIZE - k))) <<< (y * 8 + x),
         k - 1))
  else none

/-- The `downRight` block: `y ≥ 2 ∧ x ≥ 2`, mask bit, scan
`testY = y-2.., testX = x-2..`; strip
`(MAIN_DIAG_PATTERN << ((8 - (y-testY))*8 + (8 - (y-testY)))) >> ((8-y-1)*8 + (8-x-1))`. -/
def dirDownRight (opp empty : Nat) (x y : Nat) : Option (Nat × Nat) :=
  if 2 ≤ y ∧ 2 ≤ x ∧ (maskDownRight empty opp).testBit (y * 8 + x) then
    (scanRun opp empty
        ((List.range (min (y - 1) (x - 1))).map (fun j => (y - 2 - j) * 8 + (x - 2 - j)))).map
      (fun pos =>
        let k := pos + 2
        (u64 (MAIN_DIAG_PATTERN <<< ((BOARD_SIZE - k) * 8 + (BOARD_SIZE - k))) >>>
           ((BOARD_SIZE - y - 1) * 8 + (BOARD_SIZE - x - 1)), k - 1))
  else none

/-- One recorded move of `generate_child_moves`: the placement coordinates,
the child's bitboards (`player` holds the tiles of the side that just moved,
`opponent` the tiles of the side to move next — the roles swap at each ply),
and the move's heuristic `value`. -/
structure ChildMove where
  x : Nat
  y : Nat
  player : Nat
  opponent : Nat
  value : Int
deriving DecidableEq, Repr

/-- The per-cell body of `generate_child_moves`: fold the eight direction
outcomes, in source order, over the scratch board (`player`/`opponent` copied
from the pristine mover/opponent sets) and the running move `value`.  Each
successful direction does `player |= mask`, `opponent &= ~mask` and
`value += eval(..., changed)` (an `int16_t` accumulation). -/
def foldDirs (x y : Nat) : List (Option (Nat × Nat)) → Bool × Nat × Nat × Int →
    Bool × Nat × Nat × Int
  | [], acc => acc
  | none :: rest, acc => foldDirs x y rest acc
  | some (mask, changed) :: rest, (_, p, o, v) =>
    foldDirs x y rest (true, p ||| mask, o &&& not64 mask, i16 (v + ((changed : Int) + boardValue x y)))

/-- The flip-strip mask recorded by a direction block, `0` for a
non-contributing direction. -/
def dirMask : Option (Nat × Nat) → Nat
  | none => 0
  | some (m, _) => m

/-- The per-cell outcome: the recorded `ChildMove` if any direction flips. -/
def cellOutcome (mover opp empty : Nat) (x y : Nat) : Option ChildMove :=
  let dirs := [dirLeft opp empty x y, dirRight opp empty x y, dirUp opp empty x y,
               dirDown opp empty x y, dirUpRight opp empty x y, dirDownLeft opp empty x y,
               dirUpLeft opp empty x y, dirDownRight opp empty x y]
  match foldDirs x y dirs (false, mover, opp, 1) with
  | (true, p, o, v) => some ⟨x, y, p, o, v⟩
  | (false, _, _, _) => none

/-- `generate_child_moves`, as the ordered list of recorded moves.  The
function first swaps roles (`player = state->opponent`, i.e. the mover for
the children is the structure's `opponent` field), then iterates the board
cells in index order (`y` outer, `x` inner). -/
def generate_child_moves (player opponent : Nat) : List ChildMove :=
  let mover := opponent
  let opp := player
  let empty := (2 ^ 64 - 1) ^^^ u64 (mover ||| opp)
  (List.range 64).filterMap (fun i => cellOutcome mover opp empty (i % 8) (i / 8))

/-! ## Specification-side legality (refinement target)

The following definitions are written from the specification's words, NOT from
the code: "a cell is a legal placement iff it is empty and lies adjacent, in
at least one of 8 directions, to an opposing run that is terminated by a
`mover` tile before running off the board or hitting an empty cell", and the
child position is the parent with the placed cell plus the union of all
contributing directional flip runs transferred to the mover and removed from
the opponent.  They are compared against `generate_child_moves`. -/

/-- Occupancy of cell `(x, y)` in bitboard `b`, with out-of-board cells
unoccupied (coordinates as `Int` so that directional steps can leave the
board). -/
def specAt (b : Nat) (x y : Int) : Bool :=
  decide (0 ≤ x ∧ x < 8 ∧ 0 ≤ y ∧ y < 8) && b.testBit (y.toNat * 8 + x.toNat)

/-- The eight board directions, written as `(dx, dy)` unit steps. -/
def specDirections : List (Int × Int) :=
  [(1, 0), (-1, 0), (0, 1), (0, -1), (-1, 1), (1, -1), (1, 1), (-1, -1)]

/-- Spec: direction `(dx, dy)` from `(x, y)` holds a run of exactly `k ≥ 1`
opponent tiles immediately followed by a mover tile (hence terminated before
an empty cell or the board edge). -/
def specRunOk (mover opp : Nat) (x y dx dy : Int) (k : Nat) : Bool :=
  decide (1 ≤ k) &&
    (List.range k).all (fun j => specAt opp (x + (j + 1) * dx) (y + (j + 1) * dy)) &&
    specAt mover (x + (k + 1) * dx) (y + (k + 1) * dy)

/-- Spec: the placement `(x, y)` is legal in direction `(dx, dy)`. -/
def specLegalDir (mover opp : Nat) (x y dx dy : Int) : Bool :=
  (List.range 6).any (fun i => specRunOk mover opp x y dx dy (i + 1))

/-- Spec: cell `(x, y)` is empty. -/
def specEmptyAt (mover opp : Nat) (x y : Int) : Bool :=
  decide (0 ≤ x ∧ x < 8 ∧ 0 ≤ y ∧ y < 8) && !specAt mover x y && !specAt opp x y

/-- Spec: the placement `(x, y)` is a legal move for `mover`. -/
def specLegal (mover opp : Nat) (x y : Int) : Bool :=
  specEmptyAt mover opp x y && specDirections.any (fun d => specLegalDir mover opp x y d.1 d.2)

/-- Spec: the length of the (unique) opposing run flipped in direction
`(dx, dy)`, or `0` if the direction contributes no flip. -/
def specRunLen (mover opp : Nat) (x y dx dy : Int) : Nat :=
  ((List.range 6).findSome? fun i =>
    if specRunOk mover opp x y dx dy (i + 1) then some (i + 1) else none).getD 0

/-- Spec: the flip mask contributed by direction `(dx, dy)`: one bit per
flipped run cell. -/
def specFlipsDir (mover opp : Nat) (x y dx dy : Int) : Nat :=
  (List.range (specRunLen mover opp x y dx dy)).foldl
    (fun m (j : Nat) =>
      m ||| (1 <<< ((y + ((j : Int) + 1) * dy).toNat * 8 + (x + ((j : Int) + 1) * dx).toNat))) 0

/-- Spec: the union of all contributing directional flip runs at `(x, y)`. -/
def specFlips (mover opp : Nat) (x y : Int) : Nat :=
  specDirections.foldl (fun m d => m ||| specFlipsDir mover opp x y d.1 d.2) 0

/-! ## The search tree (`BoardState` nodes)

`nextStates`/`lenStates` are modelled as `Option (List BoardState)`: `none` is
the `lenStates == -1` "ungenerated" sentinel, `some []` is "terminal, no
children" (`lenStates == 0`), `some l` with `l ≠ []` is a generated child
array. -/

inductive BoardState : Type where
  | mk (player opponent : Nat) (value worstBranch : Int) (x y : Nat)
      (nextStates : Option (List BoardState)) : BoardState

def BoardState.player : BoardState → Nat
  | .mk p _ _ _ _ _ _ => p

def BoardState.opponent : BoardState → Nat
  | .mk _ o _ _ _ _ _ => o

def BoardState.value : BoardState → Int
  | .mk _ _ v _ _ _ _ => v

def BoardState.worstBranch : BoardState → Int
  | .mk _ _ _ w _ _ _ => w

def BoardState.x : BoardState → Nat
  | .mk _ _ _ _ x _ _ => x

def BoardState.y : BoardState → Nat
  | .mk _ _ _ _ _ y _ => y

def BoardState.nextStates : BoardState → Option (List BoardState)
  | .mk _ _ _ _ _ _ cs => cs

/-- A freshly recorded move as a tree node: `generate_child_moves` initializes
each child's `worstBranch` to `0` and `lenStates` to `-1`. -/
def childToState (c : ChildMove) : BoardState :=
  .mk c.player c.opponent c.value 0 c.x c.y none

/-- The `if (state->lenStates == -1) generate_child_moves(state);` step found
at the top of both search functions. -/
def expand (t : BoardState) : BoardState :=
  match t with
  | .mk p o v w x y none =>
    .mk p o v w x y (some ((generate_child_moves p o).map childToState))
  | t => t

/-- The shared childless-node scoring (the `else` branch of
`recalculate_move_values` and of both search functions): compare tile counts
and set `(value, worstBranch)`. -/
def terminalEval (p o : Nat) : Int × Int :=
  if popcnt64 p < popcnt64 o then (0, INT16_MAX / 8)
  else if popcnt64 o < popcnt64 p then (0, INT16_MIN / 8)
  else (0, -10)

/-- `recalculate_move_values`, fuel-indexed.  The fuel only bounds the
recursion depth; the wrapper `recalculate_move_values` supplies enough fuel
for the depth-guarded recursion (`depth < maxDepth`) never to hit `0`. -/
def recalcAux (maxD : Nat) : Nat → BoardState → Nat → BoardState
  | 0, t, _ => t
  | f + 1, .mk p o v w x y cs, depth =>
    match cs with
    | some (c :: rest) =>
      if depth < maxD then
        let l := (c :: rest).map (fun ch => recalcAux maxD f ch (depth + 1))
        let m := l.foldl
          (fun acc ch =>
            let realVal := i16 (ch.value - ch.worstBranch)
            if acc < realVal then realVal else acc) INT16_MIN
        .mk p o v m x y (some l)
      else .mk p o v w x y cs
    | _ =>
      let vw := terminalEval p o
      .mk p o vw.1 vw.2 x y cs

/-- `recalculate_move_values(state, depth)` with the current global `maxDepth`
as first argument. -/
def recalculate_move_values (maxD : Nat) (t : BoardState) (depth : Nat) : BoardState :=
  recalcAux maxD (max (maxD + 1 - depth) 1) t depth

/-- The mutable globals read and written by a search pass: the shared
visited-node counter and the (mid-search mutable) depth limit `maxDepth`. -/
structure SearchState where
  visited : Nat
  maxDepth : Nat
deriving DecidableEq, Repr

/-- Accumulator of the serial child loop: the processed children (reversed),
the running `max`, the running `alpha`, the globals, and whether the
`beta != INT16_MIN && max > beta` break has fired (once it fires the
remaining children are left untouched). -/
structure LoopAcc where
  doneRev : List BoardState
  maxv : Int
  alpha : Int
  st : SearchState
  broken : Bool

/-- One iteration of the serial child loop: recurse into the child with the
bounds swapped (`search(child, beta, alpha, depth+1)`), fold its net value
into the running `max`, raise `alpha`, and record whether the
`beta != INT16_MIN && max > beta` break has fired.  The recursive call is
abstracted as `rec` so the loop can be reasoned about on its own. -/
def searchSerialStep (rec : BoardState → Int → Int → SearchState → BoardState × SearchState)
    (beta : Int) (acc : LoopAcc) (ch : BoardState) : LoopAcc :=
  if acc.broken then { acc with doneRev := ch :: acc.doneRev }
  else
    let r := rec ch beta acc.alpha acc.st
    let realVal := i16 (r.1.value - r.1.worstBranch)
    let maxv := if acc.maxv < realVal then realVal else acc.maxv
    let alpha := if maxv < acc.alpha then acc.alpha else maxv
    { doneRev := r.1 :: acc.doneRev, maxv := maxv, alpha := alpha, st := r.2,
      broken := beta != INT16_MIN && beta < maxv }

/-- `search_for_moves_serial(state, alpha, beta, depth)`, fuel-indexed (the
recursion is guarded by `depth < maxDepth`, and `maxDepth` only ever
decreases, so the wrapper's fuel `maxDepth + 1` is never exhausted). -/
def searchSerialAux : Nat → BoardState → Int → Int → Nat → SearchState →
    BoardState × SearchState
  | 0, t, _, _, _, st => (t, st)
  | f + 1, t, alpha, beta, depth, st =>
    match expand t with
    | .mk p o v w x y cs =>
      match cs with
      | some (c :: rest) =>
        if depth < st.maxDepth then
          let visited := st.visited + (c :: rest).length
          if MOVE_CUTOFF < visited then
            (.mk p o v w x y (some (c :: rest)), ⟨visited, depth⟩)
          else
            let acc := (c :: rest).foldl
              (searchSerialStep (fun ch a b s => searchSerialAux f ch a b (depth + 1) s) beta)
              ⟨[], INT16_MIN, alpha, ⟨visited, st.maxDepth⟩, false⟩
            (.mk p o v acc.maxv x y (some acc.doneRev.reverse), acc.st)
        else (.mk p o v w x y cs, st)
      | _ =>
        let vw := terminalEval p o
        (.mk p o vw.1 vw.2 x y cs, st)

/-- `search_for_moves_serial` as invoked by the engine (depth `0`). -/
def search_for_moves_serial (t : BoardState) (alpha beta : Int) (st : SearchState) :
    BoardState × SearchState :=
  searchSerialAux (st.maxDepth + 1) t alpha beta 0 st

/-- `search_for_moves_paralell(state, alpha, beta, depth, parDepth)`,
fuel-indexed.  At `depth == parDepth` every child is handed to a thread
running `search_for_moves_serial` with a snapshot of the current bounds
(passed UNSWAPPED, exactly as `search_for_move_thread_cb` receives them) and
no break; the shared counter updates of the concurrent tasks are modelled in
array order (one legal interleaving).  Elsewhere the traversal is the serial
loop with swapped bounds and the beta break. -/
def searchParAux : Nat → BoardState → Int → Int → Nat → Nat → SearchState →
    BoardState × SearchState
  | 0, t, _, _, _, _, st => (t, st)
  | f + 1, t, alpha, beta, depth, parDepth, st =>
    match expand t with
    | .mk p o v w x y cs =>
      match cs with
      | some (c :: rest) =>
        if depth < st.maxDepth then
          let visited := st.visited + (c :: rest).length
          if MOVE_CUTOFF < visited then
            (.mk p o v w x y (some (c :: rest)), ⟨visited, depth⟩)
          else if parDepth = depth then
            let r := (c :: rest).foldl
              (fun (acc : List BoardState × SearchState) ch =>
                let r := searchSerialAux f ch alpha beta (depth + 1) acc.2
                (r.1 :: acc.1, r.2))
              ([], ⟨visited, st.maxDepth⟩)
            let l := r.1.reverse
            let worst := l.foldl
              (fun acc ch =>
                let realVal := i16 (ch.value - ch.worstBranch)
                if acc < realVal then realVal else acc) INT16_MIN
            (.mk p o v worst x y (some l), r.2)
          else
            let acc := (c :: rest).foldl
              (fun (acc : LoopAcc) ch =>
                if acc.broken then { acc with doneRev := ch :: acc.doneRev }
                else
                  let r := searchParAux f ch beta acc.alpha (depth + 1) parDepth acc.st
                  let realVal := i16 (r.1.value - r.1.worstBranch)
                  let worst := if acc.maxv < realVal then realVal else acc.maxv
                  let alpha := if worst < acc.alpha then acc.alpha else worst
                  { doneRev := r.1 :: acc.doneRev, maxv := worst, alpha := alpha, st := r.2,
                    broken := beta != INT16_MIN && beta < worst })
              ⟨[], INT16_MIN, alpha, ⟨visited, st.maxDepth⟩, false⟩
            (.mk p o v acc.maxv x y (some acc.doneRev.reverse), acc.st)
        else (.mk p o v w x y cs, st)
      | _ =>
        let vw := terminalEval p o
        (.mk p o vw.1 vw.2 x y cs, st)

/-- `search_for_moves_paralell` as invoked by the engine (depth `0`). -/
def search_for_moves_paralell (t : BoardState) (alpha beta : Int) (parDepth : Nat)
    (st : SearchState) : BoardState × SearchState :=
  searchParAux (st.maxDepth + 1) t alpha beta 0 parDepth st

/-! ## The per-turn entry point (`revai_ai`) -/

/-- The external board, per cell: `none` for an empty cell (a Python tuple),
`some true` for a tile of "my" player, `some false` for an opponent tile. -/
def ExternalBoard := Nat → Nat → Option Bool

/-- First-call initialization: scan the external board in index order; a tile
equal to `pyPlayer` goes into `head.opponent`, any other tile into
`head.player` ("we're generating the previous move's state, so we swap"), and
`placedTiles` counts the tiles.  Returns `(player, opponent, placedTiles)`. -/
def initHeadStep (board : ExternalBoard) (acc : Nat × Nat × Nat) (i : Nat) :
    Nat × Nat × Nat :=
  match board (i % 8) (i / 8) with
  | none => acc
  | some mine =>
    if mine then (acc.1, acc.2.1 ||| (1 <<< i), acc.2.2 + 1)
    else (acc.1 ||| (1 <<< i), acc.2.1, acc.2.2 + 1)

def initHead (board : ExternalBoard) : Nat × Nat × Nat :=
  (List.range 64).foldl (initHeadStep board) (0, 0, 0)

/-- The opponent-move reconciliation scan: the first child whose recorded
`(x, y)` is occupied on the external board. -/
def findOpponentMove (children : List BoardState) (board : ExternalBoard) : Option Nat :=
  children.findIdx? (fun c => (board c.x c.y).isSome)

/-- The staged depth table of `revai_ai` (applied to the already-incremented
`placedTiles` counter). -/
def pickMaxDepth (placedTiles : Nat) : Nat :=
  if placedTiles < 25 then 3
  else if placedTiles < 30 then 5
  else if placedTiles < 35 then 6
  else if placedTiles < 40 then 7
  else if placedTiles < 45 then 7
  else if placedTiles < 50 then 7
  else 8

/-- The best-move collection loop of `revai_ai`: returns the final `best`
value and the `bestMoves` index list. -/
def selectBest (children : List BoardState) : Int × List Nat :=
  children.enum.foldl
    (fun (acc : Int × List Nat) ie =>
      let realVal := i16 (ie.2.value - ie.2.worstBranch)
      if acc.1 < realVal then (realVal, [ie.1])
      else if realVal = acc.1 then (acc.1, acc.2 ++ [ie.1])
      else acc)
    (INT16_MIN, [])

/-- The move-selection and commit tail of `revai_ai` (lines 854-924): collect
the best-scoring children, pick `bestMoves[rand % idx]`, promote it, and
return its coordinates; an empty `bestMoves` (no children) returns an empty
move list and leaves `head` in place. -/
def selectMove (head : BoardState) (rand : Nat) : List (Nat × Nat) × BoardState :=
  match head.nextStates with
  | some children =>
    let bb := selectBest children
    match bb.2 with
    | [] => ([], head)
    | _ :: _ =>
      let best_move := bb.2.getD (rand % bb.2.length) 0
      let next_state := children.getD best_move head
      ([(next_state.x, next_state.y)], next_state)
  | none => ([], head)

/-- One call of `revai_ai`, as a function of the persistent state (`head`,
`placedTiles`), the external board, and the `rand()` draw.  Returns the move
list handed back to Python together with the updated persistent state and
the final search globals. -/
def revai_ai (head : BoardState) (placedTiles : Nat) (board : ExternalBoard) (rand : Nat) :
    List (Nat × Nat) × BoardState × Nat × SearchState :=
  -- reconcile the external board against the persistent tree
  let hp :=
    if head.player ||| head.opponent = 0 then
      let pot := initHead board
      (BoardState.mk pot.1 pot.2.1 0 head.worstBranch head.x head.y head.nextStates,
       pot.2.2)
    else
      match head.nextStates with
      | some children =>
        match findOpponentMove children board with
        | some i => (children.getD i head, placedTiles + 1)
        | none => (head, placedTiles)   -- no child matches: proceed silently
      | none => (head, placedTiles)
  let head := hp.1
  let placedTiles := hp.2 + 1
  let maxD := pickMaxDepth placedTiles
  let st0 : SearchState := ⟨0, maxD⟩
  let rmd := maxD
  let r :=
    if maxD = 5 then search_for_moves_paralell head INT16_MIN INT16_MIN 1 st0
    else if maxD = 6 then search_for_moves_paralell head INT16_MIN INT16_MIN 3 st0
    else if maxD = 7 then search_for_moves_paralell head INT16_MIN INT16_MIN 3 st0
    else if maxD = 8 then search_for_moves_paralell head INT16_MIN INT16_MIN 4 st0
    else search_for_moves_serial head INT16_MIN INT16_MIN st0
  let head := if rmd ≠ r.2.maxDepth then recalculate_move_values r.2.maxDepth r.1 0 else r.1
  -- select the best move
  let sel := selectMove head rand
  (sel.1, sel.2, placedTiles, r.2)

/-- `revai_reset`: the reset entry point restores the static initializer. -/
def revai_reset : BoardState × Nat :=
  (.mk 0 0 0 0 0 0 none, 0)

/-! ## Reference full expansion (for the refinement claim)

`expandTo (d+1) t` expands every node of depth `≤ d` below `t` — exactly the
set of nodes an untruncated search pass to depth limit `d` visits and
expands. -/

def expandTo : Nat → BoardState → BoardState
  | 0, t => t
  | f + 1, t =>
    match expand t with
    | .mk p o v w x y (some l) => .mk p o v w x y (some (l.map (expandTo f)))
    | t' => t'

/-- One ply of evaluation exactly at the depth limit: the node is expanded
and, when childless, terminal-scored; otherwise it keeps its move `value` and
the default `worstBranch = 0` (used to state what both the serial search and
the bottom-up pass do to a depth-limit node). -/
def evalAtLimit (cm : ChildMove) : BoardState :=
  match generate_child_moves cm.player cm.opponent with
  | [] => .mk cm.player cm.opponent (terminalEval cm.player cm.opponent).1
      (terminalEval cm.player cm.opponent).2 cm.x cm.y (some [])
  | g => .mk cm.player cm.opponent cm.value 0 cm.x cm.y (some (g.map childToState))

/-! ## Concrete fixtures used by witnesses and counterexamples -/

/-- The effective search depth for a turn on which `placed` tiles are already
on the board: `revai_ai` first increments `placedTiles` (past the tile about
to be placed) and then applies the staged table. -/
def turnSearchDepth (placed : Nat) : Nat := pickMaxDepth (placed + 1)

/-- The depth table exactly as the specification words it: "depth 3 when
fewer than 25 tiles are placed, 5 when fewer than 30, 6 when fewer than 35,
7 when fewer than 45, and 8 for 45 or more placed tiles". -/
def specClaimedDepth (placed : Nat) : Nat :=
  if placed < 25 then 3
  else if placed < 30 then 5
  else if placed < 35 then 6
  else if placed < 45 then 7
  else 8

/-- A fresh, ungenerated root node wrapping a position. -/
def freshRoot (p o : Nat) : BoardState := .mk p o 0 0 0 0 none

/-- The canonical starting position, mover to move: the mover owns
`(3,3), (4,4)` and the opponent `(4,3), (3,4)`.  The mover's tiles sit in the
structure's `opponent` field (`generate_child_moves` swaps). -/
def START_PLAYER : Nat := (1 <<< 28) ||| (1 <<< 35)

def START_OPPONENT : Nat := (1 <<< 27) ||| (1 <<< 36)

/-- A position (reachable in two plies from the start) on which the pruning
serial search and the prune-free bottom-up pass disagree at depth limit 2:
player `{19, 27, 35}`, opponent `{20, 28, 36}`. -/
def CX7_PLAYER : Nat := (1 <<< 19) ||| (1 <<< 27) ||| (1 <<< 35)

def CX7_OPPONENT : Nat := (1 <<< 20) ||| (1 <<< 28) ||| (1 <<< 36)

/-- The shape of tree the budget cutoff leaves behind: a root whose first
child was fully evaluated at the pre-cutoff depth limit (`worstBranch = 7`)
and still has its generated children, while the final agreed limit is `1`. -/
def CX6_TREE : BoardState :=
  .mk 0 0 0 0 0 0 (some [.mk 1 2 5 7 3 4 (some [.mk 2 1 0 0 5 5 none])])

/-- A desynchronized persistent state: `head` is a near-full position whose
single recorded child sits at `(7,7)`, while the external board (all cells
empty) matches no child. -/
def CX5_HEAD : BoardState :=
  .mk (2 ^ 32 - 1) (2 ^ 62 - 2 ^ 32) 0 0 0 0
    (some [.mk ((2 ^ 32 - 1) ||| (1 <<< 62) ||| (1 <<< 63)) (2 ^ 62 - 2 ^ 32) 0 0 7 7 none])

/-- The index list (offset by `k`) of the children tied at net value `m`. -/
def tiesFrom (children : List BoardState) (k : Nat) (m : Int) : List Nat :=
  (children.enumFrom k).filterMap
    (fun ic => if i16 (ic.2.value - ic.2.worstBranch) = m then some ic.1 else none)

/-- The index list of the children tied at net value `m` (the contents of
`bestMoves` when `m` is the maximum). -/
def tiesOf (children : List BoardState) (m : Int) : List Nat :=
  tiesFrom children 0 m

/-- The maximum net value `child.value - child.worstBranch` over a child
list, folded exactly as the selection loop does. -/
def bestValue (children : List BoardState) : Int :=
  (children.map (fun c => i16 (c.value - c.worstBranch))).foldl
    (fun a r => if a < r then r else a) INT16_MIN

end Hammer

namespace Hammer

/-! ## General helper lemmas -/

theorem i16_lb (n : Int) : INT16_MIN ≤ i16 n := by
  have h : 0 ≤ (n + 32768) % 65536 := Int.emod_nonneg _ (by norm_num)
  unfold i16 INT16_MIN
  omega

theorem i16_ub (n : Int) : i16 n ≤ INT16_MAX := by
  have h : (n + 32768) % 65536 < 65536 := Int.emod_lt_of_pos _ (by norm_num)
  unfold i16 INT16_MAX
  omega

/-- The three facts about the C-style running-max fold
`max = r > max ? r : max`. -/
theorem foldl_max_spec (xs : List Int) (a : Int) :
    a ≤ xs.foldl (fun acc r => if acc < r then r else acc) a ∧
    (∀ x ∈ xs, x ≤ xs.foldl (fun acc r => if acc < r then r else acc) a) ∧
    (xs.foldl (fun acc r => if acc < r then r else acc) a = a ∨
      xs.foldl (fun acc r => if acc < r then r else acc) a ∈ xs) := by
  induction xs generalizing a with
  | nil => simp
  | cons x xs ih =>
    simp only [List.foldl_cons]
    rcases ih (if a < x then x else a) with ⟨h1, h2, h3⟩
    refine ⟨?_, ?_, ?_⟩
    · exact le_trans (by split <;> omega) h1
    · intro z hz
      rw [List.mem_cons] at hz
      rcases hz with rfl | hz
      · exact le_trans (by split <;> omega) h1
      · exact h2 z hz
    · rw [List.mem_cons]
      rcases h3 with h3 | h3
      · rw [h3]
        split
        · exact Or.inr (Or.inl rfl)
        · exact Or.inl rfl
      · exact Or.inr (Or.inr h3)

/-- For a nonempty list bounded below by `INT16_MIN`, the fold is attained. -/
theorem foldl_max_mem (xs : List Int) (hne : xs ≠ [])
    (hlb : ∀ x ∈ xs, INT16_MIN ≤ x) :
    xs.foldl (fun acc r => if acc < r then r else acc) INT16_MIN ∈ xs := by
  rcases foldl_max_spec xs INT16_MIN with ⟨_, h2, h3⟩
  rcases h3 with h3 | h3
  · cases xs with
    | nil => exact absurd rfl hne
    | cons x xs =>
      have hx1 : INT16_MIN ≤ x := hlb x (by simp)
      have hx2 : x ≤ _ := h2 x (by simp)
      rw [h3] at hx2
      have : x = INT16_MIN := le_antisymm hx2 hx1
      rw [h3, ← this]
      simp
  · exact h3

theorem testBit_one_shiftLeft (i j : Nat) : (1 <<< i).testBit j = decide (i = j) := by
  simp [Nat.one_shiftLeft, Nat.testBit_two_pow]

theorem testBit_ge_64_eq_false (n i : Nat) (hn : n < 2 ^ 64) (hi : 64 ≤ i) :
    n.testBit i = false :=
  Nat.testBit_lt_two_pow (lt_of_lt_of_le hn (Nat.pow_le_pow_right (by norm_num) hi))

/-! ## C8: the staged depth table -/

/-- C8 (counterexample): with 45 tiles already placed the engine searches to
depth 7, not the claimed depth 8 (`placedTiles` is incremented first, and the
code's table keeps depth 7 up to a counter of 49). -/
theorem C8_depth_counterexample : turnSearchDepth 45 = 7 ∧ specClaimedDepth 45 = 8 ∧ (7 : Nat) ≠ 8 := by
  refine ⟨by decide, by decide, by decide⟩

/-- C8 (amended): the turn's search depth is a function of the placed-tile
count alone, namely the staged table applied to the incremented counter:
depth 3 below 24 already-placed tiles, 5 below 29, 6 below 34, 7 below 49,
and 8 from 49 on. -/
theorem C8_depth_policy (n : Nat) :
    turnSearchDepth n =
      if n < 24 then 3
      else if n < 29 then 5
      else if n < 34 then 6
      else if n < 49 then 7
      else 8 := by
  unfold turnSearchDepth pickMaxDepth
  repeat' split
  all_goals omega

/-! ## C9: edge-wrap bits in the adjacency masks -/

/-- C9 (counterexample): the `right` adjacency mask CAN contain a bit arising
from shift wraparound.  With a single opponent tile at `(7, 0)` and an
otherwise empty board, `opponent << 1` wraps that tile into cell `(0, 1)` of
the next row, and the mask keeps it. -/
theorem C9_wrap_counterexample :
    (maskRight ((2 ^ 64 - 1) ^^^ u64 (0 ||| (1 <<< 7))) (1 <<< 7)).testBit (1 * 8 + 0) = true := by
  decide

/-- C9 (amended): wrapped mask bits are never acted upon — each direction
block is guarded by coordinate tests that reject every cell whose mask bit
could stem from wraparound, so the block yields no flip there. -/
theorem C9_wrap_guarded (opp empty : Nat) (x y : Nat) :
    (¬x + 2 < 8 → dirLeft opp empty x y = none) ∧
    (x < 2 → dirRight opp empty x y = none) ∧
    (¬y + 2 < 8 → dirUp opp empty x y = none) ∧
    (y < 2 → dirDown opp empty x y = none) ∧
    (¬y + 2 < 8 ∨ x < 2 → dirUpRight opp empty x y = none) ∧
    (y < 2 ∨ ¬x + 2 < 8 → dirDownLeft opp empty x y = none) ∧
    (¬y + 2 < 8 ∨ ¬x + 2 < 8 → dirUpLeft opp empty x y = none) ∧
    (y < 2 ∨ x < 2 → dirDownRight opp empty x y = none) := by
  refine ⟨fun h => ?_, fun h => ?_, fun h => ?_, fun h => ?_, fun h => ?_, fun h => ?_,
    fun h => ?_, fun h => ?_⟩
  · rw [dirLeft, if_neg]; rintro ⟨h1, -⟩; exact h h1
  · rw [dirRight, if_neg]; rintro ⟨h1, -⟩; omega
  · rw [dirUp, if_neg]; rintro ⟨h1, -⟩; exact h h1
  · rw [dirDown, if_neg]; rintro ⟨h1, -⟩; omega
  · rw [dirUpRight, if_neg]; rintro ⟨h1, h2, -⟩; rcases h with h | h; exact h h1; omega
  · rw [dirDownLeft, if_neg]; rintro ⟨h1, h2, -⟩; rcases h with h | h; omega; exact h h2
  · rw [dirUpLeft, if_neg]; rintro ⟨h1, h2, -⟩; rcases h with h | h; exact h h1; exact h h2
  · rw [dirDownRight, if_neg]; rintro ⟨h1, h2, -⟩; rcases h with h | h; omega; omega

/-- Witness for `C9_wrap_guarded` at the wrap cell of the counterexample:
cell `(0, 1)` carries a wrapped `right`-mask bit, and the `right` block
rejects it. -/
theorem C9_wrap_guarded_witness :
    dirRight (1 <<< 7) ((2 ^ 64 - 1) ^^^ u64 (0 ||| (1 <<< 7))) 0 1 = none :=
  (C9_wrap_guarded (1 <<< 7) ((2 ^ 64 - 1) ^^^ u64 (0 ||| (1 <<< 7))) 0 1).2.1 (by decide)

/-! ## C6: what the reconciliation pass does at and beyond the final limit -/

/-- C6 (the code at the failing input): running `recalculate_move_values`
with final depth limit 1 over `CX6_TREE` leaves the depth-1 node — a node at
the final limit whose children are generated (so not a true terminal) — with
its stale `worstBranch = 7` instead of the claimed neutral `0`. -/
theorem C6_stale_value_after_reconciliation :
    ((recalculate_move_values 1 CX6_TREE 0).nextStates.getD []).map
        (fun c => (c.worstBranch, c.nextStates.map List.length)) = [(7, some 1)] ∧
    (7 : Int) ≠ 0 := by
  refine ⟨by decide, by decide⟩

end Hammer

namespace Hammer

/-! ## C4: the negamax identity of `recalculate_move_values` -/

/-- Unfolding the wrapper one level below the depth limit: the pass recurses
into every child with the same limit at `depth + 1` and takes the running
maximum of the children's net values. -/
theorem recalculate_below_limit (maxD depth : Nat) (p o : Nat) (v w : Int) (mx my : Nat)
    (l : List BoardState) (hl : l ≠ []) (hd : depth < maxD) :
    recalculate_move_values maxD (.mk p o v w mx my (some l)) depth =
      .mk p o v
        (((l.map (fun ch => recalculate_move_values maxD ch (depth + 1))).map
            (fun ch => i16 (ch.value - ch.worstBranch))).foldl
          (fun acc r => if acc < r then r else acc) INT16_MIN)
        mx my
        (some (l.map (fun ch => recalculate_move_values maxD ch (depth + 1)))) := by
  cases l with
  | nil => exact absurd rfl hl
  | cons c rest =>
    have hfuel : max (maxD + 1 - depth) 1 = (maxD - depth - 1) + 1 + 1 := by omega
    have hfuel2 : max (maxD + 1 - (depth + 1)) 1 = (maxD - depth - 1) + 1 := by omega
    unfold recalculate_move_values
    rw [hfuel, hfuel2]
    rw [recalcAux]
    simp only [if_pos hd, List.foldl_map]

/-- C4: after `recalculate_move_values` runs on a node with generated,
nonempty children strictly below the depth limit, the node's `worstBranch`
equals the maximum over its (recalculated) children of
`child.value - child.worstBranch`: it is attained by some child and bounds
all of them. -/
theorem C4_negamax_identity (maxD depth : Nat) (p o : Nat) (v w : Int) (mx my : Nat)
    (l : List BoardState) (hl : l ≠ []) (hd : depth < maxD) :
    ((recalculate_move_values maxD (.mk p o v w mx my (some l)) depth).worstBranch ∈
      (l.map (fun ch => recalculate_move_values maxD ch (depth + 1))).map
        (fun ch => i16 (ch.value - ch.worstBranch))) ∧
    ∀ r ∈ (l.map (fun ch => recalculate_move_values maxD ch (depth + 1))).map
        (fun ch => i16 (ch.value - ch.worstBranch)),
      r ≤ (recalculate_move_values maxD (.mk p o v w mx my (some l)) depth).worstBranch := by
  rw [recalculate_below_limit maxD depth p o v w mx my l hl hd]
  have hne : ((l.map (fun ch => recalculate_move_values maxD ch (depth + 1))).map
      (fun ch => i16 (ch.value - ch.worstBranch))) ≠ [] := by
    cases l with
    | nil => exact absurd rfl hl
    | cons c rest => simp
  have hlb : ∀ x ∈ ((l.map (fun ch => recalculate_move_values maxD ch (depth + 1))).map
      (fun ch => i16 (ch.value - ch.worstBranch))), INT16_MIN ≤ x := by
    intro x hx
    rw [List.mem_map] at hx
    rcases hx with ⟨ch, -, rfl⟩
    exact i16_lb _
  refine ⟨?_, ?_⟩
  · exact foldl_max_mem _ hne hlb
  · intro r hr
    exact (foldl_max_spec _ INT16_MIN).2.1 r hr

/-- Witness for `C4_negamax_identity` on a one-child tree: the child is a
childless node scored as a tie (`value = 0`, `worstBranch = -10`), so the
root's backed-up value is `10`. -/
theorem C4_negamax_identity_witness :
    ((recalculate_move_values 1 (.mk 0 0 0 0 0 0 (some [.mk 0 0 5 2 0 0 none])) 0).worstBranch ∈
      ([BoardState.mk 0 0 5 2 0 0 none].map
        (fun ch => recalculate_move_values 1 ch 1)).map
          (fun ch => i16 (ch.value - ch.worstBranch))) ∧
    (recalculate_move_values 1 (.mk 0 0 0 0 0 0 (some [.mk 0 0 5 2 0 0 none])) 0).worstBranch
      = 10 :=
  ⟨(C4_negamax_identity 1 0 0 0 0 0 0 0 [.mk 0 0 5 2 0 0 none]
      (List.cons_ne_nil _ _) (by decide)).1, by decide⟩

end Hammer

namespace Hammer

/-! ## C2: disjointness of every reachable Position -/

theorem testBit_not64_lo (m j : Nat) (hj : j < 64) : (not64 m).testBit j = !(m.testBit j) := by
  rw [not64, Nat.testBit_xor, Nat.testBit_two_pow_sub_one, decide_eq_true hj, Bool.xor_true]

theorem testBit_not64_hi (m j : Nat) (hj : 64 ≤ j) : (not64 m).testBit j = m.testBit j := by
  rw [not64, Nat.testBit_xor, Nat.testBit_two_pow_sub_one]
  have h : ¬j < 64 := by omega
  simp [h]

/-- Each step of the first-call initialization loop claims a fresh cell for
exactly one side, so the two accumulated bitboards stay disjoint. -/
theorem initHead_go_disjoint (board : ExternalBoard) (l : List Nat) :
    ∀ (p o cnt : Nat),
      (∀ j, ¬(p.testBit j = true ∧ o.testBit j = true)) →
      (∀ i ∈ l, p.testBit i = false ∧ o.testBit i = false) →
      l.Nodup →
      ∀ j, ¬((l.foldl (initHeadStep board) (p, o, cnt)).1.testBit j = true ∧
             (l.foldl (initHeadStep board) (p, o, cnt)).2.1.testBit j = true) := by
  induction l with
  | nil =>
    intro p o cnt hd _ _ j
    exact hd j
  | cons i l ih =>
    intro p o cnt hd hfresh hnd j
    rw [List.foldl_cons]
    rw [List.nodup_cons] at hnd
    have hfi := hfresh i (List.mem_cons_self i l)
    have hfresh' : ∀ i' ∈ l, p.testBit i' = false ∧ o.testBit i' = false :=
      fun i' hi' => hfresh i' (List.mem_cons_of_mem i hi')
    have hne : ∀ i' ∈ l, i ≠ i' := fun i' hi' he => hnd.1 (he ▸ hi')
    rcases hb : board (i % 8) (i / 8) with - | mine
    · rw [initHeadStep, hb]
      exact ih p o cnt hd hfresh' hnd.2 j
    · cases mine with
      | true =>
        rw [initHeadStep, hb]
        simp only [if_pos]
        refine ih p (o ||| (1 <<< i)) (cnt + 1) ?_ ?_ hnd.2 j
        · intro j'
          rintro ⟨hpj, hoj⟩
          rw [Nat.testBit_or, testBit_one_shiftLeft] at hoj
          rcases Bool.or_eq_true_iff.mp hoj with hoj | hoj
          · exact hd j' ⟨hpj, hoj⟩
          · rw [decide_eq_true_iff] at hoj
            subst hoj
            rw [hfi.1] at hpj
            exact Bool.false_ne_true hpj
        · intro i' hi'
          have hf := hfresh' i' hi'
          refine ⟨hf.1, ?_⟩
          rw [Nat.testBit_or, testBit_one_shiftLeft, hf.2]
          simp [hne i' hi']
      | false =>
        rw [initHeadStep, hb]
        simp only [Bool.false_eq_true, if_neg]
        refine ih (p ||| (1 <<< i)) o (cnt + 1) ?_ ?_ hnd.2 j
        · intro j'
          rintro ⟨hpj, hoj⟩
          rw [Nat.testBit_or, testBit_one_shiftLeft] at hpj
          rcases Bool.or_eq_true_iff.mp hpj with hpj | hpj
          · exact hd j' ⟨hpj, hoj⟩
          · rw [decide_eq_true_iff] at hpj
            subst hpj
            rw [hfi.2] at hoj
            exact Bool.false_ne_true hoj
        · intro i' hi'
          have hf := hfresh' i' hi'
          refine ⟨?_, hf.2⟩
          rw [Nat.testBit_or, testBit_one_shiftLeft, hf.1]
          simp [hne i' hi']

/-- Each successful direction moves the flipped strip from the opponent set
into the mover set (`player |= mask; opponent &= ~mask`), preserving
disjointness of the accumulated child bitboards. -/
theorem foldDirs_disjoint (x y : Nat) (ds : List (Option (Nat × Nat))) :
    ∀ (b : Bool) (p o : Nat) (v : Int),
      (∀ j, ¬(p.testBit j = true ∧ o.testBit j = true)) →
      (∀ j, 64 ≤ j → o.testBit j = false) →
      ∀ j, ¬((foldDirs x y ds (b, p, o, v)).2.1.testBit j = true ∧
             (foldDirs x y ds (b, p, o, v)).2.2.1.testBit j = true) := by
  induction ds with
  | nil =>
    intro b p o v hd _ j
    exact hd j
  | cons d ds ih =>
    intro b p o v hd hhi j
    match d with
    | none =>
      rw [foldDirs]
      exact ih b p o v hd hhi j
    | some (m, ch) =>
      rw [foldDirs]
      refine ih true (p ||| m) (o &&& not64 m) _ ?_ ?_ j
      · intro j'
        rintro ⟨hpj, hoj⟩
        rw [Nat.testBit_or] at hpj
        rw [Nat.testBit_and] at hoj
        rcases Bool.and_eq_true_iff.mp hoj with ⟨hoj1, hoj2⟩
        by_cases hj64 : j' < 64
        · rw [testBit_not64_lo m j' hj64, Bool.not_eq_eq_eq_not, Bool.not_true] at hoj2
          rw [hoj2, Bool.or_false] at hpj
          exact hd j' ⟨hpj, hoj1⟩
        · rw [hhi j' (by omega)] at hoj1
          exact Bool.false_ne_true hoj1
      · intro j' hj'
        rw [Nat.testBit_and, hhi j' hj']
        rfl

/-- A recorded child of the per-cell fold has disjoint bitboards. -/
theorem cellOutcome_disjoint (mover opp empty : Nat) (x y : Nat) (c : ChildMove)
    (h : cellOutcome mover opp empty x y = some c)
    (hd : ∀ j, ¬(mover.testBit j = true ∧ opp.testBit j = true))
    (hhi : ∀ j, 64 ≤ j → opp.testBit j = false) :
    c.player &&& c.opponent = 0 := by
  unfold cellOutcome at h
  simp only at h
  rcases hfd : foldDirs x y
      [dirLeft opp empty x y, dirRight opp empty x y, dirUp opp empty x y,
       dirDown opp empty x y, dirUpRight opp empty x y, dirDownLeft opp empty x y,
       dirUpLeft opp empty x y, dirDownRight opp empty x y] (false, mover, opp, 1)
    with ⟨b, p', o', v'⟩
  rw [hfd] at h
  cases b with
  | false => exact absurd h (by simp)
  | true =>
    simp only [Option.some.injEq] at h
    have hdis := foldDirs_disjoint x y
      [dirLeft opp empty x y, dirRight opp empty x y, dirUp opp empty x y,
       dirDown opp empty x y, dirUpRight opp empty x y, dirDownLeft opp empty x y,
       dirUpLeft opp empty x y, dirDownRight opp empty x y] false mover opp 1 hd hhi
    rw [hfd] at hdis
    apply Nat.eq_of_testBit_eq
    intro j
    rw [Nat.testBit_and, Nat.zero_testBit]
    have hj := hdis j
    simp only at hj
    rw [← h]
    simp only
    cases hp : p'.testBit j with
    | false => rfl
    | true =>
      cases ho : o'.testBit j with
      | false => rfl
      | true => exact absurd ⟨hp, ho⟩ hj

/-- C2: the root as initialized from the external board has disjoint
bitboards, and `generate_child_moves` maps a Position with disjoint 64-bit
bitboards to children with disjoint bitboards — so every reachable Position
(the initialized root and every generated child of a disjoint parent) has
`player & opponent == 0`. -/
theorem C2_disjointness :
    (∀ board : ExternalBoard, (initHead board).1 &&& (initHead board).2.1 = 0) ∧
    (∀ p o : Nat, p < 2 ^ 64 → o < 2 ^ 64 → p &&& o = 0 →
      ∀ c ∈ generate_child_moves p o, c.player &&& c.opponent = 0) := by
  constructor
  · intro board
    have h := initHead_go_disjoint board (List.range 64) 0 0 0
      (by
        intro j
        rintro ⟨h1, -⟩
        rw [Nat.zero_testBit] at h1
        exact Bool.false_ne_true h1)
      (fun i _ => ⟨Nat.zero_testBit i, Nat.zero_testBit i⟩)
      (List.nodup_range 64)
    apply Nat.eq_of_testBit_eq
    intro j
    rw [Nat.testBit_and, Nat.zero_testBit]
    have hj := h j
    unfold initHead
    cases hp : ((List.range 64).foldl (initHeadStep board) (0, 0, 0)).1.testBit j with
    | false => rfl
    | true =>
      cases ho : ((List.range 64).foldl (initHeadStep board) (0, 0, 0)).2.1.testBit j with
      | false => rfl
      | true => exact absurd ⟨hp, ho⟩ hj
  · intro p o hp ho hdisj c hc
    unfold generate_child_moves at hc
    simp only at hc
    rw [List.mem_filterMap] at hc
    rcases hc with ⟨i, -, hout⟩
    refine cellOutcome_disjoint o p _ (i % 8) (i / 8) c hout ?_ ?_
    · intro j
      rintro ⟨hoj, hpj⟩
      have hz : (p &&& o).testBit j = false := by rw [hdisj]; exact Nat.zero_testBit j
      rw [Nat.testBit_and, hpj, hoj] at hz
      simp at hz
    · intro j hj
      exact testBit_ge_64_eq_false p j hp hj

/-- Witness for `C2_disjointness`: the all-empty first board and the
canonical starting position. -/
theorem C2_disjointness_witness :
    (initHead (fun _ _ => none)).1 &&& (initHead (fun _ _ => none)).2.1 = 0 ∧
    ∀ c ∈ generate_child_moves START_PLAYER START_OPPONENT,
      c.player &&& c.opponent = 0 :=
  ⟨C2_disjointness.1 (fun _ _ => none),
   C2_disjointness.2 START_PLAYER START_OPPONENT (by decide) (by decide) (by decide)⟩

end Hammer

namespace Hammer

/-! ## C3: move selection and tie-breaking -/

/-- The full characterization of the `bestMoves` collection loop, generalized
over the starting accumulator. -/
theorem selectBest_go (l : List BoardState) :
    ∀ (k : Nat) (best : Int) (idxs : List Nat),
      (l.enumFrom k).foldl
          (fun (acc : Int × List Nat) ie =>
            let realVal := i16 (ie.2.value - ie.2.worstBranch)
            if acc.1 < realVal then (realVal, [ie.1])
            else if realVal = acc.1 then (acc.1, acc.2 ++ [ie.1])
            else acc)
          (best, idxs) =
        ((l.map (fun c => i16 (c.value - c.worstBranch))).foldl
            (fun acc r => if acc < r then r else acc) best,
         if best < (l.map (fun c => i16 (c.value - c.worstBranch))).foldl
             (fun acc r => if acc < r then r else acc) best then
           tiesFrom l k ((l.map (fun c => i16 (c.value - c.worstBranch))).foldl
             (fun acc r => if acc < r then r else acc) best)
         else idxs ++ tiesFrom l k best) := by
  induction l with
  | nil =>
    intro k best idxs
    simp [tiesFrom, List.enumFrom]
  | cons c l ih =>
    intro k best idxs
    have hstep : List.enumFrom k (c :: l) = (k, c) :: List.enumFrom (k + 1) l := rfl
    rw [hstep, List.foldl_cons, List.map_cons, List.foldl_cons]
    have hties : ∀ m : Int, tiesFrom (c :: l) k m =
        (if i16 (c.value - c.worstBranch) = m then [k] else []) ++ tiesFrom l (k + 1) m := by
      intro m
      rw [tiesFrom, tiesFrom, hstep, List.filterMap_cons]
      split <;> simp_all
    set r := i16 (c.value - c.worstBranch) with hr
    by_cases h1 : best < r
    · simp only [if_pos h1]
      rw [ih (k + 1) r [k]]
      have hle : r ≤ (l.map (fun c => i16 (c.value - c.worstBranch))).foldl
          (fun acc r => if acc < r then r else acc) r := (foldl_max_spec _ r).1
      by_cases h2 : r < (l.map (fun c => i16 (c.value - c.worstBranch))).foldl
          (fun acc r => if acc < r then r else acc) r
      · rw [if_pos h2, if_pos (lt_trans h1 h2), hties]
        have hno : ¬(r = (l.map (fun c => i16 (c.value - c.worstBranch))).foldl
            (fun acc r => if acc < r then r else acc) r) := by omega
        rw [if_neg hno]
        exact congrArg _ (List.nil_append _).symm
      · have heq : (l.map (fun c => i16 (c.value - c.worstBranch))).foldl
            (fun acc r => if acc < r then r else acc) r = r := by omega
        rw [if_neg h2, heq, if_pos h1, hties, if_pos rfl]
    · simp only [if_neg h1]
      by_cases h2 : r = best
      · simp only [if_pos h2]
        rw [ih (k + 1) best (idxs ++ [k])]
        by_cases h3 : best < (l.map (fun c => i16 (c.value - c.worstBranch))).foldl
            (fun acc r => if acc < r then r else acc) best
        · rw [if_pos h3, if_pos h3, hties]
          have hno : ¬(r = (l.map (fun c => i16 (c.value - c.worstBranch))).foldl
              (fun acc r => if acc < r then r else acc) best) := by omega
          rw [if_neg hno]
          exact congrArg _ (List.nil_append _).symm
        · rw [if_neg h3, if_neg h3, hties, if_pos h2, List.append_assoc]
      · simp only [if_neg h2]
        rw [ih (k + 1) best idxs]
        by_cases h3 : best < (l.map (fun c => i16 (c.value - c.worstBranch))).foldl
            (fun acc r => if acc < r then r else acc) best
        · rw [if_pos h3, if_pos h3, hties]
          have hno : ¬(r = (l.map (fun c => i16 (c.value - c.worstBranch))).foldl
              (fun acc r => if acc < r then r else acc) best) := by omega
          rw [if_neg hno]
          exact congrArg _ (List.nil_append _).symm
        · rw [if_neg h3, if_neg h3, hties, if_neg h2]
          exact congrArg _ (congrArg _ (List.nil_append _).symm)

/-- The selection loop computes exactly the maximum net value and the list of
ALL child indices tied at it. -/
theorem selectBest_eq (children : List BoardState) :
    selectBest children = (bestValue children, tiesOf children (bestValue children)) := by
  have h := selectBest_go children 0 INT16_MIN []
  rw [selectBest, List.enum]
  rw [h]
  rw [bestValue, tiesOf]
  by_cases h2 : INT16_MIN < (children.map (fun c => i16 (c.value - c.worstBranch))).foldl
      (fun acc r => if acc < r then r else acc) INT16_MIN
  · rw [if_pos h2]
  · have heq : (children.map (fun c => i16 (c.value - c.worstBranch))).foldl
        (fun acc r => if acc < r then r else acc) INT16_MIN = INT16_MIN := by
      have := (foldl_max_spec (children.map (fun c => i16 (c.value - c.worstBranch)))
        INT16_MIN).1
      omega
    rw [if_neg h2, heq]
    rfl

/-- When the collected tie list is nonempty, `selectMove` returns the
coordinates of the child indexed by `bestMoves[rand % idx]` and commits it. -/
theorem selectMove_cons (head : BoardState) (rand : Nat) (children : List BoardState)
    (hcs : head.nextStates = some children) (t : Nat) (ts : List Nat)
    (httl : (selectBest children).2 = t :: ts) :
    selectMove head rand =
      ([((children.getD ((selectBest children).2.getD
            (rand % (selectBest children).2.length) 0) head).x,
         (children.getD ((selectBest children).2.getD
            (rand % (selectBest children).2.length) 0) head).y)],
       children.getD ((selectBest children).2.getD
          (rand % (selectBest children).2.length) 0) head) := by
  rw [selectMove, hcs]
  simp only
  rw [httl]

/-- Every entry of `tiesFrom l k m` is `k` plus a valid index of a child
whose net value is `m`. -/
theorem tiesFrom_sound (l : List BoardState) :
    ∀ (k : Nat) (m : Int) (j : Nat), j ∈ tiesFrom l k m →
      k ≤ j ∧ ∃ hj : j - k < l.length,
        i16 ((l.get ⟨j - k, hj⟩).value - (l.get ⟨j - k, hj⟩).worstBranch) = m := by
  induction l with
  | nil =>
    intro k m j hj
    simp [tiesFrom, List.enumFrom] at hj
  | cons c l ih =>
    intro k m j hj
    rw [tiesFrom, show List.enumFrom k (c :: l) = (k, c) :: List.enumFrom (k + 1) l from rfl,
      List.filterMap_cons] at hj
    by_cases hc : i16 (c.value - c.worstBranch) = m
    · rw [if_pos hc] at hj
      rcases List.mem_cons.mp hj with rfl | hj
      · exact ⟨le_refl j, by simpa using hc⟩
      · rcases ih (k + 1) m j hj with ⟨hk, hlt, hv⟩
        refine ⟨by omega, ?_⟩
        have hj' : j - k = (j - (k + 1)) + 1 := by omega
        rw [hj']
        exact ⟨by simpa using hlt, by simpa using hv⟩
    · rw [if_neg hc] at hj
      rcases ih (k + 1) m j hj with ⟨hk, hlt, hv⟩
      refine ⟨by omega, ?_⟩
      have hj' : j - k = (j - (k + 1)) + 1 := by omega
      rw [hj']
      exact ⟨by simpa using hlt, by simpa using hv⟩

/-- If some child attains net value `m`, the tie list is nonempty. -/
theorem tiesFrom_ne_nil (l : List BoardState) :
    ∀ (k : Nat) (m : Int), (∃ c ∈ l, i16 (c.value - c.worstBranch) = m) →
      tiesFrom l k m ≠ [] := by
  induction l with
  | nil =>
    rintro k m ⟨c, hc, -⟩
    simp at hc
  | cons c l ih =>
    rintro k m ⟨c', hc', hv⟩
    rw [tiesFrom, show List.enumFrom k (c :: l) = (k, c) :: List.enumFrom (k + 1) l from rfl,
      List.filterMap_cons]
    by_cases hc : i16 (c.value - c.worstBranch) = m
    · rw [if_pos hc]
      exact List.cons_ne_nil _ _
    · rw [if_neg hc]
      rcases List.mem_cons.mp hc' with rfl | hc'
      · exact absurd hv hc
      · exact ih (k + 1) m ⟨c', hc', hv⟩

/-- C3: with at least one child, `selectMove` returns exactly one coordinate
pair — that of a child whose net value is maximal — the collected `bestMoves`
list is exactly the set of children tied at the maximum, and the committed
child is the `rand % |bestMoves|`-th entry of that list; with no children the
move list is empty (pass). -/
theorem C3_move_selection (head : BoardState) (rand : Nat) :
    (∀ children, head.nextStates = some children → children ≠ [] →
      ∃ c, (selectMove head rand).1 = [(c.x, c.y)] ∧ (selectMove head rand).2 = c ∧
        c ∈ children ∧
        i16 (c.value - c.worstBranch) = bestValue children ∧
        (∀ c' ∈ children, i16 (c'.value - c'.worstBranch) ≤ bestValue children) ∧
        (selectBest children).2 = tiesOf children (bestValue children) ∧
        c = children.getD ((selectBest children).2.getD
              (rand % (selectBest children).2.length) 0) head) ∧
    ((head.nextStates = none ∨ head.nextStates = some []) →
      (selectMove head rand).1 = []) := by
  constructor
  · intro children hcs hne
    have hsel2 : (selectBest children).2 = tiesOf children (bestValue children) := by
      rw [selectBest_eq]
    have hmem : bestValue children ∈
        children.map (fun c => i16 (c.value - c.worstBranch)) := by
      refine foldl_max_mem _ ?_ ?_
      · intro h
        rcases children with - | ⟨c, l⟩
        · exact absurd rfl hne
        · simp at h
      · intro x hx
        rcases List.mem_map.mp hx with ⟨c, -, rfl⟩
        exact i16_lb _
    rcases List.mem_map.mp hmem with ⟨cm, hcm, hcv⟩
    have htne : tiesOf children (bestValue children) ≠ [] :=
      tiesFrom_ne_nil children 0 (bestValue children) ⟨cm, hcm, hcv⟩
    obtain ⟨t, ts, hT⟩ := List.exists_cons_of_ne_nil htne
    have hsm := selectMove_cons head rand children hcs t ts (hsel2.trans hT)
    have hlen : rand % (selectBest children).2.length < (selectBest children).2.length := by
      refine Nat.mod_lt _ ?_
      rw [hsel2, hT]
      simp
    set j := (selectBest children).2.getD (rand % (selectBest children).2.length) 0 with hjdef
    have hjmem : j ∈ tiesOf children (bestValue children) := by
      rw [hjdef, List.getD_eq_getElem _ _ hlen, ← hsel2]
      exact List.getElem_mem hlen
    rcases tiesFrom_sound children 0 (bestValue children) j hjmem with ⟨-, hjlt0, hjv⟩
    simp only [Nat.sub_zero] at hjlt0 hjv
    refine ⟨children.getD j head, ?_, ?_, ?_, ?_, ?_, hsel2, rfl⟩
    · rw [hsm]
    · rw [hsm]
    · rw [List.getD_eq_getElem _ _ hjlt0]
      exact List.getElem_mem hjlt0
    · rw [List.getD_eq_getElem _ _ hjlt0]
      simpa using hjv
    · intro c' hc'
      exact (foldl_max_spec _ INT16_MIN).2.1 _ (List.mem_map.mpr ⟨c', hc', rfl⟩)
  · intro h
    rcases h with h | h
    · rw [selectMove, h]
    · rw [selectMove, h]
      rfl

/-- Witness for `C3_move_selection`: a two-child root whose second child has
the strictly better net value `12` is selected, and an empty-children root
passes. -/
theorem C3_move_selection_witness :
    (∃ c, (selectMove (.mk 0 0 0 0 0 0
        (some [.mk 0 0 3 1 2 2 none, .mk 0 0 5 (-7) 6 1 none])) 5).1 = [(c.x, c.y)] ∧
      (selectMove (.mk 0 0 0 0 0 0
        (some [.mk 0 0 3 1 2 2 none, .mk 0 0 5 (-7) 6 1 none])) 5).2 = c ∧
      c ∈ [BoardState.mk 0 0 3 1 2 2 none, .mk 0 0 5 (-7) 6 1 none] ∧
      i16 (c.value - c.worstBranch) =
        bestValue [BoardState.mk 0 0 3 1 2 2 none, .mk 0 0 5 (-7) 6 1 none] ∧
      (∀ c' ∈ [BoardState.mk 0 0 3 1 2 2 none, .mk 0 0 5 (-7) 6 1 none],
        i16 (c'.value - c'.worstBranch) ≤
          bestValue [BoardState.mk 0 0 3 1 2 2 none, .mk 0 0 5 (-7) 6 1 none]) ∧
      (selectBest [BoardState.mk 0 0 3 1 2 2 none, .mk 0 0 5 (-7) 6 1 none]).2 =
        tiesOf [BoardState.mk 0 0 3 1 2 2 none, .mk 0 0 5 (-7) 6 1 none]
          (bestValue [BoardState.mk 0 0 3 1 2 2 none, .mk 0 0 5 (-7) 6 1 none]) ∧
      c = [BoardState.mk 0 0 3 1 2 2 none, .mk 0 0 5 (-7) 6 1 none].getD
            ((selectBest [BoardState.mk 0 0 3 1 2 2 none, .mk 0 0 5 (-7) 6 1 none]).2.getD
              (5 % (selectBest [BoardState.mk 0 0 3 1 2 2 none,
                .mk 0 0 5 (-7) 6 1 none]).2.length) 0)
            (.mk 0 0 0 0 0 0 (some [.mk 0 0 3 1 2 2 none, .mk 0 0 5 (-7) 6 1 none]))) ∧
    (selectMove (.mk 0 0 0 0 0 0 (some ([] : List BoardState))) 5).1 = [] :=
  ⟨(C3_move_selection (.mk 0 0 0 0 0 0
      (some [.mk 0 0 3 1 2 2 none, .mk 0 0 5 (-7) 6 1 none])) 5).1
      [.mk 0 0 3 1 2 2 none, .mk 0 0 5 (-7) 6 1 none] rfl (List.cons_ne_nil _ _),
   (C3_move_selection (.mk 0 0 0 0 0 0 (some ([] : List BoardState))) 5).2 (Or.inr rfl)⟩

end Hammer

namespace Hammer

/-! ## C5: state desync is silently ignored -/

/-- C5 (the code at the failing input): `revai_ai` called with a non-empty
persistent tree (`CX5_HEAD`) and an external board matching none of the
root's children (every cell reads empty) surfaces no error — the embedding's
return type has no error variant, faithfully to the C function, which always
returns a Python dict of moves — and instead searches the unmodified stale
tree, commits its move, and returns it.  The placed-tile counter is bumped
only by the engine's own increment (5 → 6), confirming the no-match scan
fell through. -/
theorem C5_desync_silently_proceeds :
    (revai_ai CX5_HEAD 5 (fun _ _ => none) 0).1 = [(7, 7)] ∧
    (revai_ai CX5_HEAD 5 (fun _ _ => none) 0).2.2.1 = 6 := by
  refine ⟨by decide, by decide⟩

/-! ## C7: pruning versus the prune-free bottom-up pass -/

/-- C7 (counterexample): on the two-plies-from-start position `CX7` with
depth limit 2, the node-visit budget is never exceeded (27 visits, limit
unchanged), yet the pruning serial search backs up root value 1 while the
prune-free bottom-up pass over the fully expanded tree computes 0. -/
theorem C7_pruning_changes_root_value :
    (search_for_moves_serial (freshRoot CX7_PLAYER CX7_OPPONENT)
        INT16_MIN INT16_MIN ⟨0, 2⟩).2.visited ≤ MOVE_CUTOFF ∧
    (search_for_moves_serial (freshRoot CX7_PLAYER CX7_OPPONENT)
        INT16_MIN INT16_MIN ⟨0, 2⟩).2.maxDepth = 2 ∧
    (search_for_moves_serial (freshRoot CX7_PLAYER CX7_OPPONENT)
        INT16_MIN INT16_MIN ⟨0, 2⟩).1.worstBranch = 1 ∧
    (recalculate_move_values 2 (expandTo 3 (freshRoot CX7_PLAYER CX7_OPPONENT))
        0).worstBranch = 0 ∧
    (1 : Int) ≠ 0 := by
  refine ⟨by decide, by decide, by decide, by decide, by decide⟩

end Hammer

namespace Hammer

theorem generate_length_le (p o : Nat) : (generate_child_moves p o).length ≤ 64 := by
  unfold generate_child_moves
  simp only
  calc ((List.range 64).filterMap _).length ≤ (List.range 64).length :=
        List.length_filterMap_le _ _
    _ = 64 := List.length_range 64

theorem expand_freshRoot (p o : Nat) :
    expand (freshRoot p o) =
      .mk p o 0 0 0 0 (some ((generate_child_moves p o).map childToState)) := rfl

theorem expandTo_zero_map (l : List BoardState) : l.map (expandTo 0) = l := by
  have h : expandTo 0 = fun t => t := rfl
  rw [h, List.map_id']

/-- The serial search applied to a freshly generated node exactly at the
depth limit: expand, and terminal-score when childless. -/
theorem searchSerial_child_at_limit (cm : ChildMove) (a b : Int) (st : SearchState)
    (hst : st.maxDepth = 1) (f : Nat) :
    searchSerialAux (f + 1) (childToState cm) a b 1 st = (evalAtLimit cm, st) := by
  have hexp : expand (childToState cm) =
      .mk cm.player cm.opponent cm.value 0 cm.x cm.y
        (some ((generate_child_moves cm.player cm.opponent).map childToState)) := rfl
  rw [searchSerialAux, hexp]
  cases hg : generate_child_moves cm.player cm.opponent with
  | nil =>
    simp only [hg, List.map_nil, evalAtLimit]
  | cons c g =>
    simp only [hg, List.map_cons, hst, evalAtLimit]
    simp

/-- The bottom-up pass applied to the same node exactly at the depth limit. -/
theorem recalc_child_at_limit (cm : ChildMove) (f : Nat) :
    recalcAux 1 (f + 1) (expandTo 1 (childToState cm)) 1 = evalAtLimit cm := by
  have hexp : expandTo 1 (childToState cm) =
      .mk cm.player cm.opponent cm.value 0 cm.x cm.y
        (some (((generate_child_moves cm.player cm.opponent).map childToState).map
          (expandTo 0))) := rfl
  rw [hexp, expandTo_zero_map]
  cases hg : generate_child_moves cm.player cm.opponent with
  | nil =>
    simp only [hg, List.map_nil, recalcAux, evalAtLimit]
  | cons c g =>
    simp only [hg, List.map_cons, recalcAux, evalAtLimit]
    simp

end Hammer

namespace Hammer

/-- With the full window `beta = INT16_MIN` the break never fires, so the
serial child loop at the depth limit evaluates every child as `evalAtLimit`
and folds their net values into the running maximum. -/
theorem searchSerialLoop_at_limit
    (rec : BoardState → Int → Int → SearchState → BoardState × SearchState)
    (hrec : ∀ (cm : ChildMove) (a b : Int) (st : SearchState), st.maxDepth = 1 →
      rec (childToState cm) a b st = (evalAtLimit cm, st))
    (g : List ChildMove) :
    ∀ (dr : List BoardState) (maxv alpha : Int) (st : SearchState), st.maxDepth = 1 →
      (((g.map childToState).foldl (searchSerialStep rec INT16_MIN)
          ⟨dr, maxv, alpha, st, false⟩).doneRev
          = (g.map evalAtLimit).reverse ++ dr) ∧
      (((g.map childToState).foldl (searchSerialStep rec INT16_MIN)
          ⟨dr, maxv, alpha, st, false⟩).maxv
          = (g.map (fun cm => i16 ((evalAtLimit cm).value - (evalAtLimit cm).worstBranch))).foldl
              (fun acc r => if acc < r then r else acc) maxv) ∧
      (((g.map childToState).foldl (searchSerialStep rec INT16_MIN)
          ⟨dr, maxv, alpha, st, false⟩).st = st) ∧
      (((g.map childToState).foldl (searchSerialStep rec INT16_MIN)
          ⟨dr, maxv, alpha, st, false⟩).broken = false) := by
  induction g with
  | nil =>
    intro dr maxv alpha st hst
    simp
  | cons cm g ih =>
    intro dr maxv alpha st hst
    rw [List.map_cons, List.foldl_cons]
    have hstep : searchSerialStep rec INT16_MIN ⟨dr, maxv, alpha, st, false⟩ (childToState cm) =
        ⟨evalAtLimit cm :: dr,
         if maxv < i16 ((evalAtLimit cm).value - (evalAtLimit cm).worstBranch)
           then i16 ((evalAtLimit cm).value - (evalAtLimit cm).worstBranch) else maxv,
         if (if maxv < i16 ((evalAtLimit cm).value - (evalAtLimit cm).worstBranch)
             then i16 ((evalAtLimit cm).value - (evalAtLimit cm).worstBranch) else maxv) < alpha
           then alpha
           else (if maxv < i16 ((evalAtLimit cm).value - (evalAtLimit cm).worstBranch)
             then i16 ((evalAtLimit cm).value - (evalAtLimit cm).worstBranch) else maxv),
         st, false⟩ := by
      rw [searchSerialStep]
      simp only [Bool.false_eq_true, if_neg]
      rw [hrec cm INT16_MIN alpha st hst]
      simp
    rw [hstep]
    rcases ih (evalAtLimit cm :: dr) _ _ st hst with ⟨h1, h2, h3, h4⟩
    refine ⟨?_, ?_, h3, h4⟩
    · rw [h1, List.map_cons, List.reverse_cons, List.append_assoc]
      rfl
    · rw [h2, List.map_cons, List.foldl_cons]

/-- C7 (amended): when the depth limit is at most 1 — a regime in which no
beta break can fire — the pruning serial search and the prune-free bottom-up
pass over the fully expanded tree compute the same root value. -/
theorem C7_no_prune_equality (p o : Nat) (maxD : Nat) (h : maxD ≤ 1) :
    (search_for_moves_serial (freshRoot p o) INT16_MIN INT16_MIN ⟨0, maxD⟩).1.worstBranch =
    (recalculate_move_values maxD (expandTo (maxD + 1) (freshRoot p o)) 0).worstBranch := by
  interval_cases maxD
  · -- depth limit 0: both sides leave a generated node untouched
    rw [search_for_moves_serial]
    simp only
    rw [searchSerialAux, expand_freshRoot]
    rw [recalculate_move_values]
    have hfuel : max (0 + 1 - 0) 1 = 0 + 1 := by decide
    rw [hfuel]
    have hexp : expandTo (0 + 1) (freshRoot p o) =
        .mk p o 0 0 0 0 (some (((generate_child_moves p o).map childToState).map (expandTo 0)))
      := rfl
    rw [hexp, expandTo_zero_map]
    cases hg : generate_child_moves p o with
    | nil => simp [recalcAux]
    | cons c g => simp [recalcAux]
  · -- depth limit 1
    rw [search_for_moves_serial]
    simp only
    rw [searchSerialAux, expand_freshRoot]
    rw [recalculate_move_values]
    have hfuel : max (1 + 1 - 0) 1 = 1 + 1 := by decide
    rw [hfuel]
    have hexp : expandTo (1 + 1) (freshRoot p o) =
        .mk p o 0 0 0 0 (some (((generate_child_moves p o).map childToState).map (expandTo 1)))
      := rfl
    rw [hexp]
    cases hg : generate_child_moves p o with
    | nil => simp [recalcAux]
    | cons c g =>
      simp only [hg, List.map_cons]
      have hcut : ¬MOVE_CUTOFF < (0 + (childToState c :: (g.map childToState)).length) := by
        have hlen : (generate_child_moves p o).length ≤ 64 := generate_length_le p o
        rw [hg] at hlen
        simp only [List.length_cons, List.length_map] at hlen ⊢
        rw [MOVE_CUTOFF]
        omega
      simp only [show (0:Nat) < 1 from Nat.zero_lt_one, if_pos, if_neg hcut]
      have hloop := searchSerialLoop_at_limit
        (fun ch a b s => searchSerialAux 1 ch a b (0 + 1) s)
        (fun cm a b st hst => searchSerial_child_at_limit cm a b st hst 0)
        (c :: g) []  INT16_MIN INT16_MIN
        ⟨0 + (childToState c :: (g.map childToState)).length, 1⟩ rfl
      rw [List.map_cons] at hloop
      rcases hloop with ⟨-, h2, -, -⟩
      rw [h2]
      -- the bottom-up side
      simp only [recalcAux, show (0:Nat) < 1 from Nat.zero_lt_one, if_pos]
      have hmap : ∀ l : List ChildMove,
          (l.map (expandTo 1 ∘ childToState)).map (fun ch => recalcAux 1 1 ch (0 + 1)) =
          l.map evalAtLimit := by
        intro l
        rw [List.map_map]
        refine List.map_congr_left ?_
        intro cm _
        exact recalc_child_at_limit cm 0
      rw [show (expandTo 1 (childToState c) :: List.map (expandTo 1) (List.map childToState g)) =
            List.map (expandTo 1 ∘ childToState) (c :: g) from by simp [Function.comp],
          hmap (c :: g), List.foldl_map, List.foldl_map]
      rfl

end Hammer

namespace Hammer

/-- Witness for `C7_no_prune_equality` at the canonical starting position
and depth limit 1. -/
theorem C7_no_prune_equality_witness :
    (search_for_moves_serial (freshRoot START_PLAYER START_OPPONENT)
        INT16_MIN INT16_MIN ⟨0, 1⟩).1.worstBranch =
    (recalculate_move_values 1 (expandTo (1 + 1)
        (freshRoot START_PLAYER START_OPPONENT)) 0).worstBranch :=
  C7_no_prune_equality START_PLAYER START_OPPONENT 1 (by decide)

end Hammer

namespace Hammer

/-! ## C1 groundwork: generic characterizations -/

/-- Full characterization of one scan loop. -/
theorem scanRun_eq_some_iff (o e : Nat) (l : List Nat) :
    ∀ pos, scanRun o e l = some pos ↔
      (pos < l.length ∧ (∀ j, j < pos → o.testBit (l.getD j 0) = true) ∧
       o.testBit (l.getD pos 0) = false ∧ e.testBit (l.getD pos 0) = false) := by
  induction l with
  | nil =>
    intro pos
    simp [scanRun]
  | cons i rest ih =>
    intro pos
    rw [scanRun]
    by_cases ho : o.testBit i
    · rw [if_pos ho]
      cases pos with
      | zero =>
        constructor
        · intro h
          rcases Option.map_eq_some'.mp h with ⟨pos', -, h2⟩
          omega
        · rintro ⟨-, -, h3, -⟩
          rw [List.getD_cons_zero] at h3
          rw [ho] at h3
          exact absurd h3 (by simp)
      | succ pos =>
        constructor
        · intro h
          rcases Option.map_eq_some'.mp h with ⟨pos', hp, h2⟩
          have he : pos' = pos := by omega
          rw [he] at hp
          rcases (ih pos).mp hp with ⟨h1, h2, h3, h4⟩
          refine ⟨by simpa using h1, ?_, by simpa using h3, by simpa using h4⟩
          intro j hj
          cases j with
          | zero => simpa using ho
          | succ j => simpa using h2 j (by omega)
        · rintro ⟨h1, h2, h3, h4⟩
          have hp : scanRun o e rest = some pos := by
            refine (ih pos).mpr ⟨by simpa using h1, ?_, by simpa using h3, by simpa using h4⟩
            intro j hj
            have := h2 (j + 1) (by omega)
            simpa using this
          rw [hp]
          rfl
    · rw [if_neg ho]
      by_cases he : e.testBit i
      · rw [if_pos he]
        constructor
        · intro h
          exact absurd h (by simp)
        · rintro ⟨h1, h2, h3, h4⟩
          cases pos with
          | zero =>
            rw [List.getD_cons_zero] at h4
            rw [he] at h4
            exact absurd h4 (by simp)
          | succ pos =>
            have := h2 0 (by omega)
            rw [List.getD_cons_zero] at this
            rw [this] at ho
            exact absurd rfl ho
      · rw [if_neg he]
        constructor
        · intro h
          have hp : pos = 0 := by
            have := Option.some.inj h
            omega
          subst hp
          refine ⟨by simp, by omega, ?_, ?_⟩
          · rw [List.getD_cons_zero]
            exact Bool.not_eq_true _ ▸ (by simpa using ho)
          · rw [List.getD_cons_zero]
            exact Bool.not_eq_true _ ▸ (by simpa using he)
        · rintro ⟨h1, h2, h3, h4⟩
          cases pos with
          | zero => rfl
          | succ pos =>
            have := h2 0 (by omega)
            rw [List.getD_cons_zero] at this
            rw [this] at ho
            exact absurd rfl ho

/-- Bits of an OR-fold of single bits over `List.range`. -/
theorem foldl_or_bits (f : Nat → Nat) (n : Nat) :
    ∀ (init i : Nat),
      ((List.range n).foldl (fun m j => m ||| (1 <<< f j)) init).testBit i =
        (init.testBit i || decide (∃ j, j < n ∧ i = f j)) := by
  induction n with
  | zero =>
    intro init i
    simp [List.range_zero]
  | succ n ih =>
    intro init i
    rw [List.range_succ, List.foldl_append, List.foldl_cons, List.foldl_nil,
      Nat.testBit_or, testBit_one_shiftLeft, ih]
    by_cases h1 : i = f n
    · have hC : ∃ j, j < n + 1 ∧ i = f j := ⟨n, by omega, h1⟩
      have hD : f n = i := h1.symm
      simp [hC, hD]
    · by_cases h2 : ∃ j, j < n ∧ i = f j
      · have hC : ∃ j, j < n + 1 ∧ i = f j := by
          rcases h2 with ⟨j, hj, he⟩
          exact ⟨j, by omega, he⟩
        simp [h2, hC]
      · have hC : ¬∃ j, j < n + 1 ∧ i = f j := by
          rintro ⟨j, hj, he⟩
          rcases Nat.lt_succ_iff_lt_or_eq.mp hj with hj | rfl
          · exact h2 ⟨j, hj, he⟩
          · exact h1 he
        have hD : ¬(f n = i) := fun he => h1 he.symm
        simp [h2, hC, hD]

/-- The `empty` bitboard is the 64-bit complement of the occupied cells. -/
theorem testBit_empty (mover opp : Nat) (i : Nat) (hi : i < 64) :
    ((2 ^ 64 - 1) ^^^ u64 (mover ||| opp)).testBit i =
      (!(mover.testBit i) && !(opp.testBit i)) := by
  rw [Nat.testBit_xor, Nat.testBit_two_pow_sub_one, u64, Nat.testBit_mod_two_pow,
    Nat.testBit_or, decide_eq_true hi]
  cases mover.testBit i <;> cases opp.testBit i <;> rfl

/-- `specAt` at nonnegative coordinates. -/
theorem specAt_natCoords (b : Nat) (u v : Nat) :
    specAt b (u : Int) (v : Int) = (decide (u < 8 ∧ v < 8) && b.testBit (v * 8 + u)) := by
  rw [specAt]
  have h1 : ((u : Int)).toNat = u := Int.toNat_natCast u
  have h2 : ((v : Int)).toNat = v := Int.toNat_natCast v
  rw [h1, h2]
  have h3 : (0 ≤ (u:Int) ∧ (u:Int) < 8 ∧ 0 ≤ (v:Int) ∧ (v:Int) < 8) ↔ (u < 8 ∧ v < 8) := by
    omega
  simp only [h3]

/-- `specAt` off the board. -/
theorem specAt_out (b : Nat) (X Y : Int) (h : X < 0 ∨ 8 ≤ X ∨ Y < 0 ∨ 8 ≤ Y) :
    specAt b X Y = false := by
  rw [specAt]
  have h2 : ¬(0 ≤ X ∧ X < 8 ∧ 0 ≤ Y ∧ Y < 8) := by omega
  rw [decide_eq_false h2, Bool.false_and]

end Hammer

namespace Hammer

theorem all_congr_list (l : List Nat) (f g : Nat → Bool) (h : ∀ a ∈ l, f a = g a) :
    l.all f = l.all g := by
  induction l with
  | nil => rfl
  | cons a l ih =>
    rw [List.all_cons, List.all_cons, h a (List.mem_cons_self a l),
      ih (fun a ha => h a (List.mem_cons_of_mem _ ha))]

theorem findSome_range6_unique (P : Nat → Bool) (k : Nat) (hk1 : 1 ≤ k) (hk6 : k ≤ 6)
    (hP : P k = true) (huniq : ∀ q, P q = true → q = k) :
    (((List.range 6).findSome? fun i => if P (i + 1) then some (i + 1) else none).getD 0) = k := by
  have hPq : ∀ q, P q = decide (q = k) := by
    intro q
    cases hq : P q with
    | false =>
      cases hqk : decide (q = k) with
      | false => rfl
      | true =>
        rw [decide_eq_true_iff] at hqk
        rw [hqk, hP] at hq
        exact absurd hq (by simp)
    | true =>
      rw [huniq q hq]
      simp
  have hr : List.range 6 = [0, 1, 2, 3, 4, 5] := rfl
  rw [hr]
  interval_cases k <;> simp [List.findSome?, hPq]

theorem leftMask_testBit (x y pos i : Nat) (hpos : pos ≤ 5 - x) (hx : x + 2 < 8) :
    ((ROW_PATTERN >>> (BOARD_SIZE - (pos + 2 + 1))) <<< (y * 8 + x)).testBit i =
      decide (y * 8 + x ≤ i ∧ i ≤ y * 8 + x + (pos + 2)) := by
  have hL : ROW_PATTERN >>> (BOARD_SIZE - (pos + 2 + 1)) = 2 ^ (pos + 3) - 1 := by
    have h5 : pos ≤ 5 := by omega
    clear hpos hx
    rw [BOARD_SIZE, ROW_PATTERN]
    interval_cases pos <;> rfl
  rw [hL, Nat.testBit_shiftLeft, Nat.testBit_two_pow_sub_one]
  by_cases h1 : y * 8 + x ≤ i
  · by_cases h2 : i ≤ y * 8 + x + (pos + 2)
    · have h3 : i - (y * 8 + x) < pos + 3 := by omega
      have h4 : i ≥ y * 8 + x := h1
      simp [h2, h3, h4, h1]
    · have h3 : ¬(i - (y * 8 + x) < pos + 3) := by omega
      have h4 : ¬(y * 8 + x ≤ i ∧ i ≤ y * 8 + x + (pos + 2)) := by omega
      simp [h3, h4]
  · have h4 : ¬(y * 8 + x ≤ i ∧ i ≤ y * 8 + x + (pos + 2)) := by omega
    have h5 : ¬(i ≥ y * 8 + x) := h1
    simp [h4, h5]

end Hammer

namespace Hammer

/-- Merging two `decide`s into one along a propositional equivalence. -/
theorem decide_merge (p q r : Prop) [Decidable p] [Decidable q] [Decidable r]
    (h : (p ∧ q) ↔ r) : (decide p && decide q) = decide r := by
  have h2 : decide r = decide (p ∧ q) := decide_eq_decide.mpr h.symm
  rw [h2]
  by_cases hp : p <;> by_cases hq : q <;> simp [hp, hq]

/-- A number with no set bit at or above `n` is below `2 ^ n`. -/
theorem lt_two_pow_of_testBit (m n : Nat) (h : ∀ i, n ≤ i → m.testBit i = false) :
    m < 2 ^ n := by
  have he : m = m % 2 ^ n := by
    refine Nat.eq_of_testBit_eq ?_
    intro i
    rw [Nat.testBit_mod_two_pow]
    rcases Nat.lt_or_ge i n with hi | hi
    · simp [hi]
    · simp [h i hi]
  rw [he]
  exact Nat.mod_lt _ (Nat.pos_pow_of_pos n (by norm_num))

/-- Bit membership in the single-row pattern. -/
theorem rowPattern_testBit (m : Nat) : ROW_PATTERN.testBit m = decide (m < 8) := by
  rcases Nat.lt_or_ge m 64 with h | h
  · interval_cases m <;> decide
  · have h1 : ROW_PATTERN.testBit m = false :=
      Nat.testBit_lt_two_pow (lt_of_lt_of_le (by norm_num [ROW_PATTERN])
        (Nat.pow_le_pow_right (by norm_num) h))
    rw [h1]
    symm
    rw [decide_eq_false_iff_not]
    omega

/-- Bit membership in the single-column pattern. -/
theorem colPattern_testBit (m : Nat) : COL_PATTERN.testBit m = decide (m ≤ 56 ∧ m % 8 = 0) := by
  rcases Nat.lt_or_ge m 64 with h | h
  · interval_cases m <;> decide
  · have h1 : COL_PATTERN.testBit m = false :=
      Nat.testBit_lt_two_pow (lt_of_lt_of_le (by norm_num [COL_PATTERN])
        (Nat.pow_le_pow_right (by norm_num) h))
    rw [h1]
    symm
    rw [decide_eq_false_iff_not]
    omega

/-- Bit membership in the anti-diagonal pattern (stride 7). -/
theorem antiDiagPattern_testBit (m : Nat) :
    ANTI_DIAG_PATTERN.testBit m = decide (7 ≤ m ∧ m ≤ 56 ∧ m % 7 = 0) := by
  rcases Nat.lt_or_ge m 64 with h | h
  · interval_cases m <;> decide
  · have h1 : ANTI_DIAG_PATTERN.testBit m = false :=
      Nat.testBit_lt_two_pow (lt_of_lt_of_le (by norm_num [ANTI_DIAG_PATTERN])
        (Nat.pow_le_pow_right (by norm_num) h))
    rw [h1]
    symm
    rw [decide_eq_false_iff_not]
    omega

/-- Bit membership in the main-diagonal pattern (stride 9). -/
theorem mainDiagPattern_testBit (m : Nat) :
    MAIN_DIAG_PATTERN.testBit m = decide (m ≤ 63 ∧ m % 9 = 0) := by
  rcases Nat.lt_or_ge m 64 with h | h
  · interval_cases m <;> decide
  · have h1 : MAIN_DIAG_PATTERN.testBit m = false :=
      Nat.testBit_lt_two_pow (lt_of_lt_of_le (by norm_num [MAIN_DIAG_PATTERN])
        (Nat.pow_le_pow_right (by norm_num) h))
    rw [h1]
    symm
    rw [decide_eq_false_iff_not]
    omega

/-- Bits of the `right` block's flip strip: the placed cell and the `pos + 1`
cells to its left. -/
theorem rightStrip_testBit (x y pos i : Nat) (hpos : pos + 2 ≤ x) (hx : x < 8) :
    ((ROW_PATTERN >>> (8 - (pos + 2))) <<< (y * 8 + x - (pos + 1))).testBit i =
      decide (y * 8 + x ≤ i + (pos + 1) ∧ i ≤ y * 8 + x) := by
  rw [Nat.testBit_shiftLeft, Nat.testBit_shiftRight, rowPattern_testBit]
  exact decide_merge _ _ _ (by omega)

/-- Bits of the `up` block's flip strip: the placed cell and the `pos + 1`
cells above it (stride 8). -/
theorem upStrip_testBit (x y pos i : Nat) (hpos : y + pos + 2 ≤ 7) :
    ((COL_PATTERN >>> ((8 - (pos + 2)) * 8)) <<< (y * 8 + x)).testBit i =
      decide (y * 8 + x ≤ i ∧ i ≤ y * 8 + x + 8 * (pos + 1) ∧ (i - (y * 8 + x)) % 8 = 0) := by
  rw [Nat.testBit_shiftLeft, Nat.testBit_shiftRight, colPattern_testBit]
  exact decide_merge _ _ _ (by omega)

/-- Bits of the `down` block's flip strip: the placed cell and the `pos`
cells below it (stride 8). -/
theorem downStrip_testBit (x y pos i : Nat) (hpos : pos < y) (hy : y < 8) :
    ((COL_PATTERN >>> ((8 - (pos + 1)) * 8)) <<< (y * 8 + x - pos * 8)).testBit i =
      decide (y * 8 + x ≤ i + 8 * pos ∧ i ≤ y * 8 + x ∧ (y * 8 + x - i) % 8 = 0) := by
  rw [Nat.testBit_shiftLeft, Nat.testBit_shiftRight, colPattern_testBit]
  exact decide_merge _ _ _ (by omega)

/-- Bits of the `upRight` block's flip strip: the placed cell and the
`pos + 1` cells up-right of it (stride 7). -/
theorem upRightStrip_testBit (x y pos i : Nat) (hposx : pos + 2 ≤ x)
    (hposy : y + pos + 2 ≤ 7) :
    ((ANTI_DIAG_PATTERN >>> ((8 - (pos + 2)) * 8)) <<< (y * 8 + (x - (pos + 1)))).testBit i =
      decide (y * 8 + x ≤ i ∧ i ≤ y * 8 + x + 7 * (pos + 1) ∧ (i - (y * 8 + x)) % 7 = 0) := by
  rw [Nat.testBit_shiftLeft, Nat.testBit_shiftRight, antiDiagPattern_testBit]
  exact decide_merge _ _ _ (by omega)

/-- Bits of the `downLeft` block's flip strip: the placed cell and the
`pos + 1` cells down-left of it (stride 7). -/
theorem downLeftStrip_testBit (x y pos i : Nat) (hposy : pos + 2 ≤ y)
    (hposx : x + pos + 2 ≤ 7) (hy : y < 8) :
    (u64 (ANTI_DIAG_PATTERN <<< ((8 - (pos + 2)) * 8)) >>>
        ((8 - y - 1) * 8 + 8 - (x + (pos + 2)))).testBit i =
      decide (y * 8 + x ≤ i + 7 * (pos + 1) ∧ i ≤ y * 8 + x ∧ (y * 8 + x - i) % 7 = 0) := by
  rw [Nat.testBit_shiftRight, u64, Nat.testBit_mod_two_pow, Nat.testBit_shiftLeft,
    antiDiagPattern_testBit]
  rw [decide_merge _ _ (((8 - y - 1) * 8 + 8 - (x + (pos + 2)) + i ≥ (8 - (pos + 2)) * 8) ∧
      (7 ≤ (8 - y - 1) * 8 + 8 - (x + (pos + 2)) + i - (8 - (pos + 2)) * 8 ∧
        (8 - y - 1) * 8 + 8 - (x + (pos + 2)) + i - (8 - (pos + 2)) * 8 ≤ 56 ∧
        ((8 - y - 1) * 8 + 8 - (x + (pos + 2)) + i - (8 - (pos + 2)) * 8) % 7 = 0)) Iff.rfl]
  exact decide_merge _ _ _ (by omega)

/-- Bits of the `upLeft` block's flip strip: the placed cell and the
`pos + 1` cells up-left of it (stride 9). -/
theorem upLeftStrip_testBit (x y pos i : Nat) (hposx : x + pos + 2 ≤ 7)
    (hposy : y + pos + 2 ≤ 7) :
    ((MAIN_DIAG_PATTERN >>> ((8 - (pos + 2)) * 8 + (8 - (pos + 2)))) <<<
        (y * 8 + x)).testBit i =
      decide (y * 8 + x ≤ i ∧ i ≤ y * 8 + x + 9 * (pos + 1) ∧ (i - (y * 8 + x)) % 9 = 0) := by
  rw [Nat.testBit_shiftLeft, Nat.testBit_shiftRight, mainDiagPattern_testBit]
  exact decide_merge _ _ _ (by omega)

/-- Bits of the `downRight` block's flip strip: the placed cell and the
`pos + 1` cells down-right of it (stride 9). -/
theorem downRightStrip_testBit (x y pos i : Nat) (hposy : pos + 2 ≤ y)
    (hposx : pos + 2 ≤ x) (hy : y < 8) (hx : x < 8) :
    (u64 (MAIN_DIAG_PATTERN <<< ((8 - (pos + 2)) * 8 + (8 - (pos + 2)))) >>>
        ((8 - y - 1) * 8 + (8 - x - 1))).testBit i =
      decide (y * 8 + x ≤ i + 9 * (pos + 1) ∧ i ≤ y * 8 + x ∧ (y * 8 + x - i) % 9 = 0) := by
  rw [Nat.testBit_shiftRight, u64, Nat.testBit_mod_two_pow, Nat.testBit_shiftLeft,
    mainDiagPattern_testBit]
  rw [decide_merge _ _ (((8 - y - 1) * 8 + (8 - x - 1) + i ≥ (8 - (pos + 2)) * 8 + (8 - (pos + 2))) ∧
      ((8 - y - 1) * 8 + (8 - x - 1) + i - ((8 - (pos + 2)) * 8 + (8 - (pos + 2))) ≤ 63 ∧
        ((8 - y - 1) * 8 + (8 - x - 1) + i - ((8 - (pos + 2)) * 8 + (8 - (pos + 2)))) % 9 = 0)) Iff.rfl]
  exact decide_merge _ _ _ (by omega)

theorem dirLeft_spec (mover opp empty : Nat) (hm : mover < 2 ^ 64) (ho : opp < 2 ^ 64)
    (hdisj : mover &&& opp = 0) (hemp : empty = (2 ^ 64 - 1) ^^^ u64 (mover ||| opp))
    (x y : Nat) (hx : x < 8) (hy : y < 8) :
    ((dirLeft opp empty x y).isSome =
      (specEmptyAt mover opp x y && specLegalDir mover opp x y 1 0)) ∧
    (∀ m ch, dirLeft opp empty x y = some (m, ch) →
      (∀ i, m.testBit i = true →
        i = y * 8 + x ∨ (specFlipsDir mover opp x y 1 0).testBit i = true ∨
          mover.testBit i = true) ∧
      (∀ i, i = y * 8 + x ∨ (specFlipsDir mover opp x y 1 0).testBit i = true →
        m.testBit i = true)) := by
  have hdb : ∀ i, ¬(mover.testBit i = true ∧ opp.testBit i = true) := by
    intro i hi
    have hz : (mover &&& opp).testBit i = false := by rw [hdisj]; exact Nat.zero_testBit i
    rw [Nat.testBit_and, hi.1, hi.2] at hz
    simp at hz
  have hE : ∀ i, i < 64 → empty.testBit i = (!mover.testBit i && !opp.testBit i) := by
    intro i hi
    rw [hemp]
    exact testBit_empty mover opp i hi
  have hMv : ∀ i, i < 64 → opp.testBit i = false → empty.testBit i = false →
      mover.testBit i = true := by
    intro i hi h1 h2
    rw [hE i hi, h1] at h2
    cases hmv : mover.testBit i with
    | true => rfl
    | false => rw [hmv] at h2; simp at h2
  have hRun : ∀ k : Nat, specRunOk mover opp x y 1 0 k =
      (decide (1 ≤ k) &&
        (List.range k).all
          (fun j => decide (x + (j + 1) < 8 ∧ y < 8) && opp.testBit (y * 8 + (x + (j + 1)))) &&
        (decide (x + (k + 1) < 8 ∧ y < 8) && mover.testBit (y * 8 + (x + (k + 1))))) := by
    intro k
    rw [specRunOk]
    have hterm : specAt mover ((x : Int) + ((k : Int) + 1) * 1) ((y : Int) + ((k : Int) + 1) * 0)
        = (decide (x + (k + 1) < 8 ∧ y < 8) && mover.testBit (y * 8 + (x + (k + 1)))) := by
      rw [show ((x : Int) + ((k : Int) + 1) * 1) = ((x + (k + 1) : Nat) : Int) by push_cast; ring,
        show ((y : Int) + ((k : Int) + 1) * 0) = ((y : Nat) : Int) by push_cast; ring,
        specAt_natCoords]
    have hall : (List.range k).all
          (fun j => specAt opp ((x : Int) + ((j : Int) + 1) * 1) ((y : Int) + ((j : Int) + 1) * 0))
        = (List.range k).all
          (fun j => decide (x + (j + 1) < 8 ∧ y < 8) && opp.testBit (y * 8 + (x + (j + 1)))) := by
      refine all_congr_list _ _ _ ?_
      intro j _
      rw [show ((x : Int) + ((j : Int) + 1) * 1) = ((x + (j + 1) : Nat) : Int) by push_cast; ring,
        show ((y : Int) + ((j : Int) + 1) * 0) = ((y : Nat) : Int) by push_cast; ring,
        specAt_natCoords]
    rw [hall, hterm]
  have hLegal : specLegalDir mover opp x y 1 0 = true ↔
      ∃ k, 1 ≤ k ∧ k ≤ 6 ∧ specRunOk mover opp x y 1 0 k = true := by
    rw [specLegalDir, List.any_eq_true]
    constructor
    · rintro ⟨i, hi, hP⟩
      rw [List.mem_range] at hi
      exact ⟨i + 1, by omega, by omega, hP⟩
    · rintro ⟨k, h1, h6, hP⟩
      refine ⟨k - 1, by rw [List.mem_range]; omega, ?_⟩
      rwa [show k - 1 + 1 = k by omega]
  have hEmp : specEmptyAt mover opp x y = empty.testBit (y * 8 + x) := by
    rw [specEmptyAt, specAt_natCoords, specAt_natCoords, hE (y * 8 + x) (by omega)]
    simp [hx, hy]
  have hLlen : ((List.range (6 - x)).map (fun j => y * 8 + (x + 2 + j))).length = 6 - x := by
    simp
  have hLget : ∀ j, j < 6 - x →
      ((List.range (6 - x)).map (fun j => y * 8 + (x + 2 + j))).getD j 0 = y * 8 + (x + 2 + j) := by
    intro j hj
    rw [List.getD_eq_getElem _ _ (by simpa using hj)]
    simp
  constructor
  · by_cases hg : x + 2 < BOARD_SIZE ∧ (maskLeft empty opp).testBit (y * 8 + x)
    · rw [dirLeft, if_pos hg]
      have hmask := hg.2
      rw [maskLeft, Nat.testBit_and, Nat.testBit_shiftRight] at hmask
      obtain ⟨hms1, hms2⟩ := Bool.and_eq_true_iff.mp hmask
      have hx5 : x ≤ 5 := by have := hg.1; rw [BOARD_SIZE] at this; omega
      have hoppx1 : opp.testBit (y * 8 + (x + 1)) = true := by
        rw [show y * 8 + (x + 1) = 1 + (y * 8 + x) by omega]
        exact hms2
      rw [hEmp, hms1, Bool.true_and]
      cases hscan : scanRun opp empty ((List.range (6 - x)).map (fun j => y * 8 + (x + 2 + j)))
        with
      | some pos =>
        rcases (scanRun_eq_some_iff opp empty _ pos).mp hscan with ⟨hp1, hp2, hp3, hp4⟩
        rw [hLlen] at hp1
        rw [hLget pos hp1] at hp3 hp4
        have hterm : mover.testBit (y * 8 + (x + 2 + pos)) = true :=
          hMv _ (by omega) hp3 hp4
        have hrun : ∀ j, j < pos → opp.testBit (y * 8 + (x + 2 + j)) = true := by
          intro j hj
          have := hp2 j hj
          rwa [hLget j (by omega)] at this
        have hok : specRunOk mover opp x y 1 0 (pos + 1) = true := by
          rw [hRun]
          have h1 : decide (1 ≤ pos + 1) = true := by simp
          have h2 : (List.range (pos + 1)).all
              (fun j => decide (x + (j + 1) < 8 ∧ y < 8) &&
                opp.testBit (y * 8 + (x + (j + 1)))) = true := by
            rw [List.all_eq_true]
            intro j hj
            rw [List.mem_range] at hj
            have hb : decide (x + (j + 1) < 8 ∧ y < 8) = true := by
              rw [decide_eq_true_iff]
              omega
            rw [hb, Bool.true_and]
            cases j with
            | zero => exact hoppx1
            | succ j =>
              rw [show x + (j + 1 + 1) = x + 2 + j by omega]
              exact hrun j (by omega)
          have h3 : decide (x + (pos + 1 + 1) < 8 ∧ y < 8) = true := by
            rw [decide_eq_true_iff]
            omega
          rw [h1, h2, h3, Bool.true_and, Bool.true_and, Bool.true_and]
          rw [show x + (pos + 1 + 1) = x + 2 + pos by omega]
          exact hterm
        have : specLegalDir mover opp x y 1 0 = true :=
          hLegal.mpr ⟨pos + 1, by omega, by omega, hok⟩
        rw [this]
        rfl
      | none =>
        cases hsl : specLegalDir mover opp x y 1 0 with
        | false => rfl
        | true =>
          exfalso
          rcases hLegal.mp hsl with ⟨k, hk1, hk6, hP⟩
          rw [hRun] at hP
          obtain ⟨hP12, hP3⟩ := Bool.and_eq_true_iff.mp hP
          obtain ⟨-, hP2⟩ := Bool.and_eq_true_iff.mp hP12
          obtain ⟨hPb, hPm⟩ := Bool.and_eq_true_iff.mp hP3
          rw [decide_eq_true_iff] at hPb
          have hkx : x + k + 1 ≤ 7 := by omega
          have hruncells : ∀ j, j < k → opp.testBit (y * 8 + (x + (j + 1))) = true := by
            intro j hj
            have := (List.all_eq_true.mp hP2) j (List.mem_range.mpr hj)
            exact (Bool.and_eq_true_iff.mp this).2
          have hsc : scanRun opp empty
              ((List.range (6 - x)).map (fun j => y * 8 + (x + 2 + j))) = some (k - 1) := by
            rw [scanRun_eq_some_iff]
            have hk16 : k - 1 < 6 - x := by omega
            refine ⟨by rw [hLlen]; omega, ?_, ?_, ?_⟩
            · intro j hj
              rw [hLget j (by omega)]
              have := hruncells (j + 1) (by omega)
              rwa [show x + (j + 1 + 1) = x + 2 + j by omega] at this
            · rw [hLget (k - 1) hk16]
              rw [show x + 2 + (k - 1) = x + (k + 1) by omega]
              cases hov : opp.testBit (y * 8 + (x + (k + 1))) with
              | false => rfl
              | true =>
                rw [show x + (k + 1) = x + (k + 1) from rfl] at hPm
                exact absurd ⟨hPm, hov⟩ (hdb _)
            · rw [hLget (k - 1) hk16]
              rw [show x + 2 + (k - 1) = x + (k + 1) by omega]
              rw [hE _ (by omega), hPm]
              rfl
          rw [hsc] at hscan
          exact absurd hscan (by simp)
    · rw [dirLeft, if_neg hg]
      rw [show (none : Option (Nat × Nat)).isSome = false from rfl]
      by_cases hx2 : x + 2 < BOARD_SIZE
      · have hmb : (maskLeft empty opp).testBit (y * 8 + x) = false := by
          cases h : (maskLeft empty opp).testBit (y * 8 + x) with
          | false => rfl
          | true => exact absurd ⟨hx2, h⟩ hg
        rw [maskLeft, Nat.testBit_and, Nat.testBit_shiftRight] at hmb
        rcases Bool.and_eq_false_iff.mp hmb with h | h
        · rw [hEmp, h, Bool.false_and]
        · have hfd : specLegalDir mover opp x y 1 0 = false := by
            cases hsl : specLegalDir mover opp x y 1 0 with
            | false => rfl
            | true =>
              exfalso
              rcases hLegal.mp hsl with ⟨k, hk1, hk6, hP⟩
              rw [hRun] at hP
              obtain ⟨hP12, -⟩ := Bool.and_eq_true_iff.mp hP
              obtain ⟨-, hP2⟩ := Bool.and_eq_true_iff.mp hP12
              have h0 := (List.all_eq_true.mp hP2) 0 (List.mem_range.mpr (by omega))
              have h0b := (Bool.and_eq_true_iff.mp h0).2
              rw [show y * 8 + (x + (0 + 1)) = 1 + (y * 8 + x) by omega] at h0b
              rw [h0b] at h
              exact absurd h (by simp)
          rw [hfd, Bool.and_false]
      · have hfd : specLegalDir mover opp x y 1 0 = false := by
          cases hsl : specLegalDir mover opp x y 1 0 with
          | false => rfl
          | true =>
            exfalso
            rcases hLegal.mp hsl with ⟨k, hk1, hk6, hP⟩
            rw [hRun] at hP
            obtain ⟨-, hP3⟩ := Bool.and_eq_true_iff.mp hP
            obtain ⟨hPb, -⟩ := Bool.and_eq_true_iff.mp hP3
            rw [decide_eq_true_iff] at hPb
            rw [BOARD_SIZE] at hx2
            omega
        rw [hfd, Bool.and_false]
  · intro m ch hsome
    rw [dirLeft] at hsome
    by_cases hg : x + 2 < BOARD_SIZE ∧ (maskLeft empty opp).testBit (y * 8 + x)
    swap
    · rw [if_neg hg] at hsome
      exact absurd hsome (by simp)
    rw [if_pos hg] at hsome
    rcases Option.map_eq_some'.mp hsome with ⟨pos, hscan, hmch⟩
    have hm_eq : m = (ROW_PATTERN >>> (BOARD_SIZE - (pos + 2 + 1))) <<< (y * 8 + x) := by
      have := congrArg Prod.fst hmch
      simpa using this.symm
    have hx5 : x ≤ 5 := by have := hg.1; rw [BOARD_SIZE] at this; omega
    have hmask := hg.2
    rw [maskLeft, Nat.testBit_and, Nat.testBit_shiftRight] at hmask
    obtain ⟨hms1, hms2⟩ := Bool.and_eq_true_iff.mp hmask
    have hoppx1 : opp.testBit (y * 8 + (x + 1)) = true := by
      rw [show y * 8 + (x + 1) = 1 + (y * 8 + x) by omega]
      exact hms2
    rcases (scanRun_eq_some_iff opp empty _ pos).mp hscan with ⟨hp1, hp2, hp3, hp4⟩
    rw [hLlen] at hp1
    rw [hLget pos hp1] at hp3 hp4
    have hterm : mover.testBit (y * 8 + (x + 2 + pos)) = true := hMv _ (by omega) hp3 hp4
    have hrun : ∀ j, j < pos → opp.testBit (y * 8 + (x + 2 + j)) = true := by
      intro j hj
      have := hp2 j hj
      rwa [hLget j (by omega)] at this
    have hok : specRunOk mover opp x y 1 0 (pos + 1) = true := by
      rw [hRun]
      have h1 : decide (1 ≤ pos + 1) = true := by simp
      have h2 : (List.range (pos + 1)).all
          (fun j => decide (x + (j + 1) < 8 ∧ y < 8) &&
            opp.testBit (y * 8 + (x + (j + 1)))) = true := by
        rw [List.all_eq_true]
        intro j hj
        rw [List.mem_range] at hj
        have hb : decide (x + (j + 1) < 8 ∧ y < 8) = true := by
          rw [decide_eq_true_iff]
          omega
        rw [hb, Bool.true_and]
        cases j with
        | zero => exact hoppx1
        | succ j =>
          rw [show x + (j + 1 + 1) = x + 2 + j by omega]
          exact hrun j (by omega)
      have h3 : decide (x + (pos + 1 + 1) < 8 ∧ y < 8) = true := by
        rw [decide_eq_true_iff]
        omega
      rw [h1, h2, h3, Bool.true_and, Bool.true_and, Bool.true_and]
      rw [show x + (pos + 1 + 1) = x + 2 + pos by omega]
      exact hterm
    have huniq : ∀ q, specRunOk mover opp x y 1 0 q = true → q = pos + 1 := by
      intro q hq
      rw [hRun] at hq
      obtain ⟨hq12, hq3⟩ := Bool.and_eq_true_iff.mp hq
      obtain ⟨hq1, hq2⟩ := Bool.and_eq_true_iff.mp hq12
      rw [decide_eq_true_iff] at hq1
      obtain ⟨hqb, hqm⟩ := Bool.and_eq_true_iff.mp hq3
      rw [decide_eq_true_iff] at hqb
      have hqcells : ∀ j, j < q → opp.testBit (y * 8 + (x + (j + 1))) = true := by
        intro j hj
        have := (List.all_eq_true.mp hq2) j (List.mem_range.mpr hj)
        exact (Bool.and_eq_true_iff.mp this).2
      by_contra hne
      rcases Nat.lt_or_ge q (pos + 1) with hlt | hge
      · -- the claimed terminator x+q+1 is inside the scanned opponent run
        have : opp.testBit (y * 8 + (x + (q + 1))) = true := by
          cases hq0 : q with
          | zero => omega
          | succ q' =>
            rw [show x + (q' + 1 + 1) = x + 2 + q' by omega]
            exact hrun q' (by omega)
        exact absurd ⟨hqm, this⟩ (hdb _)
      · -- the scan terminator x+2+pos is inside the claimed opponent run
        have hlt2 : pos + 1 < q := by omega
        have := hqcells (pos + 1) (by omega)
        rw [show x + (pos + 1 + 1) = x + 2 + pos by omega] at this
        exact absurd ⟨hterm, this⟩ (hdb _)
    have hlen : specRunLen mover opp x y 1 0 = pos + 1 := by
      rw [specRunLen]
      exact findSome_range6_unique (fun q => specRunOk mover opp x y 1 0 q) (pos + 1)
        (by omega) (by omega) hok huniq
    have hflips : ∀ i, (specFlipsDir mover opp x y 1 0).testBit i =
        decide (∃ j, j < pos + 1 ∧ i = y * 8 + (x + (j + 1))) := by
      intro i
      rw [specFlipsDir, hlen]
      have hf : ∀ j : Nat,
          ((y : Int) + ((j : Int) + 1) * 0).toNat * 8 + ((x : Int) + ((j : Int) + 1) * 1).toNat
            = y * 8 + (x + (j + 1)) := by
        intro j
        have h1 : ((y : Int) + ((j : Int) + 1) * 0) = ((y : Nat) : Int) := by push_cast; ring
        have h2 : ((x : Int) + ((j : Int) + 1) * 1) = ((x + (j + 1) : Nat) : Int) := by
          push_cast; ring
        rw [h1, h2, Int.toNat_natCast, Int.toNat_natCast]
      simp only [hf]
      rw [foldl_or_bits]
      rw [Nat.zero_testBit, Bool.false_or]
    have hmbit : ∀ i, m.testBit i =
        decide (y * 8 + x ≤ i ∧ i ≤ y * 8 + x + (pos + 2)) := by
      intro i
      rw [hm_eq]
      exact leftMask_testBit x y pos i (by omega) hg.1
    constructor
    · intro i hbit
      rw [hmbit, decide_eq_true_iff] at hbit
      rcases Nat.lt_or_ge i (y * 8 + x + 1) with h1 | h1
      · left
        omega
      · rcases Nat.lt_or_ge i (y * 8 + x + (pos + 2)) with h2 | h2
        · right; left
          rw [hflips, decide_eq_true_iff]
          exact ⟨i - (y * 8 + x) - 1, by omega, by omega⟩
        · right; right
          have : i = y * 8 + (x + 2 + pos) := by omega
          rw [this]
          exact hterm
    · intro i hi
      rw [hmbit, decide_eq_true_iff]
      rcases hi with rfl | hi
      · omega
      · rw [hflips, decide_eq_true_iff] at hi
        rcases hi with ⟨j, hj, rfl⟩
        omega

end Hammer

namespace Hammer

theorem dirRight_spec (mover opp empty : Nat) (hm : mover < 2 ^ 64) (ho : opp < 2 ^ 64)
    (hdisj : mover &&& opp = 0) (hemp : empty = (2 ^ 64 - 1) ^^^ u64 (mover ||| opp))
    (x y : Nat) (hx : x < 8) (hy : y < 8) :
    ((dirRight opp empty x y).isSome =
      (specEmptyAt mover opp x y && specLegalDir mover opp x y (-1) 0)) ∧
    (∀ m ch, dirRight opp empty x y = some (m, ch) →
      (∀ i, m.testBit i = true →
        i = y * 8 + x ∨ (specFlipsDir mover opp x y (-1) 0).testBit i = true ∨
          mover.testBit i = true) ∧
      (∀ i, i = y * 8 + x ∨ (specFlipsDir mover opp x y (-1) 0).testBit i = true →
        m.testBit i = true)) := by
  have hdb : ∀ i, ¬(mover.testBit i = true ∧ opp.testBit i = true) := by
    intro i hi
    have hz : (mover &&& opp).testBit i = false := by rw [hdisj]; exact Nat.zero_testBit i
    rw [Nat.testBit_and, hi.1, hi.2] at hz
    simp at hz
  have hE : ∀ i, i < 64 → empty.testBit i = (!mover.testBit i && !opp.testBit i) := by
    intro i hi
    rw [hemp]
    exact testBit_empty mover opp i hi
  have hMv : ∀ i, i < 64 → opp.testBit i = false → empty.testBit i = false →
      mover.testBit i = true := by
    intro i hi h1 h2
    rw [hE i hi, h1] at h2
    cases hmv : mover.testBit i with
    | true => rfl
    | false => rw [hmv] at h2; simp at h2
  have hcell : ∀ (b : Nat) (m : Nat),
      specAt b ((x : Int) + ((m : Int) + 1) * (-1)) ((y : Int) + ((m : Int) + 1) * 0) =
        (decide (m + 1 ≤ x) && b.testBit (y * 8 + (x - (m + 1)))) := by
    intro b m
    simp only [specAt]
    have harg : ((y : Int) + ((m : Int) + 1) * 0).toNat * 8 +
        ((x : Int) + ((m : Int) + 1) * (-1)).toNat = y * 8 + (x - (m + 1)) := by omega
    have hdec : decide (0 ≤ (x : Int) + ((m : Int) + 1) * (-1) ∧
        (x : Int) + ((m : Int) + 1) * (-1) < 8 ∧
        0 ≤ (y : Int) + ((m : Int) + 1) * 0 ∧ (y : Int) + ((m : Int) + 1) * 0 < 8) =
        decide (m + 1 ≤ x) := decide_eq_decide.mpr (by omega)
    rw [harg, hdec]
  have hRun : ∀ k : Nat, specRunOk mover opp x y (-1) 0 k =
      (decide (1 ≤ k) &&
        (List.range k).all
          (fun j => decide (j + 1 ≤ x) && opp.testBit (y * 8 + (x - (j + 1)))) &&
        (decide (k + 1 ≤ x) && mover.testBit (y * 8 + (x - (k + 1))))) := by
    intro k
    rw [specRunOk]
    have hall : (List.range k).all
          (fun j => specAt opp ((x : Int) + ((j : Int) + 1) * (-1)) ((y : Int) + ((j : Int) + 1) * 0))
        = (List.range k).all
          (fun j => decide (j + 1 ≤ x) && opp.testBit (y * 8 + (x - (j + 1)))) :=
      all_congr_list _ _ _ (fun j _ => hcell opp j)
    rw [hall, hcell mover k]
  have hLegal : specLegalDir mover opp x y (-1) 0 = true ↔
      ∃ k, 1 ≤ k ∧ k ≤ 6 ∧ specRunOk mover opp x y (-1) 0 k = true := by
    rw [specLegalDir, List.any_eq_true]
    constructor
    · rintro ⟨i, hi, hP⟩
      rw [List.mem_range] at hi
      exact ⟨i + 1, by omega, by omega, hP⟩
    · rintro ⟨k, h1, h6, hP⟩
      refine ⟨k - 1, by rw [List.mem_range]; omega, ?_⟩
      rwa [show k - 1 + 1 = k by omega]
  have hEmp : specEmptyAt mover opp x y = empty.testBit (y * 8 + x) := by
    rw [specEmptyAt, specAt_natCoords, specAt_natCoords, hE (y * 8 + x) (by omega)]
    simp [hx, hy]
  have hLlen : ((List.range (x - 1)).map (fun j => y * 8 + (x - 2 - j))).length = x - 1 := by
    simp
  have hLget : ∀ j, j < x - 1 →
      ((List.range (x - 1)).map (fun j => y * 8 + (x - 2 - j))).getD j 0 =
        y * 8 + (x - 2 - j) := by
    intro j hj
    rw [List.getD_eq_getElem _ _ (by simpa using hj)]
    simp
  have hmaskbit : 2 ≤ x → opp.testBit (y * 8 + (x - 1)) = true →
      empty.testBit (y * 8 + x) = true → (maskRight empty opp).testBit (y * 8 + x) = true := by
    intro hx2 hov he
    rw [maskRight, Nat.testBit_and, he, Bool.true_and, u64, Nat.testBit_mod_two_pow,
      Nat.testBit_shiftLeft]
    have h1 : decide (y * 8 + x < 64) = true := by rw [decide_eq_true_iff]; omega
    have h2 : decide (y * 8 + x ≥ 1) = true := by rw [decide_eq_true_iff]; omega
    rw [h1, h2, Bool.true_and, Bool.true_and, show y * 8 + x - 1 = y * 8 + (x - 1) by omega]
    exact hov
  constructor
  · by_cases hg : 2 ≤ x ∧ (maskRight empty opp).testBit (y * 8 + x)
    · rw [dirRight, if_pos hg]
      have hmask := hg.2
      rw [maskRight, Nat.testBit_and, u64, Nat.testBit_mod_two_pow, Nat.testBit_shiftLeft]
        at hmask
      obtain ⟨hms1, hms2⟩ := Bool.and_eq_true_iff.mp hmask
      obtain ⟨-, hms3⟩ := Bool.and_eq_true_iff.mp hms2
      obtain ⟨-, hms4⟩ := Bool.and_eq_true_iff.mp hms3
      have hoppx1 : opp.testBit (y * 8 + (x - 1)) = true := by
        rwa [show y * 8 + x - 1 = y * 8 + (x - 1) by omega] at hms4
      rw [hEmp, hms1, Bool.true_and]
      cases hscan : scanRun opp empty ((List.range (x - 1)).map (fun j => y * 8 + (x - 2 - j)))
        with
      | some pos =>
        rcases (scanRun_eq_some_iff opp empty _ pos).mp hscan with ⟨hp1, hp2, hp3, hp4⟩
        rw [hLlen] at hp1
        rw [hLget pos hp1] at hp3 hp4
        have hterm : mover.testBit (y * 8 + (x - 2 - pos)) = true :=
          hMv _ (by omega) hp3 hp4
        have hrun : ∀ j, j < pos → opp.testBit (y * 8 + (x - 2 - j)) = true := by
          intro j hj
          have := hp2 j hj
          rwa [hLget j (by omega)] at this
        have hok : specRunOk mover opp x y (-1) 0 (pos + 1) = true := by
          rw [hRun]
          have h1 : decide (1 ≤ pos + 1) = true := by simp
          have h2 : (List.range (pos + 1)).all
              (fun j => decide (j + 1 ≤ x) &&
                opp.testBit (y * 8 + (x - (j + 1)))) = true := by
            rw [List.all_eq_true]
            intro j hj
            rw [List.mem_range] at hj
            have hb : decide (j + 1 ≤ x) = true := by
              rw [decide_eq_true_iff]
              omega
            rw [hb, Bool.true_and]
            cases j with
            | zero => exact hoppx1
            | succ j =>
              rw [show x - (j + 1 + 1) = x - 2 - j by omega]
              exact hrun j (by omega)
          have h3 : decide (pos + 1 + 1 ≤ x) = true := by
            rw [decide_eq_true_iff]
            omega
          rw [h1, h2, h3, Bool.true_and, Bool.true_and, Bool.true_and]
          rw [show x - (pos + 1 + 1) = x - 2 - pos by omega]
          exact hterm
        have : specLegalDir mover opp x y (-1) 0 = true :=
          hLegal.mpr ⟨pos + 1, by omega, by omega, hok⟩
        rw [this]
        rfl
      | none =>
        cases hsl : specLegalDir mover opp x y (-1) 0 with
        | false => rfl
        | true =>
          exfalso
          rcases hLegal.mp hsl with ⟨k, hk1, hk6, hP⟩
          rw [hRun] at hP
          obtain ⟨hP12, hP3⟩ := Bool.and_eq_true_iff.mp hP
          obtain ⟨-, hP2⟩ := Bool.and_eq_true_iff.mp hP12
          obtain ⟨hPb, hPm⟩ := Bool.and_eq_true_iff.mp hP3
          rw [decide_eq_true_iff] at hPb
          have hruncells : ∀ j, j < k → opp.testBit (y * 8 + (x - (j + 1))) = true := by
            intro j hj
            have := (List.all_eq_true.mp hP2) j (List.mem_range.mpr hj)
            exact (Bool.and_eq_true_iff.mp this).2
          have hsc : scanRun opp empty
              ((List.range (x - 1)).map (fun j => y * 8 + (x - 2 - j))) = some (k - 1) := by
            rw [scanRun_eq_some_iff]
            have hk16 : k - 1 < x - 1 := by omega
            refine ⟨by rw [hLlen]; omega, ?_, ?_, ?_⟩
            · intro j hj
              rw [hLget j (by omega)]
              have := hruncells (j + 1) (by omega)
              rwa [show x - (j + 1 + 1) = x - 2 - j by omega] at this
            · rw [hLget (k - 1) hk16]
              rw [show x - 2 - (k - 1) = x - (k + 1) by omega]
              cases hov : opp.testBit (y * 8 + (x - (k + 1))) with
              | false => rfl
              | true => exact absurd ⟨hPm, hov⟩ (hdb _)
            · rw [hLget (k - 1) hk16]
              rw [show x - 2 - (k - 1) = x - (k + 1) by omega]
              rw [hE _ (by omega), hPm]
              rfl
          rw [hsc] at hscan
          exact absurd hscan (by simp)
    · rw [dirRight, if_neg hg]
      rw [show (none : Option (Nat × Nat)).isSome = false from rfl]
      cases hse : specEmptyAt mover opp x y with
      | false => rw [Bool.false_and]
      | true =>
        cases hsl : specLegalDir mover opp x y (-1) 0 with
        | false => rw [Bool.and_false]
        | true =>
          exfalso
          rcases hLegal.mp hsl with ⟨k, hk1, hk6, hP⟩
          rw [hRun] at hP
          obtain ⟨hP12, hP3⟩ := Bool.and_eq_true_iff.mp hP
          obtain ⟨-, hP2⟩ := Bool.and_eq_true_iff.mp hP12
          obtain ⟨hPb, -⟩ := Bool.and_eq_true_iff.mp hP3
          rw [decide_eq_true_iff] at hPb
          have hx2 : 2 ≤ x := by omega
          have h0 := (List.all_eq_true.mp hP2) 0 (List.mem_range.mpr (by omega))
          have h0b := (Bool.and_eq_true_iff.mp h0).2
          rw [show x - (0 + 1) = x - 1 by omega] at h0b
          have hebit : empty.testBit (y * 8 + x) = true := by rw [← hEmp]; exact hse
          exact hg ⟨hx2, hmaskbit hx2 h0b hebit⟩
  · intro m ch hsome
    rw [dirRight] at hsome
    by_cases hg : 2 ≤ x ∧ (maskRight empty opp).testBit (y * 8 + x)
    swap
    · rw [if_neg hg] at hsome
      exact absurd hsome (by simp)
    rw [if_pos hg] at hsome
    rcases Option.map_eq_some'.mp hsome with ⟨pos, hscan, hmch⟩
    have hm_eq : m = (ROW_PATTERN >>> (BOARD_SIZE - (pos + 2))) <<<
        (y * 8 + x - (pos + 2 - 1)) := by
      have := congrArg Prod.fst hmch
      simpa using this.symm
    rcases (scanRun_eq_some_iff opp empty _ pos).mp hscan with ⟨hp1, hp2, hp3, hp4⟩
    rw [hLlen] at hp1
    rw [hLget pos hp1] at hp3 hp4
    have hx2 : 2 ≤ x := hg.1
    have hterm : mover.testBit (y * 8 + (x - 2 - pos)) = true := hMv _ (by omega) hp3 hp4
    have hrun : ∀ j, j < pos → opp.testBit (y * 8 + (x - 2 - j)) = true := by
      intro j hj
      have := hp2 j hj
      rwa [hLget j (by omega)] at this
    have hmask := hg.2
    rw [maskRight, Nat.testBit_and, u64, Nat.testBit_mod_two_pow, Nat.testBit_shiftLeft]
      at hmask
    obtain ⟨hms1, hms2⟩ := Bool.and_eq_true_iff.mp hmask
    obtain ⟨-, hms3⟩ := Bool.and_eq_true_iff.mp hms2
    obtain ⟨-, hms4⟩ := Bool.and_eq_true_iff.mp hms3
    have hoppx1 : opp.testBit (y * 8 + (x - 1)) = true := by
      rwa [show y * 8 + x - 1 = y * 8 + (x - 1) by omega] at hms4
    have hok : specRunOk mover opp x y (-1) 0 (pos + 1) = true := by
      rw [hRun]
      have h1 : decide (1 ≤ pos + 1) = true := by simp
      have h2 : (List.range (pos + 1)).all
          (fun j => decide (j + 1 ≤ x) &&
            opp.testBit (y * 8 + (x - (j + 1)))) = true := by
        rw [List.all_eq_true]
        intro j hj
        rw [List.mem_range] at hj
        have hb : decide (j + 1 ≤ x) = true := by
          rw [decide_eq_true_iff]
          omega
        rw [hb, Bool.true_and]
        cases j with
        | zero => exact hoppx1
        | succ j =>
          rw [show x - (j + 1 + 1) = x - 2 - j by omega]
          exact hrun j (by omega)
      have h3 : decide (pos + 1 + 1 ≤ x) = true := by
        rw [decide_eq_true_iff]
        omega
      rw [h1, h2, h3, Bool.true_and, Bool.true_and, Bool.true_and]
      rw [show x - (pos + 1 + 1) = x - 2 - pos by omega]
      exact hterm
    have huniq : ∀ q, specRunOk mover opp x y (-1) 0 q = true → q = pos + 1 := by
      intro q hq
      rw [hRun] at hq
      obtain ⟨hq12, hq3⟩ := Bool.and_eq_true_iff.mp hq
      obtain ⟨hq1, hq2⟩ := Bool.and_eq_true_iff.mp hq12
      rw [decide_eq_true_iff] at hq1
      obtain ⟨hqb, hqm⟩ := Bool.and_eq_true_iff.mp hq3
      rw [decide_eq_true_iff] at hqb
      have hqcells : ∀ j, j < q → opp.testBit (y * 8 + (x - (j + 1))) = true := by
        intro j hj
        have := (List.all_eq_true.mp hq2) j (List.mem_range.mpr hj)
        exact (Bool.and_eq_true_iff.mp this).2
      by_contra hne
      rcases Nat.lt_or_ge q (pos + 1) with hlt | hge
      · have : opp.testBit (y * 8 + (x - (q + 1))) = true := by
          cases hq0 : q with
          | zero => omega
          | succ q' =>
            rw [show x - (q' + 1 + 1) = x - 2 - q' by omega]
            exact hrun q' (by omega)
        exact absurd ⟨hqm, this⟩ (hdb _)
      · have hlt2 : pos + 1 < q := by omega
        have := hqcells (pos + 1) (by omega)
        rw [show x - (pos + 1 + 1) = x - 2 - pos by omega] at this
        exact absurd ⟨hterm, this⟩ (hdb _)
    have hlen : specRunLen mover opp x y (-1) 0 = pos + 1 := by
      rw [specRunLen]
      exact findSome_range6_unique (fun q => specRunOk mover opp x y (-1) 0 q) (pos + 1)
        (by omega) (by omega) hok huniq
    have hflips : ∀ i, (specFlipsDir mover opp x y (-1) 0).testBit i =
        decide (∃ j, j < pos + 1 ∧ i = y * 8 + (x - (j + 1))) := by
      intro i
      rw [specFlipsDir, hlen]
      have hf : ∀ j : Nat,
          ((y : Int) + ((j : Int) + 1) * 0).toNat * 8 + ((x : Int) + ((j : Int) + 1) * (-1)).toNat
            = y * 8 + (x - (j + 1)) := by
        intro j
        omega
      simp only [hf]
      rw [foldl_or_bits]
      rw [Nat.zero_testBit, Bool.false_or]
    have hmbit : ∀ i, m.testBit i =
        decide (y * 8 + x ≤ i + (pos + 1) ∧ i ≤ y * 8 + x) := by
      intro i
      rw [hm_eq, BOARD_SIZE, show pos + 2 - 1 = pos + 1 by omega]
      exact rightStrip_testBit x y pos i (by omega) hx
    constructor
    · intro i hbit
      rw [hmbit, decide_eq_true_iff] at hbit
      rcases Nat.lt_or_ge i (y * 8 + x) with h1 | h1
      · right; left
        rw [hflips, decide_eq_true_iff]
        exact ⟨y * 8 + x - i - 1, by omega, by omega⟩
      · left
        omega
    · intro i hi
      rw [hmbit, decide_eq_true_iff]
      rcases hi with rfl | hi
      · omega
      · rw [hflips, decide_eq_true_iff] at hi
        rcases hi with ⟨j, hj, rfl⟩
        omega

end Hammer

namespace Hammer

theorem dirUp_spec (mover opp empty : Nat) (hm : mover < 2 ^ 64) (ho : opp < 2 ^ 64)
    (hdisj : mover &&& opp = 0) (hemp : empty = (2 ^ 64 - 1) ^^^ u64 (mover ||| opp))
    (x y : Nat) (hx : x < 8) (hy : y < 8) :
    ((dirUp opp empty x y).isSome =
      (specEmptyAt mover opp x y && specLegalDir mover opp x y 0 1)) ∧
    (∀ m ch, dirUp opp empty x y = some (m, ch) →
      (∀ i, m.testBit i = true →
        i = y * 8 + x ∨ (specFlipsDir mover opp x y 0 1).testBit i = true ∨
          mover.testBit i = true) ∧
      (∀ i, i = y * 8 + x ∨ (specFlipsDir mover opp x y 0 1).testBit i = true →
        m.testBit i = true)) := by
  have hdb : ∀ i, ¬(mover.testBit i = true ∧ opp.testBit i = true) := by
    intro i hi
    have hz : (mover &&& opp).testBit i = false := by rw [hdisj]; exact Nat.zero_testBit i
    rw [Nat.testBit_and, hi.1, hi.2] at hz
    simp at hz
  have hE : ∀ i, i < 64 → empty.testBit i = (!mover.testBit i && !opp.testBit i) := by
    intro i hi
    rw [hemp]
    exact testBit_empty mover opp i hi
  have hMv : ∀ i, i < 64 → opp.testBit i = false → empty.testBit i = false →
      mover.testBit i = true := by
    intro i hi h1 h2
    rw [hE i hi, h1] at h2
    cases hmv : mover.testBit i with
    | true => rfl
    | false => rw [hmv] at h2; simp at h2
  have hcell : ∀ (b : Nat) (m : Nat),
      specAt b ((x : Int) + ((m : Int) + 1) * 0) ((y : Int) + ((m : Int) + 1) * 1) =
        (decide (y + (m + 1) < 8) && b.testBit ((y + (m + 1)) * 8 + x)) := by
    intro b m
    simp only [specAt]
    have harg : ((y : Int) + ((m : Int) + 1) * 1).toNat * 8 +
        ((x : Int) + ((m : Int) + 1) * 0).toNat = (y + (m + 1)) * 8 + x := by omega
    have hdec : decide (0 ≤ (x : Int) + ((m : Int) + 1) * 0 ∧
        (x : Int) + ((m : Int) + 1) * 0 < 8 ∧
        0 ≤ (y : Int) + ((m : Int) + 1) * 1 ∧ (y : Int) + ((m : Int) + 1) * 1 < 8) =
        decide (y + (m + 1) < 8) := decide_eq_decide.mpr (by omega)
    rw [harg, hdec]
  have hRun : ∀ k : Nat, specRunOk mover opp x y 0 1 k =
      (decide (1 ≤ k) &&
        (List.range k).all
          (fun j => decide (y + (j + 1) < 8) && opp.testBit ((y + (j + 1)) * 8 + x)) &&
        (decide (y + (k + 1) < 8) && mover.testBit ((y + (k + 1)) * 8 + x))) := by
    intro k
    rw [specRunOk]
    have hall : (List.range k).all
          (fun j => specAt opp ((x : Int) + ((j : Int) + 1) * 0) ((y : Int) + ((j : Int) + 1) * 1))
        = (List.range k).all
          (fun j => decide (y + (j + 1) < 8) && opp.testBit ((y + (j + 1)) * 8 + x)) :=
      all_congr_list _ _ _ (fun j _ => hcell opp j)
    rw [hall, hcell mover k]
  have hLegal : specLegalDir mover opp x y 0 1 = true ↔
      ∃ k, 1 ≤ k ∧ k ≤ 6 ∧ specRunOk mover opp x y 0 1 k = true := by
    rw [specLegalDir, List.any_eq_true]
    constructor
    · rintro ⟨i, hi, hP⟩
      rw [List.mem_range] at hi
      exact ⟨i + 1, by omega, by omega, hP⟩
    · rintro ⟨k, h1, h6, hP⟩
      refine ⟨k - 1, by rw [List.mem_range]; omega, ?_⟩
      rwa [show k - 1 + 1 = k by omega]
  have hEmp : specEmptyAt mover opp x y = empty.testBit (y * 8 + x) := by
    rw [specEmptyAt, specAt_natCoords, specAt_natCoords, hE (y * 8 + x) (by omega)]
    simp [hx, hy]
  have hLlen : ((List.range (6 - y)).map (fun j => (y + 2 + j) * 8 + x)).length = 6 - y := by
    simp
  have hLget : ∀ j, j < 6 - y →
      ((List.range (6 - y)).map (fun j => (y + 2 + j) * 8 + x)).getD j 0 =
        (y + 2 + j) * 8 + x := by
    intro j hj
    rw [List.getD_eq_getElem _ _ (by simpa using hj)]
    simp
  have hmaskbit : opp.testBit ((y + 1) * 8 + x) = true →
      empty.testBit (y * 8 + x) = true → (maskUp empty opp).testBit (y * 8 + x) = true := by
    intro hov he
    rw [maskUp, Nat.testBit_and, he, Bool.true_and, Nat.testBit_shiftRight]
    rwa [show BOARD_SIZE + (y * 8 + x) = (y + 1) * 8 + x from by rw [BOARD_SIZE]; omega]
  constructor
  · by_cases hg : y + 2 < BOARD_SIZE ∧ (maskUp empty opp).testBit (y * 8 + x)
    · rw [dirUp, if_pos hg]
      have hy5 : y ≤ 5 := by have := hg.1; rw [BOARD_SIZE] at this; omega
      have hmask := hg.2
      rw [maskUp, Nat.testBit_and, Nat.testBit_shiftRight] at hmask
      obtain ⟨hms1, hms2⟩ := Bool.and_eq_true_iff.mp hmask
      have hoppy1 : opp.testBit ((y + 1) * 8 + x) = true := by
        rwa [show BOARD_SIZE + (y * 8 + x) = (y + 1) * 8 + x from by rw [BOARD_SIZE]; omega]
          at hms2
      rw [hEmp, hms1, Bool.true_and]
      cases hscan : scanRun opp empty ((List.range (6 - y)).map (fun j => (y + 2 + j) * 8 + x))
        with
      | some pos =>
        rcases (scanRun_eq_some_iff opp empty _ pos).mp hscan with ⟨hp1, hp2, hp3, hp4⟩
        rw [hLlen] at hp1
        rw [hLget pos hp1] at hp3 hp4
        have hterm : mover.testBit ((y + 2 + pos) * 8 + x) = true :=
          hMv _ (by omega) hp3 hp4
        have hrun : ∀ j, j < pos → opp.testBit ((y + 2 + j) * 8 + x) = true := by
          intro j hj
          have := hp2 j hj
          rwa [hLget j (by omega)] at this
        have hok : specRunOk mover opp x y 0 1 (pos + 1) = true := by
          rw [hRun]
          have h1 : decide (1 ≤ pos + 1) = true := by simp
          have h2 : (List.range (pos + 1)).all
              (fun j => decide (y + (j + 1) < 8) &&
                opp.testBit ((y + (j + 1)) * 8 + x)) = true := by
            rw [List.all_eq_true]
            intro j hj
            rw [List.mem_range] at hj
            have hb : decide (y + (j + 1) < 8) = true := by
              rw [decide_eq_true_iff]
              omega
            rw [hb, Bool.true_and]
            cases j with
            | zero => exact hoppy1
            | succ j =>
              rw [show y + (j + 1 + 1) = y + 2 + j by omega]
              exact hrun j (by omega)
          have h3 : decide (y + (pos + 1 + 1) < 8) = true := by
            rw [decide_eq_true_iff]
            omega
          rw [h1, h2, h3, Bool.true_and, Bool.true_and, Bool.true_and]
          rw [show y + (pos + 1 + 1) = y + 2 + pos by omega]
          exact hterm
        have : specLegalDir mover opp x y 0 1 = true :=
          hLegal.mpr ⟨pos + 1, by omega, by omega, hok⟩
        rw [this]
        rfl
      | none =>
        cases hsl : specLegalDir mover opp x y 0 1 with
        | false => rfl
        | true =>
          exfalso
          rcases hLegal.mp hsl with ⟨k, hk1, hk6, hP⟩
          rw [hRun] at hP
          obtain ⟨hP12, hP3⟩ := Bool.and_eq_true_iff.mp hP
          obtain ⟨-, hP2⟩ := Bool.and_eq_true_iff.mp hP12
          obtain ⟨hPb, hPm⟩ := Bool.and_eq_true_iff.mp hP3
          rw [decide_eq_true_iff] at hPb
          have hruncells : ∀ j, j < k → opp.testBit ((y + (j + 1)) * 8 + x) = true := by
            intro j hj
            have := (List.all_eq_true.mp hP2) j (List.mem_range.mpr hj)
            exact (Bool.and_eq_true_iff.mp this).2
          have hsc : scanRun opp empty
              ((List.range (6 - y)).map (fun j => (y + 2 + j) * 8 + x)) = some (k - 1) := by
            rw [scanRun_eq_some_iff]
            have hk16 : k - 1 < 6 - y := by omega
            refine ⟨by rw [hLlen]; omega, ?_, ?_, ?_⟩
            · intro j hj
              rw [hLget j (by omega)]
              have := hruncells (j + 1) (by omega)
              rwa [show y + (j + 1 + 1) = y + 2 + j by omega] at this
            · rw [hLget (k - 1) hk16]
              rw [show y + 2 + (k - 1) = y + (k + 1) by omega]
              cases hov : opp.testBit ((y + (k + 1)) * 8 + x) with
              | false => rfl
              | true => exact absurd ⟨hPm, hov⟩ (hdb _)
            · rw [hLget (k - 1) hk16]
              rw [show y + 2 + (k - 1) = y + (k + 1) by omega]
              rw [hE _ (by omega), hPm]
              rfl
          rw [hsc] at hscan
          exact absurd hscan (by simp)
    · rw [dirUp, if_neg hg]
      rw [show (none : Option (Nat × Nat)).isSome = false from rfl]
      cases hse : specEmptyAt mover opp x y with
      | false => rw [Bool.false_and]
      | true =>
        cases hsl : specLegalDir mover opp x y 0 1 with
        | false => rw [Bool.and_false]
        | true =>
          exfalso
          rcases hLegal.mp hsl with ⟨k, hk1, hk6, hP⟩
          rw [hRun] at hP
          obtain ⟨hP12, hP3⟩ := Bool.and_eq_true_iff.mp hP
          obtain ⟨-, hP2⟩ := Bool.and_eq_true_iff.mp hP12
          obtain ⟨hPb, -⟩ := Bool.and_eq_true_iff.mp hP3
          rw [decide_eq_true_iff] at hPb
          have hy2 : y + 2 < BOARD_SIZE := by rw [BOARD_SIZE]; omega
          have h0 := (List.all_eq_true.mp hP2) 0 (List.mem_range.mpr (by omega))
          have h0b := (Bool.and_eq_true_iff.mp h0).2
          rw [show y + (0 + 1) = y + 1 by omega] at h0b
          have hebit : empty.testBit (y * 8 + x) = true := by rw [← hEmp]; exact hse
          exact hg ⟨hy2, hmaskbit h0b hebit⟩
  · intro m ch hsome
    rw [dirUp] at hsome
    by_cases hg : y + 2 < BOARD_SIZE ∧ (maskUp empty opp).testBit (y * 8 + x)
    swap
    · rw [if_neg hg] at hsome
      exact absurd hsome (by simp)
    rw [if_pos hg] at hsome
    rcases Option.map_eq_some'.mp hsome with ⟨pos, hscan, hmch⟩
    have hm_eq : m = (COL_PATTERN >>> ((BOARD_SIZE - (pos + 2)) * 8)) <<< (y * 8 + x) := by
      have := congrArg Prod.fst hmch
      simpa using this.symm
    have hy5 : y ≤ 5 := by have := hg.1; rw [BOARD_SIZE] at this; omega
    rcases (scanRun_eq_some_iff opp empty _ pos).mp hscan with ⟨hp1, hp2, hp3, hp4⟩
    rw [hLlen] at hp1
    rw [hLget pos hp1] at hp3 hp4
    have hterm : mover.testBit ((y + 2 + pos) * 8 + x) = true := hMv _ (by omega) hp3 hp4
    have hrun : ∀ j, j < pos → opp.testBit ((y + 2 + j) * 8 + x) = true := by
      intro j hj
      have := hp2 j hj
      rwa [hLget j (by omega)] at this
    have hmask := hg.2
    rw [maskUp, Nat.testBit_and, Nat.testBit_shiftRight] at hmask
    obtain ⟨hms1, hms2⟩ := Bool.and_eq_true_iff.mp hmask
    have hoppy1 : opp.testBit ((y + 1) * 8 + x) = true := by
      rwa [show BOARD_SIZE + (y * 8 + x) = (y + 1) * 8 + x from by rw [BOARD_SIZE]; omega]
        at hms2
    have hok : specRunOk mover opp x y 0 1 (pos + 1) = true := by
      rw [hRun]
      have h1 : decide (1 ≤ pos + 1) = true := by simp
      have h2 : (List.range (pos + 1)).all
          (fun j => decide (y + (j + 1) < 8) &&
            opp.testBit ((y + (j + 1)) * 8 + x)) = true := by
        rw [List.all_eq_true]
        intro j hj
        rw [List.mem_range] at hj
        have hb : decide (y + (j + 1) < 8) = true := by
          rw [decide_eq_true_iff]
          omega
        rw [hb, Bool.true_and]
        cases j with
        | zero => exact hoppy1
        | succ j =>
          rw [show y + (j + 1 + 1) = y + 2 + j by omega]
          exact hrun j (by omega)
      have h3 : decide (y + (pos + 1 + 1) < 8) = true := by
        rw [decide_eq_true_iff]
        omega
      rw [h1, h2, h3, Bool.true_and, Bool.true_and, Bool.true_and]
      rw [show y + (pos + 1 + 1) = y + 2 + pos by omega]
      exact hterm
    have huniq : ∀ q, specRunOk mover opp x y 0 1 q = true → q = pos + 1 := by
      intro q hq
      rw [hRun] at hq
      obtain ⟨hq12, hq3⟩ := Bool.and_eq_true_iff.mp hq
      obtain ⟨hq1, hq2⟩ := Bool.and_eq_true_iff.mp hq12
      rw [decide_eq_true_iff] at hq1
      obtain ⟨hqb, hqm⟩ := Bool.and_eq_true_iff.mp hq3
      rw [decide_eq_true_iff] at hqb
      have hqcells : ∀ j, j < q → opp.testBit ((y + (j + 1)) * 8 + x) = true := by
        intro j hj
        have := (List.all_eq_true.mp hq2) j (List.mem_range.mpr hj)
        exact (Bool.and_eq_true_iff.mp this).2
      by_contra hne
      rcases Nat.lt_or_ge q (pos + 1) with hlt | hge
      · have : opp.testBit ((y + (q + 1)) * 8 + x) = true := by
          cases hq0 : q with
          | zero => omega
          | succ q' =>
            rw [show y + (q' + 1 + 1) = y + 2 + q' by omega]
            exact hrun q' (by omega)
        exact absurd ⟨hqm, this⟩ (hdb _)
      · have hlt2 : pos + 1 < q := by omega
        have := hqcells (pos + 1) (by omega)
        rw [show y + (pos + 1 + 1) = y + 2 + pos by omega] at this
        exact absurd ⟨hterm, this⟩ (hdb _)
    have hlen : specRunLen mover opp x y 0 1 = pos + 1 := by
      rw [specRunLen]
      exact findSome_range6_unique (fun q => specRunOk mover opp x y 0 1 q) (pos + 1)
        (by omega) (by omega) hok huniq
    have hflips : ∀ i, (specFlipsDir mover opp x y 0 1).testBit i =
        decide (∃ j, j < pos + 1 ∧ i = (y + (j + 1)) * 8 + x) := by
      intro i
      rw [specFlipsDir, hlen]
      have hf : ∀ j : Nat,
          ((y : Int) + ((j : Int) + 1) * 1).toNat * 8 + ((x : Int) + ((j : Int) + 1) * 0).toNat
            = (y + (j + 1)) * 8 + x := by
        intro j
        omega
      simp only [hf]
      rw [foldl_or_bits]
      rw [Nat.zero_testBit, Bool.false_or]
    have hmbit : ∀ i, m.testBit i =
        decide (y * 8 + x ≤ i ∧ i ≤ y * 8 + x + 8 * (pos + 1) ∧ (i - (y * 8 + x)) % 8 = 0) := by
      intro i
      rw [hm_eq, BOARD_SIZE]
      exact upStrip_testBit x y pos i (by omega)
    constructor
    · intro i hbit
      rw [hmbit, decide_eq_true_iff] at hbit
      rcases Nat.lt_or_ge i (y * 8 + x + 1) with h1 | h1
      · left
        omega
      · right; left
        rw [hflips, decide_eq_true_iff]
        exact ⟨(i - (y * 8 + x)) / 8 - 1, by omega, by omega⟩
    · intro i hi
      rw [hmbit, decide_eq_true_iff]
      rcases hi with rfl | hi
      · omega
      · rw [hflips, decide_eq_true_iff] at hi
        rcases hi with ⟨j, hj, rfl⟩
        omega

end Hammer

namespace Hammer

theorem dirDown_spec (mover opp empty : Nat) (hm : mover < 2 ^ 64) (ho : opp < 2 ^ 64)
    (hdisj : mover &&& opp = 0) (hemp : empty = (2 ^ 64 - 1) ^^^ u64 (mover ||| opp))
    (x y : Nat) (hx : x < 8) (hy : y < 8) :
    ((dirDown opp empty x y).isSome =
      (specEmptyAt mover opp x y && specLegalDir mover opp x y 0 (-1))) ∧
    (∀ m ch, dirDown opp empty x y = some (m, ch) →
      (∀ i, m.testBit i = true →
        i = y * 8 + x ∨ (specFlipsDir mover opp x y 0 (-1)).testBit i = true ∨
          mover.testBit i = true) ∧
      (∀ i, i = y * 8 + x ∨ (specFlipsDir mover opp x y 0 (-1)).testBit i = true →
        m.testBit i = true)) := by
  have hdb : ∀ i, ¬(mover.testBit i = true ∧ opp.testBit i = true) := by
    intro i hi
    have hz : (mover &&& opp).testBit i = false := by rw [hdisj]; exact Nat.zero_testBit i
    rw [Nat.testBit_and, hi.1, hi.2] at hz
    simp at hz
  have hE : ∀ i, i < 64 → empty.testBit i = (!mover.testBit i && !opp.testBit i) := by
    intro i hi
    rw [hemp]
    exact testBit_empty mover opp i hi
  have hMv : ∀ i, i < 64 → opp.testBit i = false → empty.testBit i = false →
      mover.testBit i = true := by
    intro i hi h1 h2
    rw [hE i hi, h1] at h2
    cases hmv : mover.testBit i with
    | true => rfl
    | false => rw [hmv] at h2; simp at h2
  have hcell : ∀ (b : Nat) (m : Nat),
      specAt b ((x : Int) + ((m : Int) + 1) * 0) ((y : Int) + ((m : Int) + 1) * (-1)) =
        (decide (m + 1 ≤ y) && b.testBit ((y - (m + 1)) * 8 + x)) := by
    intro b m
    simp only [specAt]
    have harg : ((y : Int) + ((m : Int) + 1) * (-1)).toNat * 8 +
        ((x : Int) + ((m : Int) + 1) * 0).toNat = (y - (m + 1)) * 8 + x := by omega
    have hdec : decide (0 ≤ (x : Int) + ((m : Int) + 1) * 0 ∧
        (x : Int) + ((m : Int) + 1) * 0 < 8 ∧
        0 ≤ (y : Int) + ((m : Int) + 1) * (-1) ∧ (y : Int) + ((m : Int) + 1) * (-1) < 8) =
        decide (m + 1 ≤ y) := decide_eq_decide.mpr (by omega)
    rw [harg, hdec]
  have hRun : ∀ k : Nat, specRunOk mover opp x y 0 (-1) k =
      (decide (1 ≤ k) &&
        (List.range k).all
          (fun j => decide (j + 1 ≤ y) && opp.testBit ((y - (j + 1)) * 8 + x)) &&
        (decide (k + 1 ≤ y) && mover.testBit ((y - (k + 1)) * 8 + x))) := by
    intro k
    rw [specRunOk]
    have hall : (List.range k).all
          (fun j => specAt opp ((x : Int) + ((j : Int) + 1) * 0) ((y : Int) + ((j : Int) + 1) * (-1)))
        = (List.range k).all
          (fun j => decide (j + 1 ≤ y) && opp.testBit ((y - (j + 1)) * 8 + x)) :=
      all_congr_list _ _ _ (fun j _ => hcell opp j)
    rw [hall, hcell mover k]
  have hLegal : specLegalDir mover opp x y 0 (-1) = true ↔
      ∃ k, 1 ≤ k ∧ k ≤ 6 ∧ specRunOk mover opp x y 0 (-1) k = true := by
    rw [specLegalDir, List.any_eq_true]
    constructor
    · rintro ⟨i, hi, hP⟩
      rw [List.mem_range] at hi
      exact ⟨i + 1, by omega, by omega, hP⟩
    · rintro ⟨k, h1, h6, hP⟩
      refine ⟨k - 1, by rw [List.mem_range]; omega, ?_⟩
      rwa [show k - 1 + 1 = k by omega]
  have hEmp : specEmptyAt mover opp x y = empty.testBit (y * 8 + x) := by
    rw [specEmptyAt, specAt_natCoords, specAt_natCoords, hE (y * 8 + x) (by omega)]
    simp [hx, hy]
  have hLlen : ((List.range y).map (fun j => (y - 1 - j) * 8 + x)).length = y := by
    simp
  have hLget : ∀ j, j < y →
      ((List.range y).map (fun j => (y - 1 - j) * 8 + x)).getD j 0 =
        (y - 1 - j) * 8 + x := by
    intro j hj
    rw [List.getD_eq_getElem _ _ (by simpa using hj)]
    simp
  have hmaskbit : 2 ≤ y → opp.testBit ((y - 1) * 8 + x) = true →
      empty.testBit (y * 8 + x) = true → (maskDown empty opp).testBit (y * 8 + x) = true := by
    intro hy2 hov he
    rw [maskDown, Nat.testBit_and, he, Bool.true_and, u64, Nat.testBit_mod_two_pow,
      Nat.testBit_shiftLeft]
    have h1 : decide (y * 8 + x < 64) = true := by rw [decide_eq_true_iff]; omega
    have h2 : decide (y * 8 + x ≥ BOARD_SIZE) = true := by
      rw [decide_eq_true_iff, BOARD_SIZE]; omega
    rw [h1, h2, Bool.true_and, Bool.true_and,
      show y * 8 + x - BOARD_SIZE = (y - 1) * 8 + x from by rw [BOARD_SIZE]; omega]
    exact hov
  constructor
  · by_cases hg : 2 ≤ y ∧ (maskDown empty opp).testBit (y * 8 + x)
    · rw [dirDown, if_pos hg]
      have hy2 : 2 ≤ y := hg.1
      have hmask := hg.2
      rw [maskDown, Nat.testBit_and, u64, Nat.testBit_mod_two_pow, Nat.testBit_shiftLeft]
        at hmask
      obtain ⟨hms1, hms2⟩ := Bool.and_eq_true_iff.mp hmask
      obtain ⟨-, hms3⟩ := Bool.and_eq_true_iff.mp hms2
      obtain ⟨-, hms4⟩ := Bool.and_eq_true_iff.mp hms3
      have hoppy1 : opp.testBit ((y - 1) * 8 + x) = true := by
        rwa [show y * 8 + x - BOARD_SIZE = (y - 1) * 8 + x from by rw [BOARD_SIZE]; omega]
          at hms4
      rw [hEmp, hms1, Bool.true_and]
      cases hscan : scanRun opp empty ((List.range y).map (fun j => (y - 1 - j) * 8 + x))
        with
      | some pos =>
        rcases (scanRun_eq_some_iff opp empty _ pos).mp hscan with ⟨hp1, hp2, hp3, hp4⟩
        rw [hLlen] at hp1
        rw [hLget pos hp1] at hp3 hp4
        have hpos1 : 1 ≤ pos := by
          by_contra hc
          have h0 : pos = 0 := by omega
          rw [h0, show (y - 1 - 0) * 8 + x = (y - 1) * 8 + x by omega] at hp3
          rw [hp3] at hoppy1
          exact absurd hoppy1 (by simp)
        have hterm : mover.testBit ((y - 1 - pos) * 8 + x) = true :=
          hMv _ (by omega) hp3 hp4
        have hrun : ∀ j, j < pos → opp.testBit ((y - 1 - j) * 8 + x) = true := by
          intro j hj
          have := hp2 j hj
          rwa [hLget j (by omega)] at this
        have hok : specRunOk mover opp x y 0 (-1) pos = true := by
          rw [hRun]
          have h1 : decide (1 ≤ pos) = true := by rw [decide_eq_true_iff]; omega
          have h2 : (List.range pos).all
              (fun j => decide (j + 1 ≤ y) &&
                opp.testBit ((y - (j + 1)) * 8 + x)) = true := by
            rw [List.all_eq_true]
            intro j hj
            rw [List.mem_range] at hj
            have hb : decide (j + 1 ≤ y) = true := by
              rw [decide_eq_true_iff]
              omega
            rw [hb, Bool.true_and]
            rw [show (y - (j + 1)) * 8 + x = (y - 1 - j) * 8 + x by omega]
            exact hrun j hj
          have h3 : decide (pos + 1 ≤ y) = true := by
            rw [decide_eq_true_iff]
            omega
          rw [h1, h2, h3, Bool.true_and, Bool.true_and, Bool.true_and]
          rw [show (y - (pos + 1)) * 8 + x = (y - 1 - pos) * 8 + x by omega]
          exact hterm
        have : specLegalDir mover opp x y 0 (-1) = true :=
          hLegal.mpr ⟨pos, by omega, by omega, hok⟩
        rw [this]
        rfl
      | none =>
        cases hsl : specLegalDir mover opp x y 0 (-1) with
        | false => rfl
        | true =>
          exfalso
          rcases hLegal.mp hsl with ⟨k, hk1, hk6, hP⟩
          rw [hRun] at hP
          obtain ⟨hP12, hP3⟩ := Bool.and_eq_true_iff.mp hP
          obtain ⟨-, hP2⟩ := Bool.and_eq_true_iff.mp hP12
          obtain ⟨hPb, hPm⟩ := Bool.and_eq_true_iff.mp hP3
          rw [decide_eq_true_iff] at hPb
          have hruncells : ∀ j, j < k → opp.testBit ((y - (j + 1)) * 8 + x) = true := by
            intro j hj
            have := (List.all_eq_true.mp hP2) j (List.mem_range.mpr hj)
            exact (Bool.and_eq_true_iff.mp this).2
          have hsc : scanRun opp empty
              ((List.range y).map (fun j => (y - 1 - j) * 8 + x)) = some k := by
            rw [scanRun_eq_some_iff]
            have hky : k < y := by omega
            refine ⟨by rw [hLlen]; omega, ?_, ?_, ?_⟩
            · intro j hj
              rw [hLget j (by omega)]
              have := hruncells j (by omega)
              rwa [show (y - (j + 1)) * 8 + x = (y - 1 - j) * 8 + x by omega] at this
            · rw [hLget k hky]
              rw [show (y - 1 - k) * 8 + x = (y - (k + 1)) * 8 + x by omega]
              cases hov : opp.testBit ((y - (k + 1)) * 8 + x) with
              | false => rfl
              | true => exact absurd ⟨hPm, hov⟩ (hdb _)
            · rw [hLget k hky]
              rw [show (y - 1 - k) * 8 + x = (y - (k + 1)) * 8 + x by omega]
              rw [hE _ (by omega), hPm]
              rfl
          rw [hsc] at hscan
          exact absurd hscan (by simp)
    · rw [dirDown, if_neg hg]
      rw [show (none : Option (Nat × Nat)).isSome = false from rfl]
      cases hse : specEmptyAt mover opp x y with
      | false => rw [Bool.false_and]
      | true =>
        cases hsl : specLegalDir mover opp x y 0 (-1) with
        | false => rw [Bool.and_false]
        | true =>
          exfalso
          rcases hLegal.mp hsl with ⟨k, hk1, hk6, hP⟩
          rw [hRun] at hP
          obtain ⟨hP12, hP3⟩ := Bool.and_eq_true_iff.mp hP
          obtain ⟨-, hP2⟩ := Bool.and_eq_true_iff.mp hP12
          obtain ⟨hPb, -⟩ := Bool.and_eq_true_iff.mp hP3
          rw [decide_eq_true_iff] at hPb
          have hy2 : 2 ≤ y := by omega
          have h0 := (List.all_eq_true.mp hP2) 0 (List.mem_range.mpr (by omega))
          have h0b := (Bool.and_eq_true_iff.mp h0).2
          rw [show (y - (0 + 1)) * 8 + x = (y - 1) * 8 + x by omega] at h0b
          have hebit : empty.testBit (y * 8 + x) = true := by rw [← hEmp]; exact hse
          exact hg ⟨hy2, hmaskbit hy2 h0b hebit⟩
  · intro m ch hsome
    rw [dirDown] at hsome
    by_cases hg : 2 ≤ y ∧ (maskDown empty opp).testBit (y * 8 + x)
    swap
    · rw [if_neg hg] at hsome
      exact absurd hsome (by simp)
    rw [if_pos hg] at hsome
    rcases Option.map_eq_some'.mp hsome with ⟨pos, hscan, hmch⟩
    have hm_eq : m = (COL_PATTERN >>> ((BOARD_SIZE - (pos + 1)) * 8)) <<<
        (y * 8 + x - (pos + 1 - 1) * 8) := by
      have := congrArg Prod.fst hmch
      simpa using this.symm
    have hy2 : 2 ≤ y := hg.1
    have hmask := hg.2
    rw [maskDown, Nat.testBit_and, u64, Nat.testBit_mod_two_pow, Nat.testBit_shiftLeft]
      at hmask
    obtain ⟨hms1, hms2⟩ := Bool.and_eq_true_iff.mp hmask
    obtain ⟨-, hms3⟩ := Bool.and_eq_true_iff.mp hms2
    obtain ⟨-, hms4⟩ := Bool.and_eq_true_iff.mp hms3
    have hoppy1 : opp.testBit ((y - 1) * 8 + x) = true := by
      rwa [show y * 8 + x - BOARD_SIZE = (y - 1) * 8 + x from by rw [BOARD_SIZE]; omega]
        at hms4
    rcases (scanRun_eq_some_iff opp empty _ pos).mp hscan with ⟨hp1, hp2, hp3, hp4⟩
    rw [hLlen] at hp1
    rw [hLget pos hp1] at hp3 hp4
    have hpos1 : 1 ≤ pos := by
      by_contra hc
      have h0 : pos = 0 := by omega
      rw [h0, show (y - 1 - 0) * 8 + x = (y - 1) * 8 + x by omega] at hp3
      rw [hp3] at hoppy1
      exact absurd hoppy1 (by simp)
    have hterm : mover.testBit ((y - 1 - pos) * 8 + x) = true := hMv _ (by omega) hp3 hp4
    have hrun : ∀ j, j < pos → opp.testBit ((y - 1 - j) * 8 + x) = true := by
      intro j hj
      have := hp2 j hj
      rwa [hLget j (by omega)] at this
    have hok : specRunOk mover opp x y 0 (-1) pos = true := by
      rw [hRun]
      have h1 : decide (1 ≤ pos) = true := by rw [decide_eq_true_iff]; omega
      have h2 : (List.range pos).all
          (fun j => decide (j + 1 ≤ y) &&
            opp.testBit ((y - (j + 1)) * 8 + x)) = true := by
        rw [List.all_eq_true]
        intro j hj
        rw [List.mem_range] at hj
        have hb : decide (j + 1 ≤ y) = true := by
          rw [decide_eq_true_iff]
          omega
        rw [hb, Bool.true_and]
        rw [show (y - (j + 1)) * 8 + x = (y - 1 - j) * 8 + x by omega]
        exact hrun j hj
      have h3 : decide (pos + 1 ≤ y) = true := by
        rw [decide_eq_true_iff]
        omega
      rw [h1, h2, h3, Bool.true_and, Bool.true_and, Bool.true_and]
      rw [show (y - (pos + 1)) * 8 + x = (y - 1 - pos) * 8 + x by omega]
      exact hterm
    have huniq : ∀ q, specRunOk mover opp x y 0 (-1) q = true → q = pos := by
      intro q hq
      rw [hRun] at hq
      obtain ⟨hq12, hq3⟩ := Bool.and_eq_true_iff.mp hq
      obtain ⟨hq1, hq2⟩ := Bool.and_eq_true_iff.mp hq12
      rw [decide_eq_true_iff] at hq1
      obtain ⟨hqb, hqm⟩ := Bool.and_eq_true_iff.mp hq3
      rw [decide_eq_true_iff] at hqb
      have hqcells : ∀ j, j < q → opp.testBit ((y - (j + 1)) * 8 + x) = true := by
        intro j hj
        have := (List.all_eq_true.mp hq2) j (List.mem_range.mpr hj)
        exact (Bool.and_eq_true_iff.mp this).2
      by_contra hne
      rcases Nat.lt_or_ge q pos with hlt | hge
      · have : opp.testBit ((y - (q + 1)) * 8 + x) = true := by
          rw [show (y - (q + 1)) * 8 + x = (y - 1 - q) * 8 + x by omega]
          exact hrun q hlt
        exact absurd ⟨hqm, this⟩ (hdb _)
      · have hlt2 : pos < q := by omega
        have := hqcells pos hlt2
        rw [show (y - (pos + 1)) * 8 + x = (y - 1 - pos) * 8 + x by omega] at this
        exact absurd ⟨hterm, this⟩ (hdb _)
    have hlen : specRunLen mover opp x y 0 (-1) = pos := by
      rw [specRunLen]
      exact findSome_range6_unique (fun q => specRunOk mover opp x y 0 (-1) q) pos
        (by omega) (by omega) hok huniq
    have hflips : ∀ i, (specFlipsDir mover opp x y 0 (-1)).testBit i =
        decide (∃ j, j < pos ∧ i = (y - (j + 1)) * 8 + x) := by
      intro i
      rw [specFlipsDir, hlen]
      have hf : ∀ j : Nat,
          ((y : Int) + ((j : Int) + 1) * (-1)).toNat * 8 + ((x : Int) + ((j : Int) + 1) * 0).toNat
            = (y - (j + 1)) * 8 + x := by
        intro j
        omega
      simp only [hf]
      rw [foldl_or_bits]
      rw [Nat.zero_testBit, Bool.false_or]
    have hposy : pos < y := hp1
    have hmbit : ∀ i, m.testBit i =
        decide (y * 8 + x ≤ i + 8 * pos ∧ i ≤ y * 8 + x ∧ (y * 8 + x - i) % 8 = 0) := by
      intro i
      rw [hm_eq, BOARD_SIZE, show (pos + 1 - 1) * 8 = pos * 8 by omega]
      exact downStrip_testBit x y pos i hposy hy
    constructor
    · intro i hbit
      rw [hmbit, decide_eq_true_iff] at hbit
      rcases Nat.lt_or_ge i (y * 8 + x) with h1 | h1
      · right; left
        rw [hflips, decide_eq_true_iff]
        exact ⟨(y * 8 + x - i) / 8 - 1, by omega, by omega⟩
      · left
        omega
    · intro i hi
      rw [hmbit, decide_eq_true_iff]
      rcases hi with rfl | hi
      · omega
      · rw [hflips, decide_eq_true_iff] at hi
        rcases hi with ⟨j, hj, rfl⟩
        omega

end Hammer

namespace Hammer

theorem dirUpRight_spec (mover opp empty : Nat) (hm : mover < 2 ^ 64) (ho : opp < 2 ^ 64)
    (hdisj : mover &&& opp = 0) (hemp : empty = (2 ^ 64 - 1) ^^^ u64 (mover ||| opp))
    (x y : Nat) (hx : x < 8) (hy : y < 8) :
    ((dirUpRight opp empty x y).isSome =
      (specEmptyAt mover opp x y && specLegalDir mover opp x y (-1) 1)) ∧
    (∀ m ch, dirUpRight opp empty x y = some (m, ch) →
      (∀ i, m.testBit i = true →
        i = y * 8 + x ∨ (specFlipsDir mover opp x y (-1) 1).testBit i = true ∨
          mover.testBit i = true) ∧
      (∀ i, i = y * 8 + x ∨ (specFlipsDir mover opp x y (-1) 1).testBit i = true →
        m.testBit i = true)) := by
  have hdb : ∀ i, ¬(mover.testBit i = true ∧ opp.testBit i = true) := by
    intro i hi
    have hz : (mover &&& opp).testBit i = false := by rw [hdisj]; exact Nat.zero_testBit i
    rw [Nat.testBit_and, hi.1, hi.2] at hz
    simp at hz
  have hE : ∀ i, i < 64 → empty.testBit i = (!mover.testBit i && !opp.testBit i) := by
    intro i hi
    rw [hemp]
    exact testBit_empty mover opp i hi
  have hMv : ∀ i, i < 64 → opp.testBit i = false → empty.testBit i = false →
      mover.testBit i = true := by
    intro i hi h1 h2
    rw [hE i hi, h1] at h2
    cases hmv : mover.testBit i with
    | true => rfl
    | false => rw [hmv] at h2; simp at h2
  have hcell : ∀ (b : Nat) (m : Nat),
      specAt b ((x : Int) + ((m : Int) + 1) * (-1)) ((y : Int) + ((m : Int) + 1) * 1) =
        (decide (y + (m + 1) < 8 ∧ m + 1 ≤ x) &&
          b.testBit ((y + (m + 1)) * 8 + (x - (m + 1)))) := by
    intro b m
    simp only [specAt]
    have harg : ((y : Int) + ((m : Int) + 1) * 1).toNat * 8 +
        ((x : Int) + ((m : Int) + 1) * (-1)).toNat = (y + (m + 1)) * 8 + (x - (m + 1)) := by
      omega
    have hdec : decide (0 ≤ (x : Int) + ((m : Int) + 1) * (-1) ∧
        (x : Int) + ((m : Int) + 1) * (-1) < 8 ∧
        0 ≤ (y : Int) + ((m : Int) + 1) * 1 ∧ (y : Int) + ((m : Int) + 1) * 1 < 8) =
        decide (y + (m + 1) < 8 ∧ m + 1 ≤ x) := decide_eq_decide.mpr (by omega)
    rw [harg, hdec]
  have hRun : ∀ k : Nat, specRunOk mover opp x y (-1) 1 k =
      (decide (1 ≤ k) &&
        (List.range k).all
          (fun j => decide (y + (j + 1) < 8 ∧ j + 1 ≤ x) &&
            opp.testBit ((y + (j + 1)) * 8 + (x - (j + 1)))) &&
        (decide (y + (k + 1) < 8 ∧ k + 1 ≤ x) &&
          mover.testBit ((y + (k + 1)) * 8 + (x - (k + 1))))) := by
    intro k
    rw [specRunOk]
    have hall : (List.range k).all
          (fun j => specAt opp ((x : Int) + ((j : Int) + 1) * (-1)) ((y : Int) + ((j : Int) + 1) * 1))
        = (List.range k).all
          (fun j => decide (y + (j + 1) < 8 ∧ j + 1 ≤ x) &&
            opp.testBit ((y + (j + 1)) * 8 + (x - (j + 1)))) :=
      all_congr_list _ _ _ (fun j _ => hcell opp j)
    rw [hall, hcell mover k]
  have hLegal : specLegalDir mover opp x y (-1) 1 = true ↔
      ∃ k, 1 ≤ k ∧ k ≤ 6 ∧ specRunOk mover opp x y (-1) 1 k = true := by
    rw [specLegalDir, List.any_eq_true]
    constructor
    · rintro ⟨i, hi, hP⟩
      rw [List.mem_range] at hi
      exact ⟨i + 1, by omega, by omega, hP⟩
    · rintro ⟨k, h1, h6, hP⟩
      refine ⟨k - 1, by rw [List.mem_range]; omega, ?_⟩
      rwa [show k - 1 + 1 = k by omega]
  have hEmp : specEmptyAt mover opp x y = empty.testBit (y * 8 + x) := by
    rw [specEmptyAt, specAt_natCoords, specAt_natCoords, hE (y * 8 + x) (by omega)]
    simp [hx, hy]
  have hLlen : ((List.range (min (6 - y) (x - 1))).map
      (fun j => (y + 2 + j) * 8 + (x - 2 - j))).length = min (6 - y) (x - 1) := by
    simp
  have hLget : ∀ j, j < min (6 - y) (x - 1) →
      ((List.range (min (6 - y) (x - 1))).map
        (fun j => (y + 2 + j) * 8 + (x - 2 - j))).getD j 0 = (y + 2 + j) * 8 + (x - 2 - j) := by
    intro j hj
    rw [List.getD_eq_getElem _ _ (by simpa using hj)]
    simp
  have hmaskbit : 2 ≤ x → opp.testBit ((y + 1) * 8 + (x - 1)) = true →
      empty.testBit (y * 8 + x) = true →
      (maskUpRight empty opp).testBit (y * 8 + x) = true := by
    intro hx2 hov he
    rw [maskUpRight, Nat.testBit_and, he, Bool.true_and, Nat.testBit_shiftRight]
    rwa [show BOARD_SIZE - 1 + (y * 8 + x) = (y + 1) * 8 + (x - 1) from by
      rw [BOARD_SIZE]; omega]
  constructor
  · by_cases hg : y + 2 < BOARD_SIZE ∧ 2 ≤ x ∧ (maskUpRight empty opp).testBit (y * 8 + x)
    · rw [dirUpRight, if_pos hg]
      have hy5 : y ≤ 5 := by have := hg.1; rw [BOARD_SIZE] at this; omega
      have hx2 : 2 ≤ x := hg.2.1
      have hmask := hg.2.2
      rw [maskUpRight, Nat.testBit_and, Nat.testBit_shiftRight] at hmask
      obtain ⟨hms1, hms2⟩ := Bool.and_eq_true_iff.mp hmask
      have hoppd1 : opp.testBit ((y + 1) * 8 + (x - 1)) = true := by
        rwa [show BOARD_SIZE - 1 + (y * 8 + x) = (y + 1) * 8 + (x - 1) from by
          rw [BOARD_SIZE]; omega] at hms2
      rw [hEmp, hms1, Bool.true_and]
      cases hscan : scanRun opp empty ((List.range (min (6 - y) (x - 1))).map
          (fun j => (y + 2 + j) * 8 + (x - 2 - j))) with
      | some pos =>
        rcases (scanRun_eq_some_iff opp empty _ pos).mp hscan with ⟨hp1, hp2, hp3, hp4⟩
        rw [hLlen] at hp1
        rw [hLget pos hp1] at hp3 hp4
        have hterm : mover.testBit ((y + 2 + pos) * 8 + (x - 2 - pos)) = true :=
          hMv _ (by omega) hp3 hp4
        have hrun : ∀ j, j < pos → opp.testBit ((y + 2 + j) * 8 + (x - 2 - j)) = true := by
          intro j hj
          have := hp2 j hj
          rwa [hLget j (by omega)] at this
        have hok : specRunOk mover opp x y (-1) 1 (pos + 1) = true := by
          rw [hRun]
          have h1 : decide (1 ≤ pos + 1) = true := by simp
          have h2 : (List.range (pos + 1)).all
              (fun j => decide (y + (j + 1) < 8 ∧ j + 1 ≤ x) &&
                opp.testBit ((y + (j + 1)) * 8 + (x - (j + 1)))) = true := by
            rw [List.all_eq_true]
            intro j hj
            rw [List.mem_range] at hj
            have hb : decide (y + (j + 1) < 8 ∧ j + 1 ≤ x) = true := by
              rw [decide_eq_true_iff]
              omega
            rw [hb, Bool.true_and]
            cases j with
            | zero => exact hoppd1
            | succ j =>
              rw [show y + (j + 1 + 1) = y + 2 + j by omega,
                show x - (j + 1 + 1) = x - 2 - j by omega]
              exact hrun j (by omega)
          have h3 : decide (y + (pos + 1 + 1) < 8 ∧ pos + 1 + 1 ≤ x) = true := by
            rw [decide_eq_true_iff]
            omega
          rw [h1, h2, h3, Bool.true_and, Bool.true_and, Bool.true_and]
          rw [show y + (pos + 1 + 1) = y + 2 + pos by omega,
            show x - (pos + 1 + 1) = x - 2 - pos by omega]
          exact hterm
        have : specLegalDir mover opp x y (-1) 1 = true :=
          hLegal.mpr ⟨pos + 1, by omega, by omega, hok⟩
        rw [this]
        rfl
      | none =>
        cases hsl : specLegalDir mover opp x y (-1) 1 with
        | false => rfl
        | true =>
          exfalso
          rcases hLegal.mp hsl with ⟨k, hk1, hk6, hP⟩
          rw [hRun] at hP
          obtain ⟨hP12, hP3⟩ := Bool.and_eq_true_iff.mp hP
          obtain ⟨-, hP2⟩ := Bool.and_eq_true_iff.mp hP12
          obtain ⟨hPb, hPm⟩ := Bool.and_eq_true_iff.mp hP3
          rw [decide_eq_true_iff] at hPb
          have hruncells : ∀ j, j < k →
              opp.testBit ((y + (j + 1)) * 8 + (x - (j + 1))) = true := by
            intro j hj
            have := (List.all_eq_true.mp hP2) j (List.mem_range.mpr hj)
            exact (Bool.and_eq_true_iff.mp this).2
          have hsc : scanRun opp empty ((List.range (min (6 - y) (x - 1))).map
              (fun j => (y + 2 + j) * 8 + (x - 2 - j))) = some (k - 1) := by
            rw [scanRun_eq_some_iff]
            have hk16 : k - 1 < min (6 - y) (x - 1) := by omega
            refine ⟨by rw [hLlen]; omega, ?_, ?_, ?_⟩
            · intro j hj
              rw [hLget j (by omega)]
              have := hruncells (j + 1) (by omega)
              rwa [show y + (j + 1 + 1) = y + 2 + j by omega,
                show x - (j + 1 + 1) = x - 2 - j by omega] at this
            · rw [hLget (k - 1) hk16]
              rw [show y + 2 + (k - 1) = y + (k + 1) by omega,
                show x - 2 - (k - 1) = x - (k + 1) by omega]
              cases hov : opp.testBit ((y + (k + 1)) * 8 + (x - (k + 1))) with
              | false => rfl
              | true => exact absurd ⟨hPm, hov⟩ (hdb _)
            · rw [hLget (k - 1) hk16]
              rw [show y + 2 + (k - 1) = y + (k + 1) by omega,
                show x - 2 - (k - 1) = x - (k + 1) by omega]
              rw [hE _ (by omega), hPm]
              rfl
          rw [hsc] at hscan
          exact absurd hscan (by simp)
    · rw [dirUpRight, if_neg hg]
      rw [show (none : Option (Nat × Nat)).isSome = false from rfl]
      cases hse : specEmptyAt mover opp x y with
      | false => rw [Bool.false_and]
      | true =>
        cases hsl : specLegalDir mover opp x y (-1) 1 with
        | false => rw [Bool.and_false]
        | true =>
          exfalso
          rcases hLegal.mp hsl with ⟨k, hk1, hk6, hP⟩
          rw [hRun] at hP
          obtain ⟨hP12, hP3⟩ := Bool.and_eq_true_iff.mp hP
          obtain ⟨-, hP2⟩ := Bool.and_eq_true_iff.mp hP12
          obtain ⟨hPb, -⟩ := Bool.and_eq_true_iff.mp hP3
          rw [decide_eq_true_iff] at hPb
          have hy2 : y + 2 < BOARD_SIZE := by rw [BOARD_SIZE]; omega
          have hx2 : 2 ≤ x := by omega
          have h0 := (List.all_eq_true.mp hP2) 0 (List.mem_range.mpr (by omega))
          have h0b := (Bool.and_eq_true_iff.mp h0).2
          rw [show y + (0 + 1) = y + 1 by omega, show x - (0 + 1) = x - 1 by omega] at h0b
          have hebit : empty.testBit (y * 8 + x) = true := by rw [← hEmp]; exact hse
          exact hg ⟨hy2, hx2, hmaskbit hx2 h0b hebit⟩
  · intro m ch hsome
    rw [dirUpRight] at hsome
    by_cases hg : y + 2 < BOARD_SIZE ∧ 2 ≤ x ∧ (maskUpRight empty opp).testBit (y * 8 + x)
    swap
    · rw [if_neg hg] at hsome
      exact absurd hsome (by simp)
    rw [if_pos hg] at hsome
    rcases Option.map_eq_some'.mp hsome with ⟨pos, hscan, hmch⟩
    have hm_eq : m = (ANTI_DIAG_PATTERN >>> ((BOARD_SIZE - (pos + 2)) * 8)) <<<
        (y * 8 + (x - (pos + 2 - 1))) := by
      have := congrArg Prod.fst hmch
      simpa using this.symm
    have hy5 : y ≤ 5 := by have := hg.1; rw [BOARD_SIZE] at this; omega
    have hx2 : 2 ≤ x := hg.2.1
    have hmask := hg.2.2
    rw [maskUpRight, Nat.testBit_and, Nat.testBit_shiftRight] at hmask
    obtain ⟨hms1, hms2⟩ := Bool.and_eq_true_iff.mp hmask
    have hoppd1 : opp.testBit ((y + 1) * 8 + (x - 1)) = true := by
      rwa [show BOARD_SIZE - 1 + (y * 8 + x) = (y + 1) * 8 + (x - 1) from by
        rw [BOARD_SIZE]; omega] at hms2
    rcases (scanRun_eq_some_iff opp empty _ pos).mp hscan with ⟨hp1, hp2, hp3, hp4⟩
    rw [hLlen] at hp1
    rw [hLget pos hp1] at hp3 hp4
    have hposx : pos + 2 ≤ x := by omega
    have hposy : y + pos + 2 ≤ 7 := by omega
    have hterm : mover.testBit ((y + 2 + pos) * 8 + (x - 2 - pos)) = true :=
      hMv _ (by omega) hp3 hp4
    have hrun : ∀ j, j < pos → opp.testBit ((y + 2 + j) * 8 + (x - 2 - j)) = true := by
      intro j hj
      have := hp2 j hj
      rwa [hLget j (by omega)] at this
    have hok : specRunOk mover opp x y (-1) 1 (pos + 1) = true := by
      rw [hRun]
      have h1 : decide (1 ≤ pos + 1) = true := by simp
      have h2 : (List.range (pos + 1)).all
          (fun j => decide (y + (j + 1) < 8 ∧ j + 1 ≤ x) &&
            opp.testBit ((y + (j + 1)) * 8 + (x - (j + 1)))) = true := by
        rw [List.all_eq_true]
        intro j hj
        rw [List.mem_range] at hj
        have hb : decide (y + (j + 1) < 8 ∧ j + 1 ≤ x) = true := by
          rw [decide_eq_true_iff]
          omega
        rw [hb, Bool.true_and]
        cases j with
        | zero => exact hoppd1
        | succ j =>
          rw [show y + (j + 1 + 1) = y + 2 + j by omega,
            show x - (j + 1 + 1) = x - 2 - j by omega]
          exact hrun j (by omega)
      have h3 : decide (y + (pos + 1 + 1) < 8 ∧ pos + 1 + 1 ≤ x) = true := by
        rw [decide_eq_true_iff]
        omega
      rw [h1, h2, h3, Bool.true_and, Bool.true_and, Bool.true_and]
      rw [show y + (pos + 1 + 1) = y + 2 + pos by omega,
        show x - (pos + 1 + 1) = x - 2 - pos by omega]
      exact hterm
    have huniq : ∀ q, specRunOk mover opp x y (-1) 1 q = true → q = pos + 1 := by
      intro q hq
      rw [hRun] at hq
      obtain ⟨hq12, hq3⟩ := Bool.and_eq_true_iff.mp hq
      obtain ⟨hq1, hq2⟩ := Bool.and_eq_true_iff.mp hq12
      rw [decide_eq_true_iff] at hq1
      obtain ⟨hqb, hqm⟩ := Bool.and_eq_true_iff.mp hq3
      rw [decide_eq_true_iff] at hqb
      have hqcells : ∀ j, j < q →
          opp.testBit ((y + (j + 1)) * 8 + (x - (j + 1))) = true := by
        intro j hj
        have := (List.all_eq_true.mp hq2) j (List.mem_range.mpr hj)
        exact (Bool.and_eq_true_iff.mp this).2
      by_contra hne
      rcases Nat.lt_or_ge q (pos + 1) with hlt | hge
      · have : opp.testBit ((y + (q + 1)) * 8 + (x - (q + 1))) = true := by
          cases hq0 : q with
          | zero => omega
          | succ q' =>
            rw [show y + (q' + 1 + 1) = y + 2 + q' by omega,
              show x - (q' + 1 + 1) = x - 2 - q' by omega]
            exact hrun q' (by omega)
        exact absurd ⟨hqm, this⟩ (hdb _)
      · have hlt2 : pos + 1 < q := by omega
        have := hqcells (pos + 1) (by omega)
        rw [show y + (pos + 1 + 1) = y + 2 + pos by omega,
          show x - (pos + 1 + 1) = x - 2 - pos by omega] at this
        exact absurd ⟨hterm, this⟩ (hdb _)
    have hlen : specRunLen mover opp x y (-1) 1 = pos + 1 := by
      rw [specRunLen]
      exact findSome_range6_unique (fun q => specRunOk mover opp x y (-1) 1 q) (pos + 1)
        (by omega) (by omega) hok huniq
    have hflips : ∀ i, (specFlipsDir mover opp x y (-1) 1).testBit i =
        decide (∃ j, j < pos + 1 ∧ i = (y + (j + 1)) * 8 + (x - (j + 1))) := by
      intro i
      rw [specFlipsDir, hlen]
      have hf : ∀ j : Nat,
          ((y : Int) + ((j : Int) + 1) * 1).toNat * 8 + ((x : Int) + ((j : Int) + 1) * (-1)).toNat
            = (y + (j + 1)) * 8 + (x - (j + 1)) := by
        intro j
        omega
      simp only [hf]
      rw [foldl_or_bits]
      rw [Nat.zero_testBit, Bool.false_or]
    have hmbit : ∀ i, m.testBit i =
        decide (y * 8 + x ≤ i ∧ i ≤ y * 8 + x + 7 * (pos + 1) ∧ (i - (y * 8 + x)) % 7 = 0) := by
      intro i
      rw [hm_eq, BOARD_SIZE, show pos + 2 - 1 = pos + 1 by omega]
      exact upRightStrip_testBit x y pos i hposx hposy
    constructor
    · intro i hbit
      rw [hmbit, decide_eq_true_iff] at hbit
      rcases Nat.lt_or_ge i (y * 8 + x + 1) with h1 | h1
      · left
        omega
      · right; left
        rw [hflips, decide_eq_true_iff]
        exact ⟨(i - (y * 8 + x)) / 7 - 1, by omega, by omega⟩
    · intro i hi
      rw [hmbit, decide_eq_true_iff]
      rcases hi with rfl | hi
      · omega
      · rw [hflips, decide_eq_true_iff] at hi
        rcases hi with ⟨j, hj, rfl⟩
        omega

end Hammer

namespace Hammer

theorem dirDownLeft_spec (mover opp empty : Nat) (hm : mover < 2 ^ 64) (ho : opp < 2 ^ 64)
    (hdisj : mover &&& opp = 0) (hemp : empty = (2 ^ 64 - 1) ^^^ u64 (mover ||| opp))
    (x y : Nat) (hx : x < 8) (hy : y < 8) :
    ((dirDownLeft opp empty x y).isSome =
      (specEmptyAt mover opp x y && specLegalDir mover opp x y 1 (-1))) ∧
    (∀ m ch, dirDownLeft opp empty x y = some (m, ch) →
      (∀ i, m.testBit i = true →
        i = y * 8 + x ∨ (specFlipsDir mover opp x y 1 (-1)).testBit i = true ∨
          mover.testBit i = true) ∧
      (∀ i, i = y * 8 + x ∨ (specFlipsDir mover opp x y 1 (-1)).testBit i = true →
        m.testBit i = true)) := by
  have hdb : ∀ i, ¬(mover.testBit i = true ∧ opp.testBit i = true) := by
    intro i hi
    have hz : (mover &&& opp).testBit i = false := by rw [hdisj]; exact Nat.zero_testBit i
    rw [Nat.testBit_and, hi.1, hi.2] at hz
    simp at hz
  have hE : ∀ i, i < 64 → empty.testBit i = (!mover.testBit i && !opp.testBit i) := by
    intro i hi
    rw [hemp]
    exact testBit_empty mover opp i hi
  have hMv : ∀ i, i < 64 → opp.testBit i = false → empty.testBit i = false →
      mover.testBit i = true := by
    intro i hi h1 h2
    rw [hE i hi, h1] at h2
    cases hmv : mover.testBit i with
    | true => rfl
    | false => rw [hmv] at h2; simp at h2
  have hcell : ∀ (b : Nat) (m : Nat),
      specAt b ((x : Int) + ((m : Int) + 1) * 1) ((y : Int) + ((m : Int) + 1) * (-1)) =
        (decide (x + (m + 1) < 8 ∧ m + 1 ≤ y) &&
          b.testBit ((y - (m + 1)) * 8 + (x + (m + 1)))) := by
    intro b m
    simp only [specAt]
    have harg : ((y : Int) + ((m : Int) + 1) * (-1)).toNat * 8 +
        ((x : Int) + ((m : Int) + 1) * 1).toNat = (y - (m + 1)) * 8 + (x + (m + 1)) := by
      omega
    have hdec : decide (0 ≤ (x : Int) + ((m : Int) + 1) * 1 ∧
        (x : Int) + ((m : Int) + 1) * 1 < 8 ∧
        0 ≤ (y : Int) + ((m : Int) + 1) * (-1) ∧ (y : Int) + ((m : Int) + 1) * (-1) < 8) =
        decide (x + (m + 1) < 8 ∧ m + 1 ≤ y) := decide_eq_decide.mpr (by omega)
    rw [harg, hdec]
  have hRun : ∀ k : Nat, specRunOk mover opp x y 1 (-1) k =
      (decide (1 ≤ k) &&
        (List.range k).all
          (fun j => decide (x + (j + 1) < 8 ∧ j + 1 ≤ y) &&
            opp.testBit ((y - (j + 1)) * 8 + (x + (j + 1)))) &&
        (decide (x + (k + 1) < 8 ∧ k + 1 ≤ y) &&
          mover.testBit ((y - (k + 1)) * 8 + (x + (k + 1))))) := by
    intro k
    rw [specRunOk]
    have hall : (List.range k).all
          (fun j => specAt opp ((x : Int) + ((j : Int) + 1) * 1) ((y : Int) + ((j : Int) + 1) * (-1)))
        = (List.range k).all
          (fun j => decide (x + (j + 1) < 8 ∧ j + 1 ≤ y) &&
            opp.testBit ((y - (j + 1)) * 8 + (x + (j + 1)))) :=
      all_congr_list _ _ _ (fun j _ => hcell opp j)
    rw [hall, hcell mover k]
  have hLegal : specLegalDir mover opp x y 1 (-1) = true ↔
      ∃ k, 1 ≤ k ∧ k ≤ 6 ∧ specRunOk mover opp x y 1 (-1) k = true := by
    rw [specLegalDir, List.any_eq_true]
    constructor
    · rintro ⟨i, hi, hP⟩
      rw [List.mem_range] at hi
      exact ⟨i + 1, by omega, by omega, hP⟩
    · rintro ⟨k, h1, h6, hP⟩
      refine ⟨k - 1, by rw [List.mem_range]; omega, ?_⟩
      rwa [show k - 1 + 1 = k by omega]
  have hEmp : specEmptyAt mover opp x y = empty.testBit (y * 8 + x) := by
    rw [specEmptyAt, specAt_natCoords, specAt_natCoords, hE (y * 8 + x) (by omega)]
    simp [hx, hy]
  have hLlen : ((List.range (min (y - 1) (6 - x))).map
      (fun j => (y - 2 - j) * 8 + (x + 2 + j))).length = min (y - 1) (6 - x) := by
    simp
  have hLget : ∀ j, j < min (y - 1) (6 - x) →
      ((List.range (min (y - 1) (6 - x))).map
        (fun j => (y - 2 - j) * 8 + (x + 2 + j))).getD j 0 = (y - 2 - j) * 8 + (x + 2 + j) := by
    intro j hj
    rw [List.getD_eq_getElem _ _ (by simpa using hj)]
    simp
  have hmaskbit : 2 ≤ y → x + 2 < BOARD_SIZE → opp.testBit ((y - 1) * 8 + (x + 1)) = true →
      empty.testBit (y * 8 + x) = true →
      (maskDownLeft empty opp).testBit (y * 8 + x) = true := by
    intro hy2 hx2 hov he
    rw [maskDownLeft, Nat.testBit_and, he, Bool.true_and, u64, Nat.testBit_mod_two_pow,
      Nat.testBit_shiftLeft]
    rw [BOARD_SIZE] at hx2
    have h1 : decide (y * 8 + x < 64) = true := by rw [decide_eq_true_iff]; omega
    have h2 : decide (y * 8 + x ≥ BOARD_SIZE - 1) = true := by
      rw [decide_eq_true_iff, BOARD_SIZE]; omega
    rw [h1, h2, Bool.true_and, Bool.true_and,
      show y * 8 + x - (BOARD_SIZE - 1) = (y - 1) * 8 + (x + 1) from by rw [BOARD_SIZE]; omega]
    exact hov
  constructor
  · by_cases hg : 2 ≤ y ∧ x + 2 < BOARD_SIZE ∧ (maskDownLeft empty opp).testBit (y * 8 + x)
    · rw [dirDownLeft, if_pos hg]
      have hy2 : 2 ≤ y := hg.1
      have hx5 : x ≤ 5 := by have := hg.2.1; rw [BOARD_SIZE] at this; omega
      have hmask := hg.2.2
      rw [maskDownLeft, Nat.testBit_and, u64, Nat.testBit_mod_two_pow, Nat.testBit_shiftLeft]
        at hmask
      obtain ⟨hms1, hms2⟩ := Bool.and_eq_true_iff.mp hmask
      obtain ⟨-, hms3⟩ := Bool.and_eq_true_iff.mp hms2
      obtain ⟨-, hms4⟩ := Bool.and_eq_true_iff.mp hms3
      have hoppd1 : opp.testBit ((y - 1) * 8 + (x + 1)) = true := by
        rwa [show y * 8 + x - (BOARD_SIZE - 1) = (y - 1) * 8 + (x + 1) from by
          rw [BOARD_SIZE]; omega] at hms4
      rw [hEmp, hms1, Bool.true_and]
      cases hscan : scanRun opp empty ((List.range (min (y - 1) (6 - x))).map
          (fun j => (y - 2 - j) * 8 + (x + 2 + j))) with
      | some pos =>
        rcases (scanRun_eq_some_iff opp empty _ pos).mp hscan with ⟨hp1, hp2, hp3, hp4⟩
        rw [hLlen] at hp1
        rw [hLget pos hp1] at hp3 hp4
        have hterm : mover.testBit ((y - 2 - pos) * 8 + (x + 2 + pos)) = true :=
          hMv _ (by omega) hp3 hp4
        have hrun : ∀ j, j < pos → opp.testBit ((y - 2 - j) * 8 + (x + 2 + j)) = true := by
          intro j hj
          have := hp2 j hj
          rwa [hLget j (by omega)] at this
        have hok : specRunOk mover opp x y 1 (-1) (pos + 1) = true := by
          rw [hRun]
          have h1 : decide (1 ≤ pos + 1) = true := by simp
          have h2 : (List.range (pos + 1)).all
              (fun j => decide (x + (j + 1) < 8 ∧ j + 1 ≤ y) &&
                opp.testBit ((y - (j + 1)) * 8 + (x + (j + 1)))) = true := by
            rw [List.all_eq_true]
            intro j hj
            rw [List.mem_range] at hj
            have hb : decide (x + (j + 1) < 8 ∧ j + 1 ≤ y) = true := by
              rw [decide_eq_true_iff]
              omega
            rw [hb, Bool.true_and]
            cases j with
            | zero => exact hoppd1
            | succ j =>
              rw [show y - (j + 1 + 1) = y - 2 - j by omega,
                show x + (j + 1 + 1) = x + 2 + j by omega]
              exact hrun j (by omega)
          have h3 : decide (x + (pos + 1 + 1) < 8 ∧ pos + 1 + 1 ≤ y) = true := by
            rw [decide_eq_true_iff]
            omega
          rw [h1, h2, h3, Bool.true_and, Bool.true_and, Bool.true_and]
          rw [show y - (pos + 1 + 1) = y - 2 - pos by omega,
            show x + (pos + 1 + 1) = x + 2 + pos by omega]
          exact hterm
        have : specLegalDir mover opp x y 1 (-1) = true :=
          hLegal.mpr ⟨pos + 1, by omega, by omega, hok⟩
        rw [this]
        rfl
      | none =>
        cases hsl : specLegalDir mover opp x y 1 (-1) with
        | false => rfl
        | true =>
          exfalso
          rcases hLegal.mp hsl with ⟨k, hk1, hk6, hP⟩
          rw [hRun] at hP
          obtain ⟨hP12, hP3⟩ := Bool.and_eq_true_iff.mp hP
          obtain ⟨-, hP2⟩ := Bool.and_eq_true_iff.mp hP12
          obtain ⟨hPb, hPm⟩ := Bool.and_eq_true_iff.mp hP3
          rw [decide_eq_true_iff] at hPb
          have hruncells : ∀ j, j < k →
              opp.testBit ((y - (j + 1)) * 8 + (x + (j + 1))) = true := by
            intro j hj
            have := (List.all_eq_true.mp hP2) j (List.mem_range.mpr hj)
            exact (Bool.and_eq_true_iff.mp this).2
          have hsc : scanRun opp empty ((List.range (min (y - 1) (6 - x))).map
              (fun j => (y - 2 - j) * 8 + (x + 2 + j))) = some (k - 1) := by
            rw [scanRun_eq_some_iff]
            have hk16 : k - 1 < min (y - 1) (6 - x) := by omega
            refine ⟨by rw [hLlen]; omega, ?_, ?_, ?_⟩
            · intro j hj
              rw [hLget j (by omega)]
              have := hruncells (j + 1) (by omega)
              rwa [show y - (j + 1 + 1) = y - 2 - j by omega,
                show x + (j + 1 + 1) = x + 2 + j by omega] at this
            · rw [hLget (k - 1) hk16]
              rw [show y - 2 - (k - 1) = y - (k + 1) by omega,
                show x + 2 + (k - 1) = x + (k + 1) by omega]
              cases hov : opp.testBit ((y - (k + 1)) * 8 + (x + (k + 1))) with
              | false => rfl
              | true => exact absurd ⟨hPm, hov⟩ (hdb _)
            · rw [hLget (k - 1) hk16]
              rw [show y - 2 - (k - 1) = y - (k + 1) by omega,
                show x + 2 + (k - 1) = x + (k + 1) by omega]
              rw [hE _ (by omega), hPm]
              rfl
          rw [hsc] at hscan
          exact absurd hscan (by simp)
    · rw [dirDownLeft, if_neg hg]
      rw [show (none : Option (Nat × Nat)).isSome = false from rfl]
      cases hse : specEmptyAt mover opp x y with
      | false => rw [Bool.false_and]
      | true =>
        cases hsl : specLegalDir mover opp x y 1 (-1) with
        | false => rw [Bool.and_false]
        | true =>
          exfalso
          rcases hLegal.mp hsl with ⟨k, hk1, hk6, hP⟩
          rw [hRun] at hP
          obtain ⟨hP12, hP3⟩ := Bool.and_eq_true_iff.mp hP
          obtain ⟨-, hP2⟩ := Bool.and_eq_true_iff.mp hP12
          obtain ⟨hPb, -⟩ := Bool.and_eq_true_iff.mp hP3
          rw [decide_eq_true_iff] at hPb
          have hy2 : 2 ≤ y := by omega
          have hx2 : x + 2 < BOARD_SIZE := by rw [BOARD_SIZE]; omega
          have h0 := (List.all_eq_true.mp hP2) 0 (List.mem_range.mpr (by omega))
          have h0b := (Bool.and_eq_true_iff.mp h0).2
          rw [show y - (0 + 1) = y - 1 by omega, show x + (0 + 1) = x + 1 by omega] at h0b
          have hebit : empty.testBit (y * 8 + x) = true := by rw [← hEmp]; exact hse
          exact hg ⟨hy2, hx2, hmaskbit hy2 hx2 h0b hebit⟩
  · intro m ch hsome
    rw [dirDownLeft] at hsome
    by_cases hg : 2 ≤ y ∧ x + 2 < BOARD_SIZE ∧ (maskDownLeft empty opp).testBit (y * 8 + x)
    swap
    · rw [if_neg hg] at hsome
      exact absurd hsome (by simp)
    rw [if_pos hg] at hsome
    rcases Option.map_eq_some'.mp hsome with ⟨pos, hscan, hmch⟩
    have hm_eq : m = u64 (ANTI_DIAG_PATTERN <<< ((BOARD_SIZE - (pos + 2)) * 8)) >>>
        ((BOARD_SIZE - y - 1) * 8 + BOARD_SIZE - (x + (pos + 2))) := by
      have := congrArg Prod.fst hmch
      simpa using this.symm
    have hy2 : 2 ≤ y := hg.1
    have hx5 : x ≤ 5 := by have := hg.2.1; rw [BOARD_SIZE] at this; omega
    have hmask := hg.2.2
    rw [maskDownLeft, Nat.testBit_and, u64, Nat.testBit_mod_two_pow, Nat.testBit_shiftLeft]
      at hmask
    obtain ⟨hms1, hms2⟩ := Bool.and_eq_true_iff.mp hmask
    obtain ⟨-, hms3⟩ := Bool.and_eq_true_iff.mp hms2
    obtain ⟨-, hms4⟩ := Bool.and_eq_true_iff.mp hms3
    have hoppd1 : opp.testBit ((y - 1) * 8 + (x + 1)) = true := by
      rwa [show y * 8 + x - (BOARD_SIZE - 1) = (y - 1) * 8 + (x + 1) from by
        rw [BOARD_SIZE]; omega] at hms4
    rcases (scanRun_eq_some_iff opp empty _ pos).mp hscan with ⟨hp1, hp2, hp3, hp4⟩
    rw [hLlen] at hp1
    rw [hLget pos hp1] at hp3 hp4
    have hposy : pos + 2 ≤ y := by omega
    have hposx : x + pos + 2 ≤ 7 := by omega
    have hterm : mover.testBit ((y - 2 - pos) * 8 + (x + 2 + pos)) = true :=
      hMv _ (by omega) hp3 hp4
    have hrun : ∀ j, j < pos → opp.testBit ((y - 2 - j) * 8 + (x + 2 + j)) = true := by
      intro j hj
      have := hp2 j hj
      rwa [hLget j (by omega)] at this
    have hok : specRunOk mover opp x y 1 (-1) (pos + 1) = true := by
      rw [hRun]
      have h1 : decide (1 ≤ pos + 1) = true := by simp
      have h2 : (List.range (pos + 1)).all
          (fun j => decide (x + (j + 1) < 8 ∧ j + 1 ≤ y) &&
            opp.testBit ((y - (j + 1)) * 8 + (x + (j + 1)))) = true := by
        rw [List.all_eq_true]
        intro j hj
        rw [List.mem_range] at hj
        have hb : decide (x + (j + 1) < 8 ∧ j + 1 ≤ y) = true := by
          rw [decide_eq_true_iff]
          omega
        rw [hb, Bool.true_and]
        cases j with
        | zero => exact hoppd1
        | succ j =>
          rw [show y - (j + 1 + 1) = y - 2 - j by omega,
            show x + (j + 1 + 1) = x + 2 + j by omega]
          exact hrun j (by omega)
      have h3 : decide (x + (pos + 1 + 1) < 8 ∧ pos + 1 + 1 ≤ y) = true := by
        rw [decide_eq_true_iff]
        omega
      rw [h1, h2, h3, Bool.true_and, Bool.true_and, Bool.true_and]
      rw [show y - (pos + 1 + 1) = y - 2 - pos by omega,
        show x + (pos + 1 + 1) = x + 2 + pos by omega]
      exact hterm
    have huniq : ∀ q, specRunOk mover opp x y 1 (-1) q = true → q = pos + 1 := by
      intro q hq
      rw [hRun] at hq
      obtain ⟨hq12, hq3⟩ := Bool.and_eq_true_iff.mp hq
      obtain ⟨hq1, hq2⟩ := Bool.and_eq_true_iff.mp hq12
      rw [decide_eq_true_iff] at hq1
      obtain ⟨hqb, hqm⟩ := Bool.and_eq_true_iff.mp hq3
      rw [decide_eq_true_iff] at hqb
      have hqcells : ∀ j, j < q →
          opp.testBit ((y - (j + 1)) * 8 + (x + (j + 1))) = true := by
        intro j hj
        have := (List.all_eq_true.mp hq2) j (List.mem_range.mpr hj)
        exact (Bool.and_eq_true_iff.mp this).2
      by_contra hne
      rcases Nat.lt_or_ge q (pos + 1) with hlt | hge
      · have : opp.testBit ((y - (q + 1)) * 8 + (x + (q + 1))) = true := by
          cases hq0 : q with
          | zero => omega
          | succ q' =>
            rw [show y - (q' + 1 + 1) = y - 2 - q' by omega,
              show x + (q' + 1 + 1) = x + 2 + q' by omega]
            exact hrun q' (by omega)
        exact absurd ⟨hqm, this⟩ (hdb _)
      · have hlt2 : pos + 1 < q := by omega
        have := hqcells (pos + 1) (by omega)
        rw [show y - (pos + 1 + 1) = y - 2 - pos by omega,
          show x + (pos + 1 + 1) = x + 2 + pos by omega] at this
        exact absurd ⟨hterm, this⟩ (hdb _)
    have hlen : specRunLen mover opp x y 1 (-1) = pos + 1 := by
      rw [specRunLen]
      exact findSome_range6_unique (fun q => specRunOk mover opp x y 1 (-1) q) (pos + 1)
        (by omega) (by omega) hok huniq
    have hflips : ∀ i, (specFlipsDir mover opp x y 1 (-1)).testBit i =
        decide (∃ j, j < pos + 1 ∧ i = (y - (j + 1)) * 8 + (x + (j + 1))) := by
      intro i
      rw [specFlipsDir, hlen]
      have hf : ∀ j : Nat,
          ((y : Int) + ((j : Int) + 1) * (-1)).toNat * 8 + ((x : Int) + ((j : Int) + 1) * 1).toNat
            = (y - (j + 1)) * 8 + (x + (j + 1)) := by
        intro j
        omega
      simp only [hf]
      rw [foldl_or_bits]
      rw [Nat.zero_testBit, Bool.false_or]
    have hmbit : ∀ i, m.testBit i =
        decide (y * 8 + x ≤ i + 7 * (pos + 1) ∧ i ≤ y * 8 + x ∧ (y * 8 + x - i) % 7 = 0) := by
      intro i
      rw [hm_eq, BOARD_SIZE]
      exact downLeftStrip_testBit x y pos i hposy hposx hy
    constructor
    · intro i hbit
      rw [hmbit, decide_eq_true_iff] at hbit
      rcases Nat.lt_or_ge i (y * 8 + x) with h1 | h1
      · right; left
        rw [hflips, decide_eq_true_iff]
        exact ⟨(y * 8 + x - i) / 7 - 1, by omega, by omega⟩
      · left
        omega
    · intro i hi
      rw [hmbit, decide_eq_true_iff]
      rcases hi with rfl | hi
      · omega
      · rw [hflips, decide_eq_true_iff] at hi
        rcases hi with ⟨j, hj, rfl⟩
        omega

end Hammer

namespace Hammer

theorem dirUpLeft_spec (mover opp empty : Nat) (hm : mover < 2 ^ 64) (ho : opp < 2 ^ 64)
    (hdisj : mover &&& opp = 0) (hemp : empty = (2 ^ 64 - 1) ^^^ u64 (mover ||| opp))
    (x y : Nat) (hx : x < 8) (hy : y < 8) :
    ((dirUpLeft opp empty x y).isSome =
      (specEmptyAt mover opp x y && specLegalDir mover opp x y 1 1)) ∧
    (∀ m ch, dirUpLeft opp empty x y = some (m, ch) →
      (∀ i, m.testBit i = true →
        i = y * 8 + x ∨ (specFlipsDir mover opp x y 1 1).testBit i = true ∨
          mover.testBit i = true) ∧
      (∀ i, i = y * 8 + x ∨ (specFlipsDir mover opp x y 1 1).testBit i = true →
        m.testBit i = true)) := by
  have hdb : ∀ i, ¬(mover.testBit i = true ∧ opp.testBit i = true) := by
    intro i hi
    have hz : (mover &&& opp).testBit i = false := by rw [hdisj]; exact Nat.zero_testBit i
    rw [Nat.testBit_and, hi.1, hi.2] at hz
    simp at hz
  have hE : ∀ i, i < 64 → empty.testBit i = (!mover.testBit i && !opp.testBit i) := by
    intro i hi
    rw [hemp]
    exact testBit_empty mover opp i hi
  have hMv : ∀ i, i < 64 → opp.testBit i = false → empty.testBit i = false →
      mover.testBit i = true := by
    intro i hi h1 h2
    rw [hE i hi, h1] at h2
    cases hmv : mover.testBit i with
    | true => rfl
    | false => rw [hmv] at h2; simp at h2
  have hcell : ∀ (b : Nat) (m : Nat),
      specAt b ((x : Int) + ((m : Int) + 1) * 1) ((y : Int) + ((m : Int) + 1) * 1) =
        (decide (x + (m + 1) < 8 ∧ y + (m + 1) < 8) &&
          b.testBit ((y + (m + 1)) * 8 + (x + (m + 1)))) := by
    intro b m
    simp only [specAt]
    have harg : ((y : Int) + ((m : Int) + 1) * 1).toNat * 8 +
        ((x : Int) + ((m : Int) + 1) * 1).toNat = (y + (m + 1)) * 8 + (x + (m + 1)) := by
      omega
    have hdec : decide (0 ≤ (x : Int) + ((m : Int) + 1) * 1 ∧
        (x : Int) + ((m : Int) + 1) * 1 < 8 ∧
        0 ≤ (y : Int) + ((m : Int) + 1) * 1 ∧ (y : Int) + ((m : Int) + 1) * 1 < 8) =
        decide (x + (m + 1) < 8 ∧ y + (m + 1) < 8) := decide_eq_decide.mpr (by omega)
    rw [harg, hdec]
  have hRun : ∀ k : Nat, specRunOk mover opp x y 1 1 k =
      (decide (1 ≤ k) &&
        (List.range k).all
          (fun j => decide (x + (j + 1) < 8 ∧ y + (j + 1) < 8) &&
            opp.testBit ((y + (j + 1)) * 8 + (x + (j + 1)))) &&
        (decide (x + (k + 1) < 8 ∧ y + (k + 1) < 8) &&
          mover.testBit ((y + (k + 1)) * 8 + (x + (k + 1))))) := by
    intro k
    rw [specRunOk]
    have hall : (List.range k).all
          (fun j => specAt opp ((x : Int) + ((j : Int) + 1) * 1) ((y : Int) + ((j : Int) + 1) * 1))
        = (List.range k).all
          (fun j => decide (x + (j + 1) < 8 ∧ y + (j + 1) < 8) &&
            opp.testBit ((y + (j + 1)) * 8 + (x + (j + 1)))) :=
      all_congr_list _ _ _ (fun j _ => hcell opp j)
    rw [hall, hcell mover k]
  have hLegal : specLegalDir mover opp x y 1 1 = true ↔
      ∃ k, 1 ≤ k ∧ k ≤ 6 ∧ specRunOk mover opp x y 1 1 k = true := by
    rw [specLegalDir, List.any_eq_true]
    constructor
    · rintro ⟨i, hi, hP⟩
      rw [List.mem_range] at hi
      exact ⟨i + 1, by omega, by omega, hP⟩
    · rintro ⟨k, h1, h6, hP⟩
      refine ⟨k - 1, by rw [List.mem_range]; omega, ?_⟩
      rwa [show k - 1 + 1 = k by omega]
  have hEmp : specEmptyAt mover opp x y = empty.testBit (y * 8 + x) := by
    rw [specEmptyAt, specAt_natCoords, specAt_natCoords, hE (y * 8 + x) (by omega)]
    simp [hx, hy]
  have hLlen : ((List.range (min (6 - y) (6 - x))).map
      (fun j => (y + 2 + j) * 8 + (x + 2 + j))).length = min (6 - y) (6 - x) := by
    simp
  have hLget : ∀ j, j < min (6 - y) (6 - x) →
      ((List.range (min (6 - y) (6 - x))).map
        (fun j => (y + 2 + j) * 8 + (x + 2 + j))).getD j 0 = (y + 2 + j) * 8 + (x + 2 + j) := by
    intro j hj
    rw [List.getD_eq_getElem _ _ (by simpa using hj)]
    simp
  have hmaskbit : x + 2 < BOARD_SIZE → opp.testBit ((y + 1) * 8 + (x + 1)) = true →
      empty.testBit (y * 8 + x) = true →
      (maskUpLeft empty opp).testBit (y * 8 + x) = true := by
    intro hx2 hov he
    rw [maskUpLeft, Nat.testBit_and, he, Bool.true_and, Nat.testBit_shiftRight]
    rw [BOARD_SIZE] at hx2
    rwa [show BOARD_SIZE + 1 + (y * 8 + x) = (y + 1) * 8 + (x + 1) from by
      rw [BOARD_SIZE]; omega]
  constructor
  · by_cases hg : y + 2 < BOARD_SIZE ∧ x + 2 < BOARD_SIZE ∧
        (maskUpLeft empty opp).testBit (y * 8 + x)
    · rw [dirUpLeft, if_pos hg]
      have hy5 : y ≤ 5 := by have := hg.1; rw [BOARD_SIZE] at this; omega
      have hx5 : x ≤ 5 := by have := hg.2.1; rw [BOARD_SIZE] at this; omega
      have hmask := hg.2.2
      rw [maskUpLeft, Nat.testBit_and, Nat.testBit_shiftRight] at hmask
      obtain ⟨hms1, hms2⟩ := Bool.and_eq_true_iff.mp hmask
      have hoppd1 : opp.testBit ((y + 1) * 8 + (x + 1)) = true := by
        rwa [show BOARD_SIZE + 1 + (y * 8 + x) = (y + 1) * 8 + (x + 1) from by
          rw [BOARD_SIZE]; omega] at hms2
      rw [hEmp, hms1, Bool.true_and]
      cases hscan : scanRun opp empty ((List.range (min (6 - y) (6 - x))).map
          (fun j => (y + 2 + j) * 8 + (x + 2 + j))) with
      | some pos =>
        rcases (scanRun_eq_some_iff opp empty _ pos).mp hscan with ⟨hp1, hp2, hp3, hp4⟩
        rw [hLlen] at hp1
        rw [hLget pos hp1] at hp3 hp4
        have hterm : mover.testBit ((y + 2 + pos) * 8 + (x + 2 + pos)) = true :=
          hMv _ (by omega) hp3 hp4
        have hrun : ∀ j, j < pos → opp.testBit ((y + 2 + j) * 8 + (x + 2 + j)) = true := by
          intro j hj
          have := hp2 j hj
          rwa [hLget j (by omega)] at this
        have hok : specRunOk mover opp x y 1 1 (pos + 1) = true := by
          rw [hRun]
          have h1 : decide (1 ≤ pos + 1) = true := by simp
          have h2 : (List.range (pos + 1)).all
              (fun j => decide (x + (j + 1) < 8 ∧ y + (j + 1) < 8) &&
                opp.testBit ((y + (j + 1)) * 8 + (x + (j + 1)))) = true := by
            rw [List.all_eq_true]
            intro j hj
            rw [List.mem_range] at hj
            have hb : decide (x + (j + 1) < 8 ∧ y + (j + 1) < 8) = true := by
              rw [decide_eq_true_iff]
              omega
            rw [hb, Bool.true_and]
            cases j with
            | zero => exact hoppd1
            | succ j =>
              rw [show y + (j + 1 + 1) = y + 2 + j by omega,
                show x + (j + 1 + 1) = x + 2 + j by omega]
              exact hrun j (by omega)
          have h3 : decide (x + (pos + 1 + 1) < 8 ∧ y + (pos + 1 + 1) < 8) = true := by
            rw [decide_eq_true_iff]
            omega
          rw [h1, h2, h3, Bool.true_and, Bool.true_and, Bool.true_and]
          rw [show y + (pos + 1 + 1) = y + 2 + pos by omega,
            show x + (pos + 1 + 1) = x + 2 + pos by omega]
          exact hterm
        have : specLegalDir mover opp x y 1 1 = true :=
          hLegal.mpr ⟨pos + 1, by omega, by omega, hok⟩
        rw [this]
        rfl
      | none =>
        cases hsl : specLegalDir mover opp x y 1 1 with
        | false => rfl
        | true =>
          exfalso
          rcases hLegal.mp hsl with ⟨k, hk1, hk6, hP⟩
          rw [hRun] at hP
          obtain ⟨hP12, hP3⟩ := Bool.and_eq_true_iff.mp hP
          obtain ⟨-, hP2⟩ := Bool.and_eq_true_iff.mp hP12
          obtain ⟨hPb, hPm⟩ := Bool.and_eq_true_iff.mp hP3
          rw [decide_eq_true_iff] at hPb
          have hruncells : ∀ j, j < k →
              opp.testBit ((y + (j + 1)) * 8 + (x + (j + 1))) = true := by
            intro j hj
            have := (List.all_eq_true.mp hP2) j (List.mem_range.mpr hj)
            exact (Bool.and_eq_true_iff.mp this).2
          have hsc : scanRun opp empty ((List.range (min (6 - y) (6 - x))).map
              (fun j => (y + 2 + j) * 8 + (x + 2 + j))) = some (k - 1) := by
            rw [scanRun_eq_some_iff]
            have hk16 : k - 1 < min (6 - y) (6 - x) := by omega
            refine ⟨by rw [hLlen]; omega, ?_, ?_, ?_⟩
            · intro j hj
              rw [hLget j (by omega)]
              have := hruncells (j + 1) (by omega)
              rwa [show y + (j + 1 + 1) = y + 2 + j by omega,
                show x + (j + 1 + 1) = x + 2 + j by omega] at this
            · rw [hLget (k - 1) hk16]
              rw [show y + 2 + (k - 1) = y + (k + 1) by omega,
                show x + 2 + (k - 1) = x + (k + 1) by omega]
              cases hov : opp.testBit ((y + (k + 1)) * 8 + (x + (k + 1))) with
              | false => rfl
              | true => exact absurd ⟨hPm, hov⟩ (hdb _)
            · rw [hLget (k - 1) hk16]
              rw [show y + 2 + (k - 1) = y + (k + 1) by omega,
                show x + 2 + (k - 1) = x + (k + 1) by omega]
              rw [hE _ (by omega), hPm]
              rfl
          rw [hsc] at hscan
          exact absurd hscan (by simp)
    · rw [dirUpLeft, if_neg hg]
      rw [show (none : Option (Nat × Nat)).isSome = false from rfl]
      cases hse : specEmptyAt mover opp x y with
      | false => rw [Bool.false_and]
      | true =>
        cases hsl : specLegalDir mover opp x y 1 1 with
        | false => rw [Bool.and_false]
        | true =>
          exfalso
          rcases hLegal.mp hsl with ⟨k, hk1, hk6, hP⟩
          rw [hRun] at hP
          obtain ⟨hP12, hP3⟩ := Bool.and_eq_true_iff.mp hP
          obtain ⟨-, hP2⟩ := Bool.and_eq_true_iff.mp hP12
          obtain ⟨hPb, -⟩ := Bool.and_eq_true_iff.mp hP3
          rw [decide_eq_true_iff] at hPb
          have hy2 : y + 2 < BOARD_SIZE := by rw [BOARD_SIZE]; omega
          have hx2 : x + 2 < BOARD_SIZE := by rw [BOARD_SIZE]; omega
          have h0 := (List.all_eq_true.mp hP2) 0 (List.mem_range.mpr (by omega))
          have h0b := (Bool.and_eq_true_iff.mp h0).2
          rw [show y + (0 + 1) = y + 1 by omega, show x + (0 + 1) = x + 1 by omega] at h0b
          have hebit : empty.testBit (y * 8 + x) = true := by rw [← hEmp]; exact hse
          exact hg ⟨hy2, hx2, hmaskbit hx2 h0b hebit⟩
  · intro m ch hsome
    rw [dirUpLeft] at hsome
    by_cases hg : y + 2 < BOARD_SIZE ∧ x + 2 < BOARD_SIZE ∧
        (maskUpLeft empty opp).testBit (y * 8 + x)
    swap
    · rw [if_neg hg] at hsome
      exact absurd hsome (by simp)
    rw [if_pos hg] at hsome
    rcases Option.map_eq_some'.mp hsome with ⟨pos, hscan, hmch⟩
    have hm_eq : m = (MAIN_DIAG_PATTERN >>>
        ((BOARD_SIZE - (pos + 2)) * 8 + (BOARD_SIZE - (pos + 2)))) <<< (y * 8 + x) := by
      have := congrArg Prod.fst hmch
      simpa using this.symm
    have hy5 : y ≤ 5 := by have := hg.1; rw [BOARD_SIZE] at this; omega
    have hx5 : x ≤ 5 := by have := hg.2.1; rw [BOARD_SIZE] at this; omega
    have hmask := hg.2.2
    rw [maskUpLeft, Nat.testBit_and, Nat.testBit_shiftRight] at hmask
    obtain ⟨hms1, hms2⟩ := Bool.and_eq_true_iff.mp hmask
    have hoppd1 : opp.testBit ((y + 1) * 8 + (x + 1)) = true := by
      rwa [show BOARD_SIZE + 1 + (y * 8 + x) = (y + 1) * 8 + (x + 1) from by
        rw [BOARD_SIZE]; omega] at hms2
    rcases (scanRun_eq_some_iff opp empty _ pos).mp hscan with ⟨hp1, hp2, hp3, hp4⟩
    rw [hLlen] at hp1
    rw [hLget pos hp1] at hp3 hp4
    have hposy : y + pos + 2 ≤ 7 := by omega
    have hposx : x + pos + 2 ≤ 7 := by omega
    have hterm : mover.testBit ((y + 2 + pos) * 8 + (x + 2 + pos)) = true :=
      hMv _ (by omega) hp3 hp4
    have hrun : ∀ j, j < pos → opp.testBit ((y + 2 + j) * 8 + (x + 2 + j)) = true := by
      intro j hj
      have := hp2 j hj
      rwa [hLget j (by omega)] at this
    have hok : specRunOk mover opp x y 1 1 (pos + 1) = true := by
      rw [hRun]
      have h1 : decide (1 ≤ pos + 1) = true := by simp
      have h2 : (List.range (pos + 1)).all
          (fun j => decide (x + (j + 1) < 8 ∧ y + (j + 1) < 8) &&
            opp.testBit ((y + (j + 1)) * 8 + (x + (j + 1)))) = true := by
        rw [List.all_eq_true]
        intro j hj
        rw [List.mem_range] at hj
        have hb : decide (x + (j + 1) < 8 ∧ y + (j + 1) < 8) = true := by
          rw [decide_eq_true_iff]
          omega
        rw [hb, Bool.true_and]
        cases j with
        | zero => exact hoppd1
        | succ j =>
          rw [show y + (j + 1 + 1) = y + 2 + j by omega,
            show x + (j + 1 + 1) = x + 2 + j by omega]
          exact hrun j (by omega)
      have h3 : decide (x + (pos + 1 + 1) < 8 ∧ y + (pos + 1 + 1) < 8) = true := by
        rw [decide_eq_true_iff]
        omega
      rw [h1, h2, h3, Bool.true_and, Bool.true_and, Bool.true_and]
      rw [show y + (pos + 1 + 1) = y + 2 + pos by omega,
        show x + (pos + 1 + 1) = x + 2 + pos by omega]
      exact hterm
    have huniq : ∀ q, specRunOk mover opp x y 1 1 q = true → q = pos + 1 := by
      intro q hq
      rw [hRun] at hq
      obtain ⟨hq12, hq3⟩ := Bool.and_eq_true_iff.mp hq
      obtain ⟨hq1, hq2⟩ := Bool.and_eq_true_iff.mp hq12
      rw [decide_eq_true_iff] at hq1
      obtain ⟨hqb, hqm⟩ := Bool.and_eq_true_iff.mp hq3
      rw [decide_eq_true_iff] at hqb
      have hqcells : ∀ j, j < q →
          opp.testBit ((y + (j + 1)) * 8 + (x + (j + 1))) = true := by
        intro j hj
        have := (List.all_eq_true.mp hq2) j (List.mem_range.mpr hj)
        exact (Bool.and_eq_true_iff.mp this).2
      by_contra hne
      rcases Nat.lt_or_ge q (pos + 1) with hlt | hge
      · have : opp.testBit ((y + (q + 1)) * 8 + (x + (q + 1))) = true := by
          cases hq0 : q with
          | zero => omega
          | succ q' =>
            rw [show y + (q' + 1 + 1) = y + 2 + q' by omega,
              show x + (q' + 1 + 1) = x + 2 + q' by omega]
            exact hrun q' (by omega)
        exact absurd ⟨hqm, this⟩ (hdb _)
      · have hlt2 : pos + 1 < q := by omega
        have := hqcells (pos + 1) (by omega)
        rw [show y + (pos + 1 + 1) = y + 2 + pos by omega,
          show x + (pos + 1 + 1) = x + 2 + pos by omega] at this
        exact absurd ⟨hterm, this⟩ (hdb _)
    have hlen : specRunLen mover opp x y 1 1 = pos + 1 := by
      rw [specRunLen]
      exact findSome_range6_unique (fun q => specRunOk mover opp x y 1 1 q) (pos + 1)
        (by omega) (by omega) hok huniq
    have hflips : ∀ i, (specFlipsDir mover opp x y 1 1).testBit i =
        decide (∃ j, j < pos + 1 ∧ i = (y + (j + 1)) * 8 + (x + (j + 1))) := by
      intro i
      rw [specFlipsDir, hlen]
      have hf : ∀ j : Nat,
          ((y : Int) + ((j : Int) + 1) * 1).toNat * 8 + ((x : Int) + ((j : Int) + 1) * 1).toNat
            = (y + (j + 1)) * 8 + (x + (j + 1)) := by
        intro j
        omega
      simp only [hf]
      rw [foldl_or_bits]
      rw [Nat.zero_testBit, Bool.false_or]
    have hmbit : ∀ i, m.testBit i =
        decide (y * 8 + x ≤ i ∧ i ≤ y * 8 + x + 9 * (pos + 1) ∧ (i - (y * 8 + x)) % 9 = 0) := by
      intro i
      rw [hm_eq, BOARD_SIZE]
      exact upLeftStrip_testBit x y pos i hposx hposy
    constructor
    · intro i hbit
      rw [hmbit, decide_eq_true_iff] at hbit
      rcases Nat.lt_or_ge i (y * 8 + x + 1) with h1 | h1
      · left
        omega
      · right; left
        rw [hflips, decide_eq_true_iff]
        exact ⟨(i - (y * 8 + x)) / 9 - 1, by omega, by omega⟩
    · intro i hi
      rw [hmbit, decide_eq_true_iff]
      rcases hi with rfl | hi
      · omega
      · rw [hflips, decide_eq_true_iff] at hi
        rcases hi with ⟨j, hj, rfl⟩
        omega

end Hammer

namespace Hammer

theorem dirDownRight_spec (mover opp empty : Nat) (hm : mover < 2 ^ 64) (ho : opp < 2 ^ 64)
    (hdisj : mover &&& opp = 0) (hemp : empty = (2 ^ 64 - 1) ^^^ u64 (mover ||| opp))
    (x y : Nat) (hx : x < 8) (hy : y < 8) :
    ((dirDownRight opp empty x y).isSome =
      (specEmptyAt mover opp x y && specLegalDir mover opp x y (-1) (-1))) ∧
    (∀ m ch, dirDownRight opp empty x y = some (m, ch) →
      (∀ i, m.testBit i = true →
        i = y * 8 + x ∨ (specFlipsDir mover opp x y (-1) (-1)).testBit i = true ∨
          mover.testBit i = true) ∧
      (∀ i, i = y * 8 + x ∨ (specFlipsDir mover opp x y (-1) (-1)).testBit i = true →
        m.testBit i = true)) := by
  have hdb : ∀ i, ¬(mover.testBit i = true ∧ opp.testBit i = true) := by
    intro i hi
    have hz : (mover &&& opp).testBit i = false := by rw [hdisj]; exact Nat.zero_testBit i
    rw [Nat.testBit_and, hi.1, hi.2] at hz
    simp at hz
  have hE : ∀ i, i < 64 → empty.testBit i = (!mover.testBit i && !opp.testBit i) := by
    intro i hi
    rw [hemp]
    exact testBit_empty mover opp i hi
  have hMv : ∀ i, i < 64 → opp.testBit i = false → empty.testBit i = false →
      mover.testBit i = true := by
    intro i hi h1 h2
    rw [hE i hi, h1] at h2
    cases hmv : mover.testBit i with
    | true => rfl
    | false => rw [hmv] at h2; simp at h2
  have hcell : ∀ (b : Nat) (m : Nat),
      specAt b ((x : Int) + ((m : Int) + 1) * (-1)) ((y : Int) + ((m : Int) + 1) * (-1)) =
        (decide (m + 1 ≤ x ∧ m + 1 ≤ y) &&
          b.testBit ((y - (m + 1)) * 8 + (x - (m + 1)))) := by
    intro b m
    simp only [specAt]
    have harg : ((y : Int) + ((m : Int) + 1) * (-1)).toNat * 8 +
        ((x : Int) + ((m : Int) + 1) * (-1)).toNat = (y - (m + 1)) * 8 + (x - (m + 1)) := by
      omega
    have hdec : decide (0 ≤ (x : Int) + ((m : Int) + 1) * (-1) ∧
        (x : Int) + ((m : Int) + 1) * (-1) < 8 ∧
        0 ≤ (y : Int) + ((m : Int) + 1) * (-1) ∧ (y : Int) + ((m : Int) + 1) * (-1) < 8) =
        decide (m + 1 ≤ x ∧ m + 1 ≤ y) := decide_eq_decide.mpr (by omega)
    rw [harg, hdec]
  have hRun : ∀ k : Nat, specRunOk mover opp x y (-1) (-1) k =
      (decide (1 ≤ k) &&
        (List.range k).all
          (fun j => decide (j + 1 ≤ x ∧ j + 1 ≤ y) &&
            opp.testBit ((y - (j + 1)) * 8 + (x - (j + 1)))) &&
        (decide (k + 1 ≤ x ∧ k + 1 ≤ y) &&
          mover.testBit ((y - (k + 1)) * 8 + (x - (k + 1))))) := by
    intro k
    rw [specRunOk]
    have hall : (List.range k).all
          (fun j => specAt opp ((x : Int) + ((j : Int) + 1) * (-1)) ((y : Int) + ((j : Int) + 1) * (-1)))
        = (List.range k).all
          (fun j => decide (j + 1 ≤ x ∧ j + 1 ≤ y) &&
            opp.testBit ((y - (j + 1)) * 8 + (x - (j + 1)))) :=
      all_congr_list _ _ _ (fun j _ => hcell opp j)
    rw [hall, hcell mover k]
  have hLegal : specLegalDir mover opp x y (-1) (-1) = true ↔
      ∃ k, 1 ≤ k ∧ k ≤ 6 ∧ specRunOk mover opp x y (-1) (-1) k = true := by
    rw [specLegalDir, List.any_eq_true]
    constructor
    · rintro ⟨i, hi, hP⟩
      rw [List.mem_range] at hi
      exact ⟨i + 1, by omega, by omega, hP⟩
    · rintro ⟨k, h1, h6, hP⟩
      refine ⟨k - 1, by rw [List.mem_range]; omega, ?_⟩
      rwa [show k - 1 + 1 = k by omega]
  have hEmp : specEmptyAt mover opp x y = empty.testBit (y * 8 + x) := by
    rw [specEmptyAt, specAt_natCoords, specAt_natCoords, hE (y * 8 + x) (by omega)]
    simp [hx, hy]
  have hLlen : ((List.range (min (y - 1) (x - 1))).map
      (fun j => (y - 2 - j) * 8 + (x - 2 - j))).length = min (y - 1) (x - 1) := by
    simp
  have hLget : ∀ j, j < min (y - 1) (x - 1) →
      ((List.range (min (y - 1) (x - 1))).map
        (fun j => (y - 2 - j) * 8 + (x - 2 - j))).getD j 0 = (y - 2 - j) * 8 + (x - 2 - j) := by
    intro j hj
    rw [List.getD_eq_getElem _ _ (by simpa using hj)]
    simp
  have hmaskbit : 2 ≤ y → 2 ≤ x → opp.testBit ((y - 1) * 8 + (x - 1)) = true →
      empty.testBit (y * 8 + x) = true →
      (maskDownRight empty opp).testBit (y * 8 + x) = true := by
    intro hy2 hx2 hov he
    rw [maskDownRight, Nat.testBit_and, he, Bool.true_and, u64, Nat.testBit_mod_two_pow,
      Nat.testBit_shiftLeft]
    have h1 : decide (y * 8 + x < 64) = true := by rw [decide_eq_true_iff]; omega
    have h2 : decide (y * 8 + x ≥ BOARD_SIZE + 1) = true := by
      rw [decide_eq_true_iff, BOARD_SIZE]; omega
    rw [h1, h2, Bool.true_and, Bool.true_and,
      show y * 8 + x - (BOARD_SIZE + 1) = (y - 1) * 8 + (x - 1) from by rw [BOARD_SIZE]; omega]
    exact hov
  constructor
  · by_cases hg : 2 ≤ y ∧ 2 ≤ x ∧ (maskDownRight empty opp).testBit (y * 8 + x)
    · rw [dirDownRight, if_pos hg]
      have hy2 : 2 ≤ y := hg.1
      have hx2 : 2 ≤ x := hg.2.1
      have hmask := hg.2.2
      rw [maskDownRight, Nat.testBit_and, u64, Nat.testBit_mod_two_pow, Nat.testBit_shiftLeft]
        at hmask
      obtain ⟨hms1, hms2⟩ := Bool.and_eq_true_iff.mp hmask
      obtain ⟨-, hms3⟩ := Bool.and_eq_true_iff.mp hms2
      obtain ⟨-, hms4⟩ := Bool.and_eq_true_iff.mp hms3
      have hoppd1 : opp.testBit ((y - 1) * 8 + (x - 1)) = true := by
        rwa [show y * 8 + x - (BOARD_SIZE + 1) = (y - 1) * 8 + (x - 1) from by
          rw [BOARD_SIZE]; omega] at hms4
      rw [hEmp, hms1, Bool.true_and]
      cases hscan : scanRun opp empty ((List.range (min (y - 1) (x - 1))).map
          (fun j => (y - 2 - j) * 8 + (x - 2 - j))) with
      | some pos =>
        rcases (scanRun_eq_some_iff opp empty _ pos).mp hscan with ⟨hp1, hp2, hp3, hp4⟩
        rw [hLlen] at hp1
        rw [hLget pos hp1] at hp3 hp4
        have hterm : mover.testBit ((y - 2 - pos) * 8 + (x - 2 - pos)) = true :=
          hMv _ (by omega) hp3 hp4
        have hrun : ∀ j, j < pos → opp.testBit ((y - 2 - j) * 8 + (x - 2 - j)) = true := by
          intro j hj
          have := hp2 j hj
          rwa [hLget j (by omega)] at this
        have hok : specRunOk mover opp x y (-1) (-1) (pos + 1) = true := by
          rw [hRun]
          have h1 : decide (1 ≤ pos + 1) = true := by simp
          have h2 : (List.range (pos + 1)).all
              (fun j => decide (j + 1 ≤ x ∧ j + 1 ≤ y) &&
                opp.testBit ((y - (j + 1)) * 8 + (x - (j + 1)))) = true := by
            rw [List.all_eq_true]
            intro j hj
            rw [List.mem_range] at hj
            have hb : decide (j + 1 ≤ x ∧ j + 1 ≤ y) = true := by
              rw [decide_eq_true_iff]
              omega
            rw [hb, Bool.true_and]
            cases j with
            | zero => exact hoppd1
            | succ j =>
              rw [show y - (j + 1 + 1) = y - 2 - j by omega,
                show x - (j + 1 + 1) = x - 2 - j by omega]
              exact hrun j (by omega)
          have h3 : decide (pos + 1 + 1 ≤ x ∧ pos + 1 + 1 ≤ y) = true := by
            rw [decide_eq_true_iff]
            omega
          rw [h1, h2, h3, Bool.true_and, Bool.true_and, Bool.true_and]
          rw [show y - (pos + 1 + 1) = y - 2 - pos by omega,
            show x - (pos + 1 + 1) = x - 2 - pos by omega]
          exact hterm
        have : specLegalDir mover opp x y (-1) (-1) = true :=
          hLegal.mpr ⟨pos + 1, by omega, by omega, hok⟩
        rw [this]
        rfl
      | none =>
        cases hsl : specLegalDir mover opp x y (-1) (-1) with
        | false => rfl
        | true =>
          exfalso
          rcases hLegal.mp hsl with ⟨k, hk1, hk6, hP⟩
          rw [hRun] at hP
          obtain ⟨hP12, hP3⟩ := Bool.and_eq_true_iff.mp hP
          obtain ⟨-, hP2⟩ := Bool.and_eq_true_iff.mp hP12
          obtain ⟨hPb, hPm⟩ := Bool.and_eq_true_iff.mp hP3
          rw [decide_eq_true_iff] at hPb
          have hruncells : ∀ j, j < k →
              opp.testBit ((y - (j + 1)) * 8 + (x - (j + 1))) = true := by
            intro j hj
            have := (List.all_eq_true.mp hP2) j (List.mem_range.mpr hj)
            exact (Bool.and_eq_true_iff.mp this).2
          have hsc : scanRun opp empty ((List.range (min (y - 1) (x - 1))).map
              (fun j => (y - 2 - j) * 8 + (x - 2 - j))) = some (k - 1) := by
            rw [scanRun_eq_some_iff]
            have hk16 : k - 1 < min (y - 1) (x - 1) := by omega
            refine ⟨by rw [hLlen]; omega, ?_, ?_, ?_⟩
            · intro j hj
              rw [hLget j (by omega)]
              have := hruncells (j + 1) (by omega)
              rwa [show y - (j + 1 + 1) = y - 2 - j by omega,
                show x - (j + 1 + 1) = x - 2 - j by omega] at this
            · rw [hLget (k - 1) hk16]
              rw [show y - 2 - (k - 1) = y - (k + 1) by omega,
                show x - 2 - (k - 1) = x - (k + 1) by omega]
              cases hov : opp.testBit ((y - (k + 1)) * 8 + (x - (k + 1))) with
              | false => rfl
              | true => exact absurd ⟨hPm, hov⟩ (hdb _)
            · rw [hLget (k - 1) hk16]
              rw [show y - 2 - (k - 1) = y - (k + 1) by omega,
                show x - 2 - (k - 1) = x - (k + 1) by omega]
              rw [hE _ (by omega), hPm]
              rfl
          rw [hsc] at hscan
          exact absurd hscan (by simp)
    · rw [dirDownRight, if_neg hg]
      rw [show (none : Option (Nat × Nat)).isSome = false from rfl]
      cases hse : specEmptyAt mover opp x y with
      | false => rw [Bool.false_and]
      | true =>
        cases hsl : specLegalDir mover opp x y (-1) (-1) with
        | false => rw [Bool.and_false]
        | true =>
          exfalso
          rcases hLegal.mp hsl with ⟨k, hk1, hk6, hP⟩
          rw [hRun] at hP
          obtain ⟨hP12, hP3⟩ := Bool.and_eq_true_iff.mp hP
          obtain ⟨-, hP2⟩ := Bool.and_eq_true_iff.mp hP12
          obtain ⟨hPb, -⟩ := Bool.and_eq_true_iff.mp hP3
          rw [decide_eq_true_iff] at hPb
          have hy2 : 2 ≤ y := by omega
          have hx2 : 2 ≤ x := by omega
          have h0 := (List.all_eq_true.mp hP2) 0 (List.mem_range.mpr (by omega))
          have h0b := (Bool.and_eq_true_iff.mp h0).2
          rw [show y - (0 + 1) = y - 1 by omega, show x - (0 + 1) = x - 1 by omega] at h0b
          have hebit : empty.testBit (y * 8 + x) = true := by rw [← hEmp]; exact hse
          exact hg ⟨hy2, hx2, hmaskbit hy2 hx2 h0b hebit⟩
  · intro m ch hsome
    rw [dirDownRight] at hsome
    by_cases hg : 2 ≤ y ∧ 2 ≤ x ∧ (maskDownRight empty opp).testBit (y * 8 + x)
    swap
    · rw [if_neg hg] at hsome
      exact absurd hsome (by simp)
    rw [if_pos hg] at hsome
    rcases Option.map_eq_some'.mp hsome with ⟨pos, hscan, hmch⟩
    have hm_eq : m = u64 (MAIN_DIAG_PATTERN <<<
        ((BOARD_SIZE - (pos + 2)) * 8 + (BOARD_SIZE - (pos + 2)))) >>>
        ((BOARD_SIZE - y - 1) * 8 + (BOARD_SIZE - x - 1)) := by
      have := congrArg Prod.fst hmch
      simpa using this.symm
    have hy2 : 2 ≤ y := hg.1
    have hx2 : 2 ≤ x := hg.2.1
    have hmask := hg.2.2
    rw [maskDownRight, Nat.testBit_and, u64, Nat.testBit_mod_two_pow, Nat.testBit_shiftLeft]
      at hmask
    obtain ⟨hms1, hms2⟩ := Bool.and_eq_true_iff.mp hmask
    obtain ⟨-, hms3⟩ := Bool.and_eq_true_iff.mp hms2
    obtain ⟨-, hms4⟩ := Bool.and_eq_true_iff.mp hms3
    have hoppd1 : opp.testBit ((y - 1) * 8 + (x - 1)) = true := by
      rwa [show y * 8 + x - (BOARD_SIZE + 1) = (y - 1) * 8 + (x - 1) from by
        rw [BOARD_SIZE]; omega] at hms4
    rcases (scanRun_eq_some_iff opp empty _ pos).mp hscan with ⟨hp1, hp2, hp3, hp4⟩
    rw [hLlen] at hp1
    rw [hLget pos hp1] at hp3 hp4
    have hposy : pos + 2 ≤ y := by omega
    have hposx : pos + 2 ≤ x := by omega
    have hterm : mover.testBit ((y - 2 - pos) * 8 + (x - 2 - pos)) = true :=
      hMv _ (by omega) hp3 hp4
    have hrun : ∀ j, j < pos → opp.testBit ((y - 2 - j) * 8 + (x - 2 - j)) = true := by
      intro j hj
      have := hp2 j hj
      rwa [hLget j (by omega)] at this
    have hok : specRunOk mover opp x y (-1) (-1) (pos + 1) = true := by
      rw [hRun]
      have h1 : decide (1 ≤ pos + 1) = true := by simp
      have h2 : (List.range (pos + 1)).all
          (fun j => decide (j + 1 ≤ x ∧ j + 1 ≤ y) &&
            opp.testBit ((y - (j + 1)) * 8 + (x - (j + 1)))) = true := by
        rw [List.all_eq_true]
        intro j hj
        rw [List.mem_range] at hj
        have hb : decide (j + 1 ≤ x ∧ j + 1 ≤ y) = true := by
          rw [decide_eq_true_iff]
          omega
        rw [hb, Bool.true_and]
        cases j with
        | zero => exact hoppd1
        | succ j =>
          rw [show y - (j + 1 + 1) = y - 2 - j by omega,
            show x - (j + 1 + 1) = x - 2 - j by omega]
          exact hrun j (by omega)
      have h3 : decide (pos + 1 + 1 ≤ x ∧ pos + 1 + 1 ≤ y) = true := by
        rw [decide_eq_true_iff]
        omega
      rw [h1, h2, h3, Bool.true_and, Bool.true_and, Bool.true_and]
      rw [show y - (pos + 1 + 1) = y - 2 - pos by omega,
        show x - (pos + 1 + 1) = x - 2 - pos by omega]
      exact hterm
    have huniq : ∀ q, specRunOk mover opp x y (-1) (-1) q = true → q = pos + 1 := by
      intro q hq
      rw [hRun] at hq
      obtain ⟨hq12, hq3⟩ := Bool.and_eq_true_iff.mp hq
      obtain ⟨hq1, hq2⟩ := Bool.and_eq_true_iff.mp hq12
      rw [decide_eq_true_iff] at hq1
      obtain ⟨hqb, hqm⟩ := Bool.and_eq_true_iff.mp hq3
      rw [decide_eq_true_iff] at hqb
      have hqcells : ∀ j, j < q →
          opp.testBit ((y - (j + 1)) * 8 + (x - (j + 1))) = true := by
        intro j hj
        have := (List.all_eq_true.mp hq2) j (List.mem_range.mpr hj)
        exact (Bool.and_eq_true_iff.mp this).2
      by_contra hne
      rcases Nat.lt_or_ge q (pos + 1) with hlt | hge
      · have : opp.testBit ((y - (q + 1)) * 8 + (x - (q + 1))) = true := by
          cases hq0 : q with
          | zero => omega
          | succ q' =>
            rw [show y - (q' + 1 + 1) = y - 2 - q' by omega,
              show x - (q' + 1 + 1) = x - 2 - q' by omega]
            exact hrun q' (by omega)
        exact absurd ⟨hqm, this⟩ (hdb _)
      · have hlt2 : pos + 1 < q := by omega
        have := hqcells (pos + 1) (by omega)
        rw [show y - (pos + 1 + 1) = y - 2 - pos by omega,
          show x - (pos + 1 + 1) = x - 2 - pos by omega] at this
        exact absurd ⟨hterm, this⟩ (hdb _)
    have hlen : specRunLen mover opp x y (-1) (-1) = pos + 1 := by
      rw [specRunLen]
      exact findSome_range6_unique (fun q => specRunOk mover opp x y (-1) (-1) q) (pos + 1)
        (by omega) (by omega) hok huniq
    have hflips : ∀ i, (specFlipsDir mover opp x y (-1) (-1)).testBit i =
        decide (∃ j, j < pos + 1 ∧ i = (y - (j + 1)) * 8 + (x - (j + 1))) := by
      intro i
      rw [specFlipsDir, hlen]
      have hf : ∀ j : Nat,
          ((y : Int) + ((j : Int) + 1) * (-1)).toNat * 8 + ((x : Int) + ((j : Int) + 1) * (-1)).toNat
            = (y - (j + 1)) * 8 + (x - (j + 1)) := by
        intro j
        omega
      simp only [hf]
      rw [foldl_or_bits]
      rw [Nat.zero_testBit, Bool.false_or]
    have hmbit : ∀ i, m.testBit i =
        decide (y * 8 + x ≤ i + 9 * (pos + 1) ∧ i ≤ y * 8 + x ∧ (y * 8 + x - i) % 9 = 0) := by
      intro i
      rw [hm_eq, BOARD_SIZE]
      exact downRightStrip_testBit x y pos i hposy hposx hy hx
    constructor
    · intro i hbit
      rw [hmbit, decide_eq_true_iff] at hbit
      rcases Nat.lt_or_ge i (y * 8 + x) with h1 | h1
      · right; left
        rw [hflips, decide_eq_true_iff]
        exact ⟨(y * 8 + x - i) / 9 - 1, by omega, by omega⟩
      · left
        omega
    · intro i hi
      rw [hmbit, decide_eq_true_iff]
      rcases hi with rfl | hi
      · omega
      · rw [hflips, decide_eq_true_iff] at hi
        rcases hi with ⟨j, hj, rfl⟩
        omega

end Hammer

namespace Hammer

theorem specFlipsDir_zero (mover opp : Nat) (x y dx dy : Int)
    (h : specLegalDir mover opp x y dx dy = false) :
    specFlipsDir mover opp x y dx dy = 0 := by
  have hlen : specRunLen mover opp x y dx dy = 0 := by
    rw [specRunLen]
    have hnone : (List.range 6).findSome?
        (fun i => if specRunOk mover opp x y dx dy (i + 1) then some (i + 1) else none)
          = none := by
      rw [List.findSome?_eq_none_iff]
      intro i hi
      rw [specLegalDir, List.any_eq_false] at h
      have := h i hi
      simp only [Bool.not_eq_true] at this
      rw [this]
      rfl
    rw [hnone]
    rfl
  rw [specFlipsDir, hlen]
  rfl

theorem foldDirs_spec (x y : Nat) : ∀ (ds : List (Option (Nat × Nat))) (f : Bool)
    (p o : Nat) (v : Int),
    ((foldDirs x y ds (f, p, o, v)).1 = (f || ds.any (fun od => od.isSome))) ∧
    (∀ i, (foldDirs x y ds (f, p, o, v)).2.1.testBit i =
      (p.testBit i || ds.any (fun od => (dirMask od).testBit i))) ∧
    (∀ i, i < 64 → (foldDirs x y ds (f, p, o, v)).2.2.1.testBit i =
      (o.testBit i && !(ds.any (fun od => (dirMask od).testBit i)))) := by
  intro ds
  induction ds with
  | nil =>
    intro f p o v
    refine ⟨by simp [foldDirs], fun i => by simp [foldDirs, dirMask], fun i hi => by
      simp [foldDirs, dirMask]⟩
  | cons hd tl ih =>
    intro f p o v
    cases hd with
    | none =>
      rcases ih f p o v with ⟨ih1, ih2, ih3⟩
      refine ⟨?_, fun i => ?_, fun i hi => ?_⟩
      · rw [show foldDirs x y (none :: tl) (f, p, o, v) = foldDirs x y tl (f, p, o, v)
          from rfl, ih1]
        simp
      · rw [show foldDirs x y (none :: tl) (f, p, o, v) = foldDirs x y tl (f, p, o, v)
          from rfl, ih2 i]
        simp [dirMask]
      · rw [show foldDirs x y (none :: tl) (f, p, o, v) = foldDirs x y tl (f, p, o, v)
          from rfl, ih3 i hi]
        simp [dirMask]
    | some mc =>
      rcases mc with ⟨mk, ch⟩
      rcases ih true (p ||| mk) (o &&& not64 mk)
        (i16 (v + ((ch : Int) + boardValue x y))) with ⟨ih1, ih2, ih3⟩
      refine ⟨?_, fun i => ?_, fun i hi => ?_⟩
      · rw [show foldDirs x y (some (mk, ch) :: tl) (f, p, o, v) = foldDirs x y tl
          (true, p ||| mk, o &&& not64 mk, i16 (v + ((ch : Int) + boardValue x y)))
          from rfl, ih1]
        simp
      · rw [show foldDirs x y (some (mk, ch) :: tl) (f, p, o, v) = foldDirs x y tl
          (true, p ||| mk, o &&& not64 mk, i16 (v + ((ch : Int) + boardValue x y)))
          from rfl, ih2 i, Nat.testBit_or]
        simp [dirMask, Bool.or_assoc]
      · rw [show foldDirs x y (some (mk, ch) :: tl) (f, p, o, v) = foldDirs x y tl
          (true, p ||| mk, o &&& not64 mk, i16 (v + ((ch : Int) + boardValue x y)))
          from rfl, ih3 i hi, Nat.testBit_and, testBit_not64_lo mk i hi]
        simp [dirMask, Bool.and_assoc]

end Hammer


namespace Hammer

theorem cellOutcome_spec (mover opp empty : Nat) (hm : mover < 2 ^ 64)
    (ho : opp < 2 ^ 64) (hdisj : mover &&& opp = 0)
    (hemp : empty = (2 ^ 64 - 1) ^^^ u64 (mover ||| opp))
    (x y : Nat) (hx : x < 8) (hy : y < 8) :
    ((cellOutcome mover opp empty x y).isSome = specLegal mover opp x y) ∧
    (∀ c, cellOutcome mover opp empty x y = some c →
      c.x = x ∧ c.y = y ∧
      (∀ i, c.player.testBit i =
        (decide (i = y * 8 + x) || (specFlips mover opp x y).testBit i ||
          mover.testBit i)) ∧
      (∀ i, i < 64 → c.opponent.testBit i =
        (opp.testBit i && !(specFlips mover opp x y).testBit i))) := by
  have HL1 := dirLeft_spec mover opp empty hm ho hdisj hemp x y hx hy
  have HL2 := dirRight_spec mover opp empty hm ho hdisj hemp x y hx hy
  have HL3 := dirUp_spec mover opp empty hm ho hdisj hemp x y hx hy
  have HL4 := dirDown_spec mover opp empty hm ho hdisj hemp x y hx hy
  have HL5 := dirUpRight_spec mover opp empty hm ho hdisj hemp x y hx hy
  have HL6 := dirDownLeft_spec mover opp empty hm ho hdisj hemp x y hx hy
  have HL7 := dirUpLeft_spec mover opp empty hm ho hdisj hemp x y hx hy
  have HL8 := dirDownRight_spec mover opp empty hm ho hdisj hemp x y hx hy
  obtain ⟨hfl, hp, hoo⟩ := Hammer.foldDirs_spec x y
    [dirLeft opp empty x y, dirRight opp empty x y, dirUp opp empty x y, dirDown opp empty x y, dirUpRight opp empty x y, dirDownLeft opp empty x y, dirUpLeft opp empty x y, dirDownRight opp empty x y] false mover opp 1
  have hdb : ∀ i, ¬(mover.testBit i = true ∧ opp.testBit i = true) := by
    intro i hi
    have hz : (mover &&& opp).testBit i = false := by rw [hdisj]; exact Nat.zero_testBit i
    rw [Nat.testBit_and, hi.1, hi.2] at hz
    simp at hz
  have hflag :
      ([dirLeft opp empty x y, dirRight opp empty x y, dirUp opp empty x y, dirDown opp empty x y, dirUpRight opp empty x y, dirDownLeft opp empty x y, dirUpLeft opp empty x y, dirDownRight opp empty x y].any (fun od => od.isSome))
      = specLegal mover opp x y := by
    have hany :
        ([dirLeft opp empty x y, dirRight opp empty x y, dirUp opp empty x y, dirDown opp empty x y, dirUpRight opp empty x y, dirDownLeft opp empty x y, dirUpLeft opp empty x y, dirDownRight opp empty x y].any (fun od => od.isSome)) =
        ((dirLeft opp empty x y).isSome ||
          ((dirRight opp empty x y).isSome ||
          ((dirUp opp empty x y).isSome ||
          ((dirDown opp empty x y).isSome ||
          ((dirUpRight opp empty x y).isSome ||
          ((dirDownLeft opp empty x y).isSome ||
          ((dirUpLeft opp empty x y).isSome ||
          (dirDownRight opp empty x y).isSome))))))) := by
      simp [List.any_cons, List.any_nil]
    rw [hany, HL1.1, HL2.1, HL3.1, HL4.1, HL5.1, HL6.1, HL7.1, HL8.1, specLegal]
    have hda : specDirections.any (fun d => specLegalDir mover opp x y d.1 d.2) =
        (specLegalDir mover opp x y 1 0 ||
          (specLegalDir mover opp x y (-1) 0 ||
          (specLegalDir mover opp x y 0 1 ||
          (specLegalDir mover opp x y 0 (-1) ||
          (specLegalDir mover opp x y (-1) 1 ||
          (specLegalDir mover opp x y 1 (-1) ||
          (specLegalDir mover opp x y 1 1 ||
          specLegalDir mover opp x y (-1) (-1)))))))) := by
      simp [specDirections, List.any_cons, List.any_nil]
    rw [hda]
    cases hEb : specEmptyAt mover opp x y <;> simp
  have ha : (cellOutcome mover opp empty x y).isSome = specLegal mover opp x y := by
    rcases hfd : foldDirs x y [dirLeft opp empty x y, dirRight opp empty x y, dirUp opp empty x y, dirDown opp empty x y, dirUpRight opp empty x y, dirDownLeft opp empty x y, dirUpLeft opp empty x y, dirDownRight opp empty x y] (false, mover, opp, 1) with ⟨fl, p, o, v⟩
    have hfl2 : fl = specLegal mover opp x y := by
      have h := hfl
      rw [hfd] at h
      have h2 : fl = (false || [dirLeft opp empty x y, dirRight opp empty x y, dirUp opp empty x y, dirDown opp empty x y, dirUpRight opp empty x y, dirDownLeft opp empty x y, dirUpLeft opp empty x y, dirDownRight opp empty x y].any (fun od => od.isSome)) := h
      rw [Bool.false_or] at h2
      rw [h2, hflag]
    have hiso : (cellOutcome mover opp empty x y).isSome = fl := by
      simp only [cellOutcome]
      rw [hfd]
      cases fl <;> rfl
    rw [hiso, hfl2]
  refine ⟨ha, ?_⟩
  intro c hc
  have hleg : specLegal mover opp x y = true := by
    rw [← ha, hc]
    rfl
  have hEb : specEmptyAt mover opp x y = true := by
    rw [specLegal] at hleg
    exact (Bool.and_eq_true_iff.mp hleg).1
  have hoppidx : opp.testBit (y * 8 + x) = false := by
    have h2 := hEb
    rw [specEmptyAt, specAt_natCoords, specAt_natCoords] at h2
    have hbnd : decide (x < 8 ∧ y < 8) = true := by
      rw [decide_eq_true_iff]
      exact ⟨hx, hy⟩
    rw [hbnd] at h2
    simp at h2
    exact h2.2
  rcases hfd : foldDirs x y [dirLeft opp empty x y, dirRight opp empty x y, dirUp opp empty x y, dirDown opp empty x y, dirUpRight opp empty x y, dirDownLeft opp empty x y, dirUpLeft opp empty x y, dirDownRight opp empty x y] (false, mover, opp, 1) with ⟨fl, p, o, v⟩
  have hcform : cellOutcome mover opp empty x y = (match (fl, p, o, v) with
      | (true, p, o, v) => some ⟨x, y, p, o, v⟩
      | (false, _, _, _) => none) := by
    simp only [cellOutcome]
    rw [hfd]
  cases fl with
  | false =>
    rw [hcform] at hc
    exact absurd hc (by simp)
  | true =>
    rw [hcform] at hc
    have hceq : c = ⟨x, y, p, o, v⟩ := (Option.some.inj hc).symm
    subst hceq
    have hpbits : ∀ i, p.testBit i = (mover.testBit i ||
        ([dirLeft opp empty x y, dirRight opp empty x y, dirUp opp empty x y, dirDown opp empty x y, dirUpRight opp empty x y, dirDownLeft opp empty x y, dirUpLeft opp empty x y, dirDownRight opp empty x y].any (fun od => (dirMask od).testBit i))) := by
      intro i
      have h := hp i
      rw [hfd] at h
      exact h
    have hobits : ∀ i, i < 64 → o.testBit i = (opp.testBit i &&
        !([dirLeft opp empty x y, dirRight opp empty x y, dirUp opp empty x y, dirDown opp empty x y, dirUpRight opp empty x y, dirDownLeft opp empty x y, dirUpLeft opp empty x y, dirDownRight opp empty x y].any (fun od => (dirMask od).testBit i))) := by
      intro i hi
      have h := hoo i hi
      rw [hfd] at h
      exact h
    have HP1 : ∀ i, (dirMask (dirLeft opp empty x y)).testBit i = true →
        i = y * 8 + x ∨ (specFlipsDir mover opp x y 1 0).testBit i = true ∨
          mover.testBit i = true := by
      rcases h1 : dirLeft opp empty x y with - | ⟨m1, c1⟩
      · intro i hi
        simp [dirMask] at hi
      · intro i hi
        simp only [dirMask] at hi
        exact (HL1.2 m1 c1 h1).1 i hi
    have HQ1 : ∀ i, (specFlipsDir mover opp x y 1 0).testBit i = true →
        (dirMask (dirLeft opp empty x y)).testBit i = true := by
      rcases h1 : dirLeft opp empty x y with - | ⟨m1, c1⟩
      · intro i hi
        exfalso
        have hL : specLegalDir mover opp x y 1 0 = false := by
          have hA := HL1.1
          rw [h1, hEb, Bool.true_and] at hA
          exact hA.symm
        rw [specFlipsDir_zero mover opp x y 1 0 hL] at hi
        simp at hi
      · intro i hi
        simp only [dirMask]
        exact (HL1.2 m1 c1 h1).2 i (Or.inr hi)
    have HP2 : ∀ i, (dirMask (dirRight opp empty x y)).testBit i = true →
        i = y * 8 + x ∨ (specFlipsDir mover opp x y (-1) 0).testBit i = true ∨
          mover.testBit i = true := by
      rcases h1 : dirRight opp empty x y with - | ⟨m2, c2⟩
      · intro i hi
        simp [dirMask] at hi
      · intro i hi
        simp only [dirMask] at hi
        exact (HL2.2 m2 c2 h1).1 i hi
    have HQ2 : ∀ i, (specFlipsDir mover opp x y (-1) 0).testBit i = true →
        (dirMask (dirRight opp empty x y)).testBit i = true := by
      rcases h1 : dirRight opp empty x y with - | ⟨m2, c2⟩
      · intro i hi
        exfalso
        have hL : specLegalDir mover opp x y (-1) 0 = false := by
          have hA := HL2.1
          rw [h1, hEb, Bool.true_and] at hA
          exact hA.symm
        rw [specFlipsDir_zero mover opp x y (-1) 0 hL] at hi
        simp at hi
      · intro i hi
        simp only [dirMask]
        exact (HL2.2 m2 c2 h1).2 i (Or.inr hi)
    have HP3 : ∀ i, (dirMask (dirUp opp empty x y)).testBit i = true →
        i = y * 8 + x ∨ (specFlipsDir mover opp x y 0 1).testBit i = true ∨
          mover.testBit i = true := by
      rcases h1 : dirUp opp empty x y with - | ⟨m3, c3⟩
      · intro i hi
        simp [dirMask] at hi
      · intro i hi
        simp only [dirMask] at hi
        exact (HL3.2 m3 c3 h1).1 i hi
    have HQ3 : ∀ i, (specFlipsDir mover opp x y 0 1).testBit i = true →
        (dirMask (dirUp opp empty x y)).testBit i = true := by
      rcases h1 : dirUp opp empty x y with - | ⟨m3, c3⟩
      · intro i hi
        exfalso
        have hL : specLegalDir mover opp x y 0 1 = false := by
          have hA := HL3.1
          rw [h1, hEb, Bool.true_and] at hA
          exact hA.symm
        rw [specFlipsDir_zero mover opp x y 0 1 hL] at hi
        simp at hi
      · intro i hi
        simp only [dirMask]
        exact (HL3.2 m3 c3 h1).2 i (Or.inr hi)
    have HP4 : ∀ i, (dirMask (dirDown opp empty x y)).testBit i = true →
        i = y * 8 + x ∨ (specFlipsDir mover opp x y 0 (-1)).testBit i = true ∨
          mover.testBit i = true := by
      rcases h1 : dirDown opp empty x y with - | ⟨m4, c4⟩
      · intro i hi
        simp [dirMask] at hi
      · intro i hi
        simp only [dirMask] at hi
        exact (HL4.2 m4 c4 h1).1 i hi
    have HQ4 : ∀ i, (specFlipsDir mover opp x y 0 (-1)).testBit i = true →
        (dirMask (dirDown opp empty x y)).testBit i = true := by
      rcases h1 : dirDown opp empty x y with - | ⟨m4, c4⟩
      · intro i hi
        exfalso
        have hL : specLegalDir mover opp x y 0 (-1) = false := by
          have hA := HL4.1
          rw [h1, hEb, Bool.true_and] at hA
          exact hA.symm
        rw [specFlipsDir_zero mover opp x y 0 (-1) hL] at hi
        simp at hi
      · intro i hi
        simp only [dirMask]
        exact (HL4.2 m4 c4 h1).2 i (Or.inr hi)
    have HP5 : ∀ i, (dirMask (dirUpRight opp empty x y)).testBit i = true →
        i = y * 8 + x ∨ (specFlipsDir mover opp x y (-1) 1).testBit i = true ∨
          mover.testBit i = true := by
      rcases h1 : dirUpRight opp empty x y with - | ⟨m5, c5⟩
      · intro i hi
        simp [dirMask] at hi
      · intro i hi
        simp only [dirMask] at hi
        exact (HL5.2 m5 c5 h1).1 i hi
    have HQ5 : ∀ i, (specFlipsDir mover opp x y (-1) 1).testBit i = true →
        (dirMask (dirUpRight opp empty x y)).testBit i = true := by
      rcases h1 : dirUpRight opp empty x y with - | ⟨m5, c5⟩
      · intro i hi
        exfalso
        have hL : specLegalDir mover opp x y (-1) 1 = false := by
          have hA := HL5.1
          rw [h1, hEb, Bool.true_and] at hA
          exact hA.symm
        rw [specFlipsDir_zero mover opp x y (-1) 1 hL] at hi
        simp at hi
      · intro i hi
        simp only [dirMask]
        exact (HL5.2 m5 c5 h1).2 i (Or.inr hi)
    have HP6 : ∀ i, (dirMask (dirDownLeft opp empty x y)).testBit i = true →
        i = y * 8 + x ∨ (specFlipsDir mover opp x y 1 (-1)).testBit i = true ∨
          mover.testBit i = true := by
      rcases h1 : dirDownLeft opp empty x y with - | ⟨m6, c6⟩
      · intro i hi
        simp [dirMask] at hi
      · intro i hi
        simp only [dirMask] at hi
        exact (HL6.2 m6 c6 h1).1 i hi
    have HQ6 : ∀ i, (specFlipsDir mover opp x y 1 (-1)).testBit i = true →
        (dirMask (dirDownLeft opp empty x y)).testBit i = true := by
      rcases h1 : dirDownLeft opp empty x y with - | ⟨m6, c6⟩
      · intro i hi
        exfalso
        have hL : specLegalDir mover opp x y 1 (-1) = false := by
          have hA := HL6.1
          rw [h1, hEb, Bool.true_and] at hA
          exact hA.symm
        rw [specFlipsDir_zero mover opp x y 1 (-1) hL] at hi
        simp at hi
      · intro i hi
        simp only [dirMask]
        exact (HL6.2 m6 c6 h1).2 i (Or.inr hi)
    have HP7 : ∀ i, (dirMask (dirUpLeft opp empty x y)).testBit i = true →
        i = y * 8 + x ∨ (specFlipsDir mover opp x y 1 1).testBit i = true ∨
          mover.testBit i = true := by
      rcases h1 : dirUpLeft opp empty x y with - | ⟨m7, c7⟩
      · intro i hi
        simp [dirMask] at hi
      · intro i hi
        simp only [dirMask] at hi
        exact (HL7.2 m7 c7 h1).1 i hi
    have HQ7 : ∀ i, (specFlipsDir mover opp x y 1 1).testBit i = true →
        (dirMask (dirUpLeft opp empty x y)).testBit i = true := by
      rcases h1 : dirUpLeft opp empty x y with - | ⟨m7, c7⟩
      · intro i hi
        exfalso
        have hL : specLegalDir mover opp x y 1 1 = false := by
          have hA := HL7.1
          rw [h1, hEb, Bool.true_and] at hA
          exact hA.symm
        rw [specFlipsDir_zero mover opp x y 1 1 hL] at hi
        simp at hi
      · intro i hi
        simp only [dirMask]
        exact (HL7.2 m7 c7 h1).2 i (Or.inr hi)
    have HP8 : ∀ i, (dirMask (dirDownRight opp empty x y)).testBit i = true →
        i = y * 8 + x ∨ (specFlipsDir mover opp x y (-1) (-1)).testBit i = true ∨
          mover.testBit i = true := by
      rcases h1 : dirDownRight opp empty x y with - | ⟨m8, c8⟩
      · intro i hi
        simp [dirMask] at hi
      · intro i hi
        simp only [dirMask] at hi
        exact (HL8.2 m8 c8 h1).1 i hi
    have HQ8 : ∀ i, (specFlipsDir mover opp x y (-1) (-1)).testBit i = true →
        (dirMask (dirDownRight opp empty x y)).testBit i = true := by
      rcases h1 : dirDownRight opp empty x y with - | ⟨m8, c8⟩
      · intro i hi
        exfalso
        have hL : specLegalDir mover opp x y (-1) (-1) = false := by
          have hA := HL8.1
          rw [h1, hEb, Bool.true_and] at hA
          exact hA.symm
        rw [specFlipsDir_zero mover opp x y (-1) (-1) hL] at hi
        simp at hi
      · intro i hi
        simp only [dirMask]
        exact (HL8.2 m8 c8 h1).2 i (Or.inr hi)
    have hU : ([dirLeft opp empty x y, dirRight opp empty x y, dirUp opp empty x y, dirDown opp empty x y, dirUpRight opp empty x y, dirDownLeft opp empty x y, dirUpLeft opp empty x y, dirDownRight opp empty x y].any (fun od => (dirMask od).testBit (y * 8 + x))) = true := by
      rw [specLegal] at hleg
      have hL := (Bool.and_eq_true_iff.mp hleg).2
      rw [List.any_eq_true] at hL
      obtain ⟨d, hdmem, hdm⟩ := hL
      simp only [specDirections, List.mem_cons, List.not_mem_nil, or_false] at hdmem
      rcases hdmem with rfl|rfl|rfl|rfl|rfl|rfl|rfl|rfl
      · have hiso1 : (dirLeft opp empty x y).isSome = true := by
          rw [HL1.1, hEb, Bool.true_and]
          exact hdm
        obtain ⟨⟨m1, c1⟩, h1⟩ := Option.isSome_iff_exists.mp hiso1
        refine List.any_eq_true.mpr ⟨dirLeft opp empty x y, by simp, ?_⟩
        rw [h1]
        simp only [dirMask]
        exact (HL1.2 m1 c1 h1).2 (y * 8 + x) (Or.inl rfl)
      · have hiso1 : (dirRight opp empty x y).isSome = true := by
          rw [HL2.1, hEb, Bool.true_and]
          exact hdm
        obtain ⟨⟨m2, c2⟩, h1⟩ := Option.isSome_iff_exists.mp hiso1
        refine List.any_eq_true.mpr ⟨dirRight opp empty x y, by simp, ?_⟩
        rw [h1]
        simp only [dirMask]
        exact (HL2.2 m2 c2 h1).2 (y * 8 + x) (Or.inl rfl)
      · have hiso1 : (dirUp opp empty x y).isSome = true := by
          rw [HL3.1, hEb, Bool.true_and]
          exact hdm
        obtain ⟨⟨m3, c3⟩, h1⟩ := Option.isSome_iff_exists.mp hiso1
        refine List.any_eq_true.mpr ⟨dirUp opp empty x y, by simp, ?_⟩
        rw [h1]
        simp only [dirMask]
        exact (HL3.2 m3 c3 h1).2 (y * 8 + x) (Or.inl rfl)
      · have hiso1 : (dirDown opp empty x y).isSome = true := by
          rw [HL4.1, hEb, Bool.true_and]
          exact hdm
        obtain ⟨⟨m4, c4⟩, h1⟩ := Option.isSome_iff_exists.mp hiso1
        refine List.any_eq_true.mpr ⟨dirDown opp empty x y, by simp, ?_⟩
        rw [h1]
        simp only [dirMask]
        exact (HL4.2 m4 c4 h1).2 (y * 8 + x) (Or.inl rfl)
      · have hiso1 : (dirUpRight opp empty x y).isSome = true := by
          rw [HL5.1, hEb, Bool.true_and]
          exact hdm
        obtain ⟨⟨m5, c5⟩, h1⟩ := Option.isSome_iff_exists.mp hiso1
        refine List.any_eq_true.mpr ⟨dirUpRight opp empty x y, by simp, ?_⟩
        rw [h1]
        simp only [dirMask]
        exact (HL5.2 m5 c5 h1).2 (y * 8 + x) (Or.inl rfl)
      · have hiso1 : (dirDownLeft opp empty x y).isSome = true := by
          rw [HL6.1, hEb, Bool.true_and]
          exact hdm
        obtain ⟨⟨m6, c6⟩, h1⟩ := Option.isSome_iff_exists.mp hiso1
        refine List.any_eq_true.mpr ⟨dirDownLeft opp empty x y, by simp, ?_⟩
        rw [h1]
        simp only [dirMask]
        exact (HL6.2 m6 c6 h1).2 (y * 8 + x) (Or.inl rfl)
      · have hiso1 : (dirUpLeft opp empty x y).isSome = true := by
          rw [HL7.1, hEb, Bool.true_and]
          exact hdm
        obtain ⟨⟨m7, c7⟩, h1⟩ := Option.isSome_iff_exists.mp hiso1
        refine List.any_eq_true.mpr ⟨dirUpLeft opp empty x y, by simp, ?_⟩
        rw [h1]
        simp only [dirMask]
        exact (HL7.2 m7 c7 h1).2 (y * 8 + x) (Or.inl rfl)
      · have hiso1 : (dirDownRight opp empty x y).isSome = true := by
          rw [HL8.1, hEb, Bool.true_and]
          exact hdm
        obtain ⟨⟨m8, c8⟩, h1⟩ := Option.isSome_iff_exists.mp hiso1
        refine List.any_eq_true.mpr ⟨dirDownRight opp empty x y, by simp, ?_⟩
        rw [h1]
        simp only [dirMask]
        exact (HL8.2 m8 c8 h1).2 (y * 8 + x) (Or.inl rfl)
    have hFiff : ∀ i, ((specFlips mover opp x y).testBit i = true) ↔
        ((specFlipsDir mover opp x y 1 0).testBit i = true ∨
         (specFlipsDir mover opp x y (-1) 0).testBit i = true ∨
         (specFlipsDir mover opp x y 0 1).testBit i = true ∨
         (specFlipsDir mover opp x y 0 (-1)).testBit i = true ∨
         (specFlipsDir mover opp x y (-1) 1).testBit i = true ∨
         (specFlipsDir mover opp x y 1 (-1)).testBit i = true ∨
         (specFlipsDir mover opp x y 1 1).testBit i = true ∨
         (specFlipsDir mover opp x y (-1) (-1)).testBit i = true) := by
      intro i
      have hFexp : specFlips mover opp x y =
          (((((((0 ||| specFlipsDir mover opp x y 1 0) |||
            specFlipsDir mover opp x y (-1) 0) ||| specFlipsDir mover opp x y 0 1) |||
            specFlipsDir mover opp x y 0 (-1)) ||| specFlipsDir mover opp x y (-1) 1) |||
            specFlipsDir mover opp x y 1 (-1)) ||| specFlipsDir mover opp x y 1 1) |||
            specFlipsDir mover opp x y (-1) (-1) := by
        simp only [specFlips, specDirections, List.foldl_cons, List.foldl_nil]
      rw [hFexp]
      simp only [Nat.testBit_or, Nat.zero_testBit, Bool.false_or, Bool.or_eq_true]
      constructor
      · intro h
        rcases h with (((((((h | h) | h) | h) | h) | h) | h) | h)
        · exact Or.inl (h)
        · exact Or.inr (Or.inl (h))
        · exact Or.inr (Or.inr (Or.inl (h)))
        · exact Or.inr (Or.inr (Or.inr (Or.inl (h))))
        · exact Or.inr (Or.inr (Or.inr (Or.inr (Or.inl (h)))))
        · exact Or.inr (Or.inr (Or.inr (Or.inr (Or.inr (Or.inl (h))))))
        · exact Or.inr (Or.inr (Or.inr (Or.inr (Or.inr (Or.inr (Or.inl (h)))))))
        · exact Or.inr (Or.inr (Or.inr (Or.inr (Or.inr (Or.inr (Or.inr (h)))))))
      · intro h
        rcases h with h | h | h | h | h | h | h | h
        · exact Or.inl (Or.inl (Or.inl (Or.inl (Or.inl (Or.inl (Or.inl (h)))))))
        · exact Or.inl (Or.inl (Or.inl (Or.inl (Or.inl (Or.inl (Or.inr (h)))))))
        · exact Or.inl (Or.inl (Or.inl (Or.inl (Or.inl (Or.inr (h))))))
        · exact Or.inl (Or.inl (Or.inl (Or.inl (Or.inr (h)))))
        · exact Or.inl (Or.inl (Or.inl (Or.inr (h))))
        · exact Or.inl (Or.inl (Or.inr (h)))
        · exact Or.inl (Or.inr (h))
        · exact Or.inr (h)
    have hUiff : ∀ i, (([dirLeft opp empty x y, dirRight opp empty x y, dirUp opp empty x y, dirDown opp empty x y, dirUpRight opp empty x y, dirDownLeft opp empty x y, dirUpLeft opp empty x y, dirDownRight opp empty x y].any (fun od => (dirMask od).testBit i)) = true) ↔
        ((dirMask (dirLeft opp empty x y)).testBit i = true ∨
         (dirMask (dirRight opp empty x y)).testBit i = true ∨
         (dirMask (dirUp opp empty x y)).testBit i = true ∨
         (dirMask (dirDown opp empty x y)).testBit i = true ∨
         (dirMask (dirUpRight opp empty x y)).testBit i = true ∨
         (dirMask (dirDownLeft opp empty x y)).testBit i = true ∨
         (dirMask (dirUpLeft opp empty x y)).testBit i = true ∨
         (dirMask (dirDownRight opp empty x y)).testBit i = true) := by
      intro i
      simp only [List.any_cons, List.any_nil, Bool.or_false, Bool.or_eq_true]
    refine ⟨rfl, rfl, ?_, ?_⟩
    · intro i
      show p.testBit i = (decide (i = y * 8 + x) ||
        (specFlips mover opp x y).testBit i || mover.testBit i)
      rw [hpbits i, Bool.eq_iff_iff]
      constructor
      · intro h
        rcases Bool.or_eq_true_iff.mp h with hmv | hU2
        · simp [hmv]
        · rcases (hUiff i).mp hU2 with h1|h1|h1|h1|h1|h1|h1|h1
          · rcases HP1 i h1 with rfl | hF | hmv
            · simp
            · have hFt : (specFlips mover opp x y).testBit i = true :=
                (hFiff i).mpr (Or.inl (hF))
              simp [hFt]
            · simp [hmv]
          · rcases HP2 i h1 with rfl | hF | hmv
            · simp
            · have hFt : (specFlips mover opp x y).testBit i = true :=
                (hFiff i).mpr (Or.inr (Or.inl (hF)))
              simp [hFt]
            · simp [hmv]
          · rcases HP3 i h1 with rfl | hF | hmv
            · simp
            · have hFt : (specFlips mover opp x y).testBit i = true :=
                (hFiff i).mpr (Or.inr (Or.inr (Or.inl (hF))))
              simp [hFt]
            · simp [hmv]
          · rcases HP4 i h1 with rfl | hF | hmv
            · simp
            · have hFt : (specFlips mover opp x y).testBit i = true :=
                (hFiff i).mpr (Or.inr (Or.inr (Or.inr (Or.inl (hF)))))
              simp [hFt]
            · simp [hmv]
          · rcases HP5 i h1 with rfl | hF | hmv
            · simp
            · have hFt : (specFlips mover opp x y).testBit i = true :=
                (hFiff i).mpr (Or.inr (Or.inr (Or.inr (Or.inr (Or.inl (hF))))))
              simp [hFt]
            · simp [hmv]
          · rcases HP6 i h1 with rfl | hF | hmv
            · simp
            · have hFt : (specFlips mover opp x y).testBit i = true :=
                (hFiff i).mpr (Or.inr (Or.inr (Or.inr (Or.inr (Or.inr (Or.inl (hF)))))))
              simp [hFt]
            · simp [hmv]
          · rcases HP7 i h1 with rfl | hF | hmv
            · simp
            · have hFt : (specFlips mover opp x y).testBit i = true :=
                (hFiff i).mpr (Or.inr (Or.inr (Or.inr (Or.inr (Or.inr (Or.inr (Or.inl (hF))))))))
              simp [hFt]
            · simp [hmv]
          · rcases HP8 i h1 with rfl | hF | hmv
            · simp
            · have hFt : (specFlips mover opp x y).testBit i = true :=
                (hFiff i).mpr (Or.inr (Or.inr (Or.inr (Or.inr (Or.inr (Or.inr (Or.inr (hF))))))))
              simp [hFt]
            · simp [hmv]
      · intro h
        rcases Bool.or_eq_true_iff.mp h with h12 | hmv
        · rcases Bool.or_eq_true_iff.mp h12 with hplaced | hF
          · rw [decide_eq_true_iff] at hplaced
            subst hplaced
            exact Bool.or_eq_true_iff.mpr (Or.inr hU)
          · rcases (hFiff i).mp hF with h1|h1|h1|h1|h1|h1|h1|h1
            · exact Bool.or_eq_true_iff.mpr (Or.inr ((hUiff i).mpr
                (Or.inl (HQ1 i h1))))
            · exact Bool.or_eq_true_iff.mpr (Or.inr ((hUiff i).mpr
                (Or.inr (Or.inl (HQ2 i h1)))))
            · exact Bool.or_eq_true_iff.mpr (Or.inr ((hUiff i).mpr
                (Or.inr (Or.inr (Or.inl (HQ3 i h1))))))
            · exact Bool.or_eq_true_iff.mpr (Or.inr ((hUiff i).mpr
                (Or.inr (Or.inr (Or.inr (Or.inl (HQ4 i h1)))))))
            · exact Bool.or_eq_true_iff.mpr (Or.inr ((hUiff i).mpr
                (Or.inr (Or.inr (Or.inr (Or.inr (Or.inl (HQ5 i h1))))))))
            · exact Bool.or_eq_true_iff.mpr (Or.inr ((hUiff i).mpr
                (Or.inr (Or.inr (Or.inr (Or.inr (Or.inr (Or.inl (HQ6 i h1)))))))))
            · exact Bool.or_eq_true_iff.mpr (Or.inr ((hUiff i).mpr
                (Or.inr (Or.inr (Or.inr (Or.inr (Or.inr (Or.inr (Or.inl (HQ7 i h1))))))))))
            · exact Bool.or_eq_true_iff.mpr (Or.inr ((hUiff i).mpr
                (Or.inr (Or.inr (Or.inr (Or.inr (Or.inr (Or.inr (Or.inr (HQ8 i h1))))))))))
        · exact Bool.or_eq_true_iff.mpr (Or.inl hmv)
    · intro i hi
      show o.testBit i = (opp.testBit i && !(specFlips mover opp x y).testBit i)
      rw [hobits i hi, Bool.eq_iff_iff]
      constructor
      · intro h
        obtain ⟨hop, hnU⟩ := Bool.and_eq_true_iff.mp h
        refine Bool.and_eq_true_iff.mpr ⟨hop, ?_⟩
        cases hFb : (specFlips mover opp x y).testBit i with
        | false => rfl
        | true =>
          exfalso
          rcases (hFiff i).mp hFb with h1|h1|h1|h1|h1|h1|h1|h1
          · have hUt := (hUiff i).mpr (Or.inl (HQ1 i h1))
            rw [hUt] at hnU
            simp at hnU
          · have hUt := (hUiff i).mpr (Or.inr (Or.inl (HQ2 i h1)))
            rw [hUt] at hnU
            simp at hnU
          · have hUt := (hUiff i).mpr (Or.inr (Or.inr (Or.inl (HQ3 i h1))))
            rw [hUt] at hnU
            simp at hnU
          · have hUt := (hUiff i).mpr (Or.inr (Or.inr (Or.inr (Or.inl (HQ4 i h1)))))
            rw [hUt] at hnU
            simp at hnU
          · have hUt := (hUiff i).mpr (Or.inr (Or.inr (Or.inr (Or.inr (Or.inl (HQ5 i h1))))))
            rw [hUt] at hnU
            simp at hnU
          · have hUt := (hUiff i).mpr (Or.inr (Or.inr (Or.inr (Or.inr (Or.inr (Or.inl (HQ6 i h1)))))))
            rw [hUt] at hnU
            simp at hnU
          · have hUt := (hUiff i).mpr (Or.inr (Or.inr (Or.inr (Or.inr (Or.inr (Or.inr (Or.inl (HQ7 i h1))))))))
            rw [hUt] at hnU
            simp at hnU
          · have hUt := (hUiff i).mpr (Or.inr (Or.inr (Or.inr (Or.inr (Or.inr (Or.inr (Or.inr (HQ8 i h1))))))))
            rw [hUt] at hnU
            simp at hnU
      · intro h
        obtain ⟨hop, hnF⟩ := Bool.and_eq_true_iff.mp h
        refine Bool.and_eq_true_iff.mpr ⟨hop, ?_⟩
        cases hUb : ([dirLeft opp empty x y, dirRight opp empty x y, dirUp opp empty x y, dirDown opp empty x y, dirUpRight opp empty x y, dirDownLeft opp empty x y, dirUpLeft opp empty x y, dirDownRight opp empty x y].any (fun od => (dirMask od).testBit i)) with
        | false => rfl
        | true =>
          exfalso
          rcases (hUiff i).mp hUb with h1|h1|h1|h1|h1|h1|h1|h1
          · rcases HP1 i h1 with rfl | hF | hmv
            · rw [hoppidx] at hop
              exact absurd hop (by simp)
            · have hFt : (specFlips mover opp x y).testBit i = true :=
                (hFiff i).mpr (Or.inl (hF))
              rw [hFt] at hnF
              simp at hnF
            · exact hdb i ⟨hmv, hop⟩
          · rcases HP2 i h1 with rfl | hF | hmv
            · rw [hoppidx] at hop
              exact absurd hop (by simp)
            · have hFt : (specFlips mover opp x y).testBit i = true :=
                (hFiff i).mpr (Or.inr (Or.inl (hF)))
              rw [hFt] at hnF
              simp at hnF
            · exact hdb i ⟨hmv, hop⟩
          · rcases HP3 i h1 with rfl | hF | hmv
            · rw [hoppidx] at hop
              exact absurd hop (by simp)
            · have hFt : (specFlips mover opp x y).testBit i = true :=
                (hFiff i).mpr (Or.inr (Or.inr (Or.inl (hF))))
              rw [hFt] at hnF
              simp at hnF
            · exact hdb i ⟨hmv, hop⟩
          · rcases HP4 i h1 with rfl | hF | hmv
            · rw [hoppidx] at hop
              exact absurd hop (by simp)
            · have hFt : (specFlips mover opp x y).testBit i = true :=
                (hFiff i).mpr (Or.inr (Or.inr (Or.inr (Or.inl (hF)))))
              rw [hFt] at hnF
              simp at hnF
            · exact hdb i ⟨hmv, hop⟩
          · rcases HP5 i h1 with rfl | hF | hmv
            · rw [hoppidx] at hop
              exact absurd hop (by simp)
            · have hFt : (specFlips mover opp x y).testBit i = true :=
                (hFiff i).mpr (Or.inr (Or.inr (Or.inr (Or.inr (Or.inl (hF))))))
              rw [hFt] at hnF
              simp at hnF
            · exact hdb i ⟨hmv, hop⟩
          · rcases HP6 i h1 with rfl | hF | hmv
            · rw [hoppidx] at hop
              exact absurd hop (by simp)
            · have hFt : (specFlips mover opp x y).testBit i = true :=
                (hFiff i).mpr (Or.inr (Or.inr (Or.inr (Or.inr (Or.inr (Or.inl (hF)))))))
              rw [hFt] at hnF
              simp at hnF
            · exact hdb i ⟨hmv, hop⟩
          · rcases HP7 i h1 with rfl | hF | hmv
            · rw [hoppidx] at hop
              exact absurd hop (by simp)
            · have hFt : (specFlips mover opp x y).testBit i = true :=
                (hFiff i).mpr (Or.inr (Or.inr (Or.inr (Or.inr (Or.inr (Or.inr (Or.inl (hF))))))))
              rw [hFt] at hnF
              simp at hnF
            · exact hdb i ⟨hmv, hop⟩
          · rcases HP8 i h1 with rfl | hF | hmv
            · rw [hoppidx] at hop
              exact absurd hop (by simp)
            · have hFt : (specFlips mover opp x y).testBit i = true :=
                (hFiff i).mpr (Or.inr (Or.inr (Or.inr (Or.inr (Or.inr (Or.inr (Or.inr (hF))))))))
              rw [hFt] at hnF
              simp at hnF
            · exact hdb i ⟨hmv, hop⟩

end Hammer

namespace Hammer

theorem nodup_map_filterMap (l : List Nat) (f : Nat → Option ChildMove)
    (g' : Nat → Nat × Nat)
    (hf : ∀ i ∈ l, ∀ c, f i = some c → (c.x, c.y) = g' i)
    (hl : (l.map g').Nodup) :
    ((l.filterMap f).map (fun c => (c.x, c.y))).Nodup := by
  induction l with
  | nil => simp
  | cons hd tl ih =>
    rw [List.map_cons, List.nodup_cons] at hl
    obtain ⟨hnm, htl⟩ := hl
    cases hfh : f hd with
    | none =>
      rw [List.filterMap_cons_none hfh]
      exact ih (fun i hi c hc => hf i (List.mem_cons_of_mem _ hi) c hc) htl
    | some c =>
      rw [List.filterMap_cons_some hfh, List.map_cons, List.nodup_cons]
      refine ⟨?_, ih (fun i hi c' hc' => hf i (List.mem_cons_of_mem _ hi) c' hc') htl⟩
      intro hmem
      rw [List.mem_map] at hmem
      obtain ⟨c', hc'mem, hgc'⟩ := hmem
      rw [List.mem_filterMap] at hc'mem
      obtain ⟨i, hi, hfi⟩ := hc'mem
      have h1 : (c'.x, c'.y) = g' i := hf i (List.mem_cons_of_mem _ hi) c' hfi
      have h2 : (c.x, c.y) = g' hd := hf hd (List.mem_cons_self _ _) c hfh
      exact hnm (List.mem_map.mpr ⟨i, hi, by rw [← h1, hgc', h2]⟩)

end Hammer

namespace Hammer

theorem C1_move_generation_core (player opponent : Nat)
    (hp : player < 2 ^ 64) (ho : opponent < 2 ^ 64)
    (hdisj : player &&& opponent = 0) :
    (∀ x y, x < 8 → y < 8 →
      ((∃ c ∈ generate_child_moves player opponent, c.x = x ∧ c.y = y) ↔
        specLegal opponent player x y = true)) ∧
    (∀ c ∈ generate_child_moves player opponent,
      (∀ i, c.player.testBit i =
        (decide (i = c.y * 8 + c.x) || (specFlips opponent player c.x c.y).testBit i ||
          opponent.testBit i)) ∧
      (∀ i, i < 64 → c.opponent.testBit i =
        (player.testBit i && !(specFlips opponent player c.x c.y).testBit i))) ∧
    (((generate_child_moves player opponent).map (fun c => (c.x, c.y))).Nodup) := by
  have hdisj2 : opponent &&& player = 0 := by rw [Nat.land_comm]; exact hdisj
  have hgen : generate_child_moves player opponent =
      (List.range 64).filterMap (fun i => cellOutcome opponent player
        ((2 ^ 64 - 1) ^^^ u64 (opponent ||| player)) (i % 8) (i / 8)) := rfl
  have hcs := fun (i : Nat) (hi : i < 64) => Hammer.cellOutcome_spec opponent player
      ((2 ^ 64 - 1) ^^^ u64 (opponent ||| player)) ho hp hdisj2 rfl (i % 8) (i / 8)
      (Nat.mod_lt _ (by norm_num)) (by omega)
  refine ⟨?_, ?_, ?_⟩
  · intro x y hx hy
    constructor
    · rintro ⟨c, hcmem, hcx, hcy⟩
      rw [hgen, List.mem_filterMap] at hcmem
      obtain ⟨i, hir, hfi⟩ := hcmem
      rw [List.mem_range] at hir
      obtain ⟨hxeq, hyeq, -, -⟩ := (hcs i hir).2 c hfi
      have hiso : (cellOutcome opponent player
          ((2 ^ 64 - 1) ^^^ u64 (opponent ||| player)) (i % 8) (i / 8)).isSome = true := by
        rw [hfi]
        rfl
      rw [(hcs i hir).1] at hiso
      have hxx : x = i % 8 := by rw [← hcx, hxeq]
      have hyy : y = i / 8 := by rw [← hcy, hyeq]
      rw [hxx, hyy]
      exact hiso
    · intro hleg
      have hi64 : y * 8 + x < 64 := by omega
      have hcsi := hcs (y * 8 + x) hi64
      have hmod : (y * 8 + x) % 8 = x := by omega
      have hdiv : (y * 8 + x) / 8 = y := by omega
      rw [hmod, hdiv] at hcsi
      have hiso : (cellOutcome opponent player
          ((2 ^ 64 - 1) ^^^ u64 (opponent ||| player)) x y).isSome = true := by
        rw [hcsi.1]
        exact hleg
      obtain ⟨c, hc⟩ := Option.isSome_iff_exists.mp hiso
      refine ⟨c, ?_, (hcsi.2 c hc).1, (hcsi.2 c hc).2.1⟩
      rw [hgen, List.mem_filterMap]
      refine ⟨y * 8 + x, List.mem_range.mpr hi64, ?_⟩
      rw [hmod, hdiv]
      exact hc
  · intro c hcmem
    rw [hgen, List.mem_filterMap] at hcmem
    obtain ⟨i, hir, hfi⟩ := hcmem
    rw [List.mem_range] at hir
    obtain ⟨hxeq, hyeq, hpbits, hobits⟩ := (hcs i hir).2 c hfi
    constructor
    · intro j
      rw [hxeq, hyeq]
      exact hpbits j
    · intro j hj
      rw [hxeq, hyeq]
      exact hobits j hj
  · rw [hgen]
    refine nodup_map_filterMap _ _ (fun i => (i % 8, i / 8)) ?_ ?_
    · intro i hi c hc
      rw [List.mem_range] at hi
      obtain ⟨hxeq, hyeq, -, -⟩ := (hcs i hi).2 c hc
      rw [hxeq, hyeq]
    · refine (List.nodup_range 64).map_on ?_
      intro a ha b hb hab
      rw [List.mem_range] at ha hb
      have h1 : a % 8 = b % 8 := congrArg Prod.fst hab
      have h2 : a / 8 = b / 8 := congrArg Prod.snd hab
      omega

end Hammer

namespace Hammer

/-- **C1**: for every position with disjoint bitboards, `generate_child_moves`
produces exactly the legal Reversi moves of the side to move (the structure's
`opponent`, per the role swap at the top of the function): a cell is recorded
iff it is empty and some direction holds an opposing run terminated by a mover
tile; each recorded child's `player` set is the mover set plus the placed cell
plus the union of all contributing directional flip runs, its `opponent` set
is the old mover-opponent set minus those flips (roles swapped for the child);
recorded cells are pairwise distinct; and on the canonical starting position
exactly 4 moves are produced, each flipping exactly 1 tile. -/
theorem C1_move_generation (player opponent : Nat)
    (hp : player < 2 ^ 64) (ho : opponent < 2 ^ 64)
    (hdisj : player &&& opponent = 0) :
    ((∀ x y, x < 8 → y < 8 →
      ((∃ c ∈ generate_child_moves player opponent, c.x = x ∧ c.y = y) ↔
        specLegal opponent player x y = true)) ∧
    (∀ c ∈ generate_child_moves player opponent,
      (∀ i, c.player.testBit i =
        (decide (i = c.y * 8 + c.x) || (specFlips opponent player c.x c.y).testBit i ||
          opponent.testBit i)) ∧
      (∀ i, i < 64 → c.opponent.testBit i =
        (player.testBit i && !(specFlips opponent player c.x c.y).testBit i))) ∧
    (((generate_child_moves player opponent).map (fun c => (c.x, c.y))).Nodup)) ∧
    ((generate_child_moves START_PLAYER START_OPPONENT).length = 4 ∧
      ∀ c ∈ generate_child_moves START_PLAYER START_OPPONENT,
        popcnt64 c.player = 4 ∧ popcnt64 c.opponent = 1) := by
  refine ⟨C1_move_generation_core player opponent hp ho hdisj, ?_, ?_⟩
  · decide
  · decide

/-- Witness for C1 at the canonical starting position. -/
theorem C1_move_generation_witness :
    START_PLAYER < 2 ^ 64 ∧ START_OPPONENT < 2 ^ 64 ∧
    START_PLAYER &&& START_OPPONENT = 0 ∧
    (((∀ x y, x < 8 → y < 8 →
      ((∃ c ∈ generate_child_moves START_PLAYER START_OPPONENT, c.x = x ∧ c.y = y) ↔
        specLegal START_OPPONENT START_PLAYER x y = true)) ∧
    (∀ c ∈ generate_child_moves START_PLAYER START_OPPONENT,
      (∀ i, c.player.testBit i =
        (decide (i = c.y * 8 + c.x) ||
          (specFlips START_OPPONENT START_PLAYER c.x c.y).testBit i ||
          START_OPPONENT.testBit i)) ∧
      (∀ i, i < 64 → c.opponent.testBit i =
        (START_PLAYER.testBit i &&
          !(specFlips START_OPPONENT START_PLAYER c.x c.y).testBit i))) ∧
    (((generate_child_moves START_PLAYER START_OPPONENT).map
        (fun c => (c.x, c.y))).Nodup)) ∧
    ((generate_child_moves START_PLAYER START_OPPONENT).length = 4 ∧
      ∀ c ∈ generate_child_moves START_PLAYER START_OPPONENT,
        popcnt64 c.player = 4 ∧ popcnt64 c.opponent = 1)) :=
  ⟨by decide, by decide, by decide,
    C1_move_generation START_PLAYER START_OPPONENT (by decide) (by decide) (by decide)⟩

end Hammer
